import Mathlib

/-!
Verification of the anvil-nbt repository (NBT tag codec, Modified UTF-8 text
codec, and Anvil region container) against its specification.

Shallow embedding conventions:
* Rust byte slices `&[u8]` become `List Nat` whose elements are < 256.
* Rust `String` values are modelled by their sequence of Unicode scalar
  values, i.e. a `List Nat` of code points that are not surrogates.
* Machine integers are modelled as `Nat` bit patterns with explicit `% 2^w`
  where wrap-around matters.  Bit operations on bytes are written
  arithmetically: `x >> k` is `x / 2^k`, `x & (2^k - 1)` is `x % 2^k`, and
  `a | b` is `a + b` when the set bits are disjoint (always the case in the
  source sites embedded here, which mask both operands first).
* Fallible functions return `Except`; Rust panics (slice index out of
  bounds, capacity overflow) are modelled by a distinguished outcome.
-/

namespace AnvilNbt

/-! ## Modified UTF-8 text codec (src/nbt/mutf8.rs) -/

/-- A Unicode scalar value: what a Rust `char` can hold
(`char::from_u32` succeeds exactly on these). -/
def isScalar (c : Nat) : Bool :=
  decide (c < 0xD800) || (decide (0xE000 ≤ c) && decide (c < 0x110000))

/-- The UTF-16 code units of one Unicode scalar value, as produced by
`str::encode_utf16`: code points below 0x10000 are themselves, larger ones
become a high/low surrogate pair. -/
def utf16Units (c : Nat) : List Nat :=
  if c < 0x10000 then [c]
  else [0xD800 + (c - 0x10000) / 0x400, 0xDC00 + (c - 0x10000) % 0x400]

/-- Byte sequence emitted by `encode_mutf8` for one UTF-16 code unit
(the body of the `for c in s.encode_utf16()` loop in src/nbt/mutf8.rs). -/
def encodeUnit (c : Nat) : List Nat :=
  if c = 0 then [0xC0, 0x80]
  else if c < 0x80 then [c]
  else if c < 0x800 then [0xC0 + c / 64, 0x80 + c % 64]
  else [0xE0 + c / 4096, 0x80 + c / 64 % 64, 0x80 + c % 64]

/-- MUTF-8 bytes of a list of UTF-16 code units. -/
def encodeUnits : List Nat → List Nat
  | [] => []
  | u :: us => encodeUnit u ++ encodeUnits us

/-- Embeds `encode_mutf8` (src/nbt/mutf8.rs lines 111-129): iterate the
string's UTF-16 code units and emit the MUTF-8 bytes of each. -/
def encode_mutf8 (s : List Nat) : List Nat :=
  encodeUnits (s.flatMap utf16Units)

/-- MUTF-8 bytes of one Unicode scalar value. -/
def encodeChar (c : Nat) : List Nat :=
  encodeUnits (utf16Units c)

/-- Embeds `char::from_u32(v)` followed by `?` on failure: succeeds exactly
on Unicode scalar values. -/
def pushChar (v : Nat) : Except Unit Nat :=
  if isScalar v then .ok v else .error ()

/-- Push one decoded character onto the result of the rest of the loop
(`result.push(c)` in the source, with fuel exhaustion propagated). -/
def contCons (c : Nat) : Option (Except Unit (List Nat)) → Option (Except Unit (List Nat))
  | none => none
  | some (.error e) => some (.error e)
  | some (.ok s) => some (.ok (c :: s))

/-- Embeds `result.push(char::from_u32(v)...?)` followed by continuing the
loop on `r` through the continuation `go`. -/
def decodePush (go : List Nat → Option (Except Unit (List Nat))) (v : Nat)
    (r : List Nat) : Option (Except Unit (List Nat)) :=
  match pushChar v with
  | .error _ => some (.error ())
  | .ok c => contCons c (go r)

/-- The 2-byte branch of the decode loop (src/nbt/mutf8.rs lines 43-58):
`b` is the lead byte, the list argument is the input after it. -/
def decodeTwoStep (go : List Nat → Option (Except Unit (List Nat))) (b : Nat) :
    List Nat → Option (Except Unit (List Nat))
  | [] => some (.error ())
  | b2 :: rest2 =>
    if b2 / 64 ≠ 2 then some (.error ())
    else decodePush go ((b % 32) * 64 + b2 % 64) rest2

/-- After a complete 3-byte sequence decoded to UTF-16 value `v`
(src/nbt/mutf8.rs lines 73-101): look ahead for the second half of a
surrogate pair, else push `v` itself and continue at the lookahead bytes. -/
def decodeAfterThreeStep (go : List Nat → Option (Except Unit (List Nat))) (v : Nat) :
    List Nat → Option (Except Unit (List Nat))
  | b4 :: b5 :: b6 :: rest6 =>
    if 0xD800 ≤ v ∧ v ≤ 0xDBFF ∧ b4 = 0xED ∧ b5 / 16 = 11 then
      let v2 := (b4 % 16) * 4096 + (b5 % 64) * 64 + b6 % 64
      if 0xDC00 ≤ v2 ∧ v2 ≤ 0xDFFF then
        decodePush go (0x10000 + (v - 0xD800) * 1024 + (v2 - 0xDC00)) rest6
      else decodePush go v (b4 :: b5 :: b6 :: rest6)
    else decodePush go v (b4 :: b5 :: b6 :: rest6)
  | r => decodePush go v r

/-- The 3-byte branch of the decode loop (src/nbt/mutf8.rs lines 59-101). -/
def decodeThreeStep (go : List Nat → Option (Except Unit (List Nat))) (b : Nat) :
    List Nat → Option (Except Unit (List Nat))
  | b2 :: b3 :: rest3 =>
    if b2 / 64 ≠ 2 ∨ b3 / 64 ≠ 2 then some (.error ())
    else decodeAfterThreeStep go ((b % 16) * 4096 + (b2 % 64) * 64 + b3 % 64) rest3
  | _ => some (.error ())

/-- One iteration of the main `while` loop of `decode_mutf8`
(src/nbt/mutf8.rs lines 37-105), with `go` the continuation for the rest of
the loop.  Byte tests are written arithmetically: for a byte `b < 256`,
`b & 0xE0 == 0xC0` is `b / 32 = 6`, `b & 0xF0 == 0xE0` is `b / 16 = 14`,
`b & 0xC0 == 0x80` is `b / 64 = 2`, and `b & 0xF0 == 0xB0` is `b / 16 = 11`. -/
def decodeStep (go : List Nat → Option (Except Unit (List Nat))) :
    List Nat → Option (Except Unit (List Nat))
  | [] => some (.ok [])
  | b :: rest =>
    if b < 0x80 then contCons b (go rest)
    else if b / 32 = 6 then decodeTwoStep go b rest
    else if b / 16 = 14 then decodeThreeStep go b rest
    else some (.error ())

/-- The decode loop with explicit fuel bounding the number of iterations;
`none` means the fuel ran out, which never happens for fuel exceeding the
input length since every iteration consumes at least one byte. -/
def decodeLoopF : Nat → List Nat → Option (Except Unit (List Nat))
  | 0, _ => none
  | f + 1, l => decodeStep (decodeLoopF f) l

/-- Embeds `decode_mutf8` (src/nbt/mutf8.rs lines 24-108): the all-printable-
ASCII fast path returns the bytes unchanged, otherwise the decode loop runs
(with always-sufficient fuel). -/
def decode_mutf8 (data : List Nat) : Except Unit (List Nat) :=
  if data.all (fun b => decide (0 < b) && decide (b < 0x80)) then .ok data
  else (decodeLoopF (data.length + 1) data).getD (.error ())

/-- Prepend a decoded string onto the result of the rest of the loop. -/
def contApp (s : List Nat) : Option (Except Unit (List Nat)) → Option (Except Unit (List Nat))
  | none => none
  | some (.error e) => some (.error e)
  | some (.ok t) => some (.ok (s ++ t))

/-! ## NBT tag model (src/nbt/mod.rs) -/

/-- Embeds `ParseError` (src/nbt/parse.rs lines 15-22). -/
inductive ParseError where
  | UnexpectedEof
  | InvalidTag (t : Nat)
  | InvalidString
  deriving DecidableEq, Repr

/-- Embeds `NbtTag` (src/nbt/mod.rs lines 32-59).  Numeric payloads are the
bit patterns of the corresponding machine integers (`i8`/`i16`/`i32`/`i64`
and the raw bits of `f32`/`f64`, which the codec moves with
`to_bits`/`from_bits` semantics); strings are Unicode scalar sequences; the
`IndexMap` of a compound is its insertion-ordered entry list. -/
inductive NbtTag where
  | End
  | Byte (v : Nat)
  | Short (v : Nat)
  | Int (v : Nat)
  | Long (v : Nat)
  | Float (bits : Nat)
  | Double (bits : Nat)
  | ByteArray (v : List Nat)
  | String (s : List Nat)
  | List (v : List NbtTag)
  | Compound (entries : List (List Nat × NbtTag))
  | IntArray (v : List Nat)
  | LongArray (v : List Nat)

/-- Embeds `NbtTag::get_type_id` (src/nbt/mod.rs lines 63-79). -/
def get_type_id : NbtTag → Nat
  | .End => 0
  | .Byte _ => 1
  | .Short _ => 2
  | .Int _ => 3
  | .Long _ => 4
  | .Float _ => 5
  | .Double _ => 6
  | .ByteArray _ => 7
  | .String _ => 8
  | .List _ => 9
  | .Compound _ => 10
  | .IntArray _ => 11
  | .LongArray _ => 12

/-- `IndexMap::insert`: if the key is present, replace its value in place
(keeping its position); otherwise append the new entry at the end. -/
def indexInsert : List (List Nat × NbtTag) → List Nat → NbtTag → List (List Nat × NbtTag)
  | [], k, v => [(k, v)]
  | (k', v') :: rest, k, v =>
    if k' = k then (k', v) :: rest else (k', v') :: indexInsert rest k v

/-! ## Big-endian byte helpers

`uNbe n` is the big-endian byte sequence written by
`write_uN::<BigEndian>`/`to_be_bytes`; the `% 256` per byte makes each
entry the corresponding byte of the bit pattern, so `uNbe n = uNbe (n % 2^N)`
and the `as uN` casts of wider values are absorbed. -/

def u16be (n : Nat) : List Nat := [n / 256 % 256, n % 256]

def u32be (n : Nat) : List Nat :=
  [n / 16777216 % 256, n / 65536 % 256, n / 256 % 256, n % 256]

def u64be (n : Nat) : List Nat :=
  [n / 72057594037927936 % 256, n / 281474976710656 % 256,
   n / 1099511627776 % 256, n / 4294967296 % 256,
   n / 16777216 % 256, n / 65536 % 256, n / 256 % 256, n % 256]

/-- The value of `(x as usize)` for an `i32` with bit pattern `n` on the
64-bit target: negative values sign-extend. -/
def i32ToUsize (n : Nat) : Nat :=
  if n < 2147483648 then n else n + 18446744069414584320

/-! ## NBT encoder (src/nbt/encode.rs) -/

/-- Embeds `write_nbt_string` (src/nbt/encode.rs lines 10-15): a 2-byte
big-endian prefix holding `bytes.len() as u16` (truncated to 16 bits by
`u16be`), then all encoded bytes. -/
def write_nbt_string (s : List Nat) : List Nat :=
  u16be (encode_mutf8 s).length ++ encode_mutf8 s

def writeInts : List Nat → List Nat
  | [] => []
  | x :: xs => u32be x ++ writeInts xs

def writeLongs : List Nat → List Nat
  | [] => []
  | x :: xs => u64be x ++ writeLongs xs

mutual

/-- Embeds `write_tag_payload` (src/nbt/encode.rs lines 20-72). -/
def write_tag_payload : NbtTag → List Nat
  | .End => []
  | .Byte v => [v % 256]
  | .Short v => u16be v
  | .Int v => u32be v
  | .Long v => u64be v
  | .Float bits => u32be bits
  | .Double bits => u64be bits
  | .ByteArray v => u32be v.length ++ v
  | .String s => write_nbt_string s
  | .List v =>
    match v with
    | [] => 0 :: u32be 0
    | t :: ts => get_type_id t :: (u32be (t :: ts).length ++ writeListPayloads (t :: ts))
  | .Compound es => writeCompoundEntries es ++ [0]
  | .IntArray v => u32be v.length ++ writeInts v
  | .LongArray v => u32be v.length ++ writeLongs v

/-- The `for element in v` loop of the List case. -/
def writeListPayloads : List NbtTag → List Nat
  | [] => []
  | t :: ts => write_tag_payload t ++ writeListPayloads ts

/-- The `for (name, tag) in v` loop of the Compound case. -/
def writeCompoundEntries : List (List Nat × NbtTag) → List Nat
  | [] => []
  | (n, t) :: es =>
    get_type_id t :: (write_nbt_string n ++ write_tag_payload t) ++ writeCompoundEntries es

end

/-- Embeds `write_named_tag` (src/nbt/encode.rs lines 77-82). -/
def write_named_tag (name : List Nat) (tag : NbtTag) : List Nat :=
  get_type_id tag :: (write_nbt_string name ++ write_tag_payload tag)

/-! ## NBT parser (src/nbt/parse.rs) -/

/-- Result of a parsing step: error, or value plus remaining input
(the `ByteReader` cursor advanced past the consumed bytes). -/
abbrev PRes (α : Type) := Except ParseError (α × List Nat)

/-- Embeds `ByteReader::read_u8` (also `read_i8`, whose value is the same
bit pattern). -/
def readU8 : List Nat → PRes Nat
  | [] => .error .UnexpectedEof
  | b :: r => .ok (b, r)

/-- Embeds `ByteReader::read_u16`/`read_i16` (big-endian bit pattern). -/
def readU16 : List Nat → PRes Nat
  | b1 :: b2 :: r => .ok (b1 * 256 + b2, r)
  | _ => .error .UnexpectedEof

/-- Embeds `ByteReader::read_i32` (and `read_f32` via `from_bits`):
big-endian 32-bit bit pattern. -/
def readU32 : List Nat → PRes Nat
  | b1 :: b2 :: b3 :: b4 :: r =>
    .ok (b1 * 16777216 + b2 * 65536 + b3 * 256 + b4, r)
  | _ => .error .UnexpectedEof

/-- Embeds `ByteReader::read_i64` (and `read_f64` via `from_bits`):
big-endian 64-bit bit pattern. -/
def readU64 : List Nat → PRes Nat
  | b1 :: b2 :: b3 :: b4 :: b5 :: b6 :: b7 :: b8 :: r =>
    .ok (b1 * 72057594037927936 + b2 * 281474976710656 + b3 * 1099511627776
      + b4 * 4294967296 + b5 * 16777216 + b6 * 65536 + b7 * 256 + b8, r)
  | _ => .error .UnexpectedEof

/-- Embeds `ByteReader::read_bytes` (src/nbt/parse.rs lines 102-109). -/
def readBytes (n : Nat) (l : List Nat) : PRes (List Nat) :=
  if l.length < n then .error .UnexpectedEof else .ok (l.take n, l.drop n)

/-- Embeds `parse_nbt_string` (src/nbt/parse.rs lines 113-117). -/
def parse_nbt_string (l : List Nat) : PRes (List Nat) :=
  match readU16 l with
  | .error e => .error e
  | .ok (len, r) =>
    match readBytes len r with
    | .error e => .error e
    | .ok (bs, r2) =>
      match decode_mutf8 bs with
      | .ok s => .ok (s, r2)
      | .error _ => .error .InvalidString

/-- The `chunks_exact(4)` big-endian reconstruction of the IntArray case. -/
def beChunks4 : List Nat → List Nat
  | b1 :: b2 :: b3 :: b4 :: r =>
    (b1 * 16777216 + b2 * 65536 + b3 * 256 + b4) :: beChunks4 r
  | _ => []

/-- The `chunks_exact(8)` big-endian reconstruction of the LongArray case. -/
def beChunks8 : List Nat → List Nat
  | b1 :: b2 :: b3 :: b4 :: b5 :: b6 :: b7 :: b8 :: r =>
    (b1 * 72057594037927936 + b2 * 281474976710656 + b3 * 1099511627776
      + b4 * 4294967296 + b5 * 16777216 + b6 * 65536 + b7 * 256 + b8) :: beChunks8 r
  | _ => []

/-- The element loop of the List case (src/nbt/parse.rs lines 139-141),
structurally recursive on the element count; `pay` parses one element. -/
def parseListStep (pay : List Nat → Option (PRes NbtTag)) :
    Nat → List Nat → Option (PRes (List NbtTag))
  | 0, l => some (.ok ([], l))
  | c + 1, l =>
    match pay l with
    | none => none
    | some (.error e) => some (.error e)
    | some (.ok (t, r)) =>
      match parseListStep pay c r with
      | none => none
      | some (.error e) => some (.error e)
      | some (.ok (ts, r2)) => some (.ok (t :: ts, r2))

/-- The Compound loop (src/nbt/parse.rs lines 144-156): read a type byte,
stop on 0, else read a name and a payload (via `pay`) and
`IndexMap::insert` into the accumulator.  `cf` bounds the number of
iterations; since every iteration consumes at least one byte, any
`cf` exceeding the input length is enough and the `none` (fuel out)
case is unreachable from the public entry points. -/
def parseCompoundF (pay : Nat → List Nat → Option (PRes NbtTag)) :
    Nat → List (List Nat × NbtTag) → List Nat →
    Option (PRes (List (List Nat × NbtTag)))
  | 0, _, _ => none
  | cf + 1, acc, l =>
    match readU8 l with
    | .error e => some (.error e)
    | .ok (tt, r1) =>
      if tt = 0 then some (.ok (acc, r1))
      else
        match parse_nbt_string r1 with
        | .error e => some (.error e)
        | .ok (name, r2) =>
          match pay tt r2 with
          | none => none
          | some (.error e) => some (.error e)
          | some (.ok (t, r3)) => parseCompoundF pay cf (indexInsert acc name t) r3

/-- Embeds `parse_tag_payload` (src/nbt/parse.rs lines 120-179), with fuel
bounding the nesting depth (each level of nesting consumes bytes, so fuel
exceeding the input length is always enough; `none` = fuel exhausted, never
reachable from the public entry points).  The `as usize` casts of the
signed element counts and the `len * 4`/`len * 8` byte-length products
follow the wrapping (release-mode) semantics of the 64-bit target.
`Vec::with_capacity` allocation behaviour is not part of this functional
model; see `listCaseCapacity` for the allocation request of the List case. -/
def parsePayloadF : Nat → Nat → List Nat → Option (PRes NbtTag)
  | 0, _, _ => none
  | f + 1, t, l =>
    match t with
    | 0 => some (.ok (.End, l))
    | 1 =>
      match readU8 l with
      | .error e => some (.error e)
      | .ok (b, r) => some (.ok (.Byte b, r))
    | 2 =>
      match readU16 l with
      | .error e => some (.error e)
      | .ok (v, r) => some (.ok (.Short v, r))
    | 3 =>
      match readU32 l with
      | .error e => some (.error e)
      | .ok (v, r) => some (.ok (.Int v, r))
    | 4 =>
      match readU64 l with
      | .error e => some (.error e)
      | .ok (v, r) => some (.ok (.Long v, r))
    | 5 =>
      match readU32 l with
      | .error e => some (.error e)
      | .ok (v, r) => some (.ok (.Float v, r))
    | 6 =>
      match readU64 l with
      | .error e => some (.error e)
      | .ok (v, r) => some (.ok (.Double v, r))
    | 7 =>
      match readU32 l with
      | .error e => some (.error e)
      | .ok (c, r1) =>
        match readBytes (i32ToUsize c) r1 with
        | .error e => some (.error e)
        | .ok (bs, r2) => some (.ok (.ByteArray bs, r2))
    | 8 =>
      match parse_nbt_string l with
      | .error e => some (.error e)
      | .ok (s, r) => some (.ok (.String s, r))
    | 9 =>
      match readU8 l with
      | .error e => some (.error e)
      | .ok (et, r1) =>
        match readU32 r1 with
        | .error e => some (.error e)
        | .ok (c, r2) =>
          match parseListStep (parsePayloadF f et) (i32ToUsize c) r2 with
          | none => none
          | some (.error e) => some (.error e)
          | some (.ok (ts, r3)) => some (.ok (.List ts, r3))
    | 10 =>
      match parseCompoundF (parsePayloadF f) (l.length + 1) [] l with
      | none => none
      | some (.error e) => some (.error e)
      | some (.ok (es, r)) => some (.ok (.Compound es, r))
    | 11 =>
      match readU32 l with
      | .error e => some (.error e)
      | .ok (c, r1) =>
        match readBytes (i32ToUsize c * 4 % 18446744073709551616) r1 with
        | .error e => some (.error e)
        | .ok (bs, r2) => some (.ok (.IntArray (beChunks4 bs), r2))
    | 12 =>
      match readU32 l with
      | .error e => some (.error e)
      | .ok (c, r1) =>
        match readBytes (i32ToUsize c * 8 % 18446744073709551616) r1 with
        | .error e => some (.error e)
        | .ok (bs, r2) => some (.ok (.LongArray (beChunks8 bs), r2))
    | _ => some (.error (.InvalidTag t))

/-- Public payload parser: the fuel never runs out at `l.length + 1`
(nesting consumes at least three bytes per level), so the default is
unreachable. -/
def parse_tag_payload (t : Nat) (l : List Nat) : PRes NbtTag :=
  (parsePayloadF (l.length + 1) t l).getD (.error .UnexpectedEof)

/-- Embeds `parse_named_tag` (src/nbt/parse.rs lines 186-200). -/
def parse_named_tag (l : List Nat) : PRes (List Nat × NbtTag) :=
  match readU8 l with
  | .error _ => .error .UnexpectedEof
  | .ok (t, r) =>
    if t = 0 then .ok (([], .End), r)
    else
      match parse_nbt_string r with
      | .error e => .error e
      | .ok (name, r2) =>
        match parse_tag_payload t r2 with
        | .error e => .error e
        | .ok (tag, r3) => .ok ((name, tag), r3)

/-- Embeds src/nbt/parse.rs lines 136-138 in isolation: before parsing any
list element (and before looking at the remaining input at all), the List
branch reads the element type and the signed 32-bit count and immediately
requests `Vec::with_capacity(len as usize)`.  Returns that requested
capacity. -/
def listCaseCapacity (l : List Nat) : Option Nat :=
  match readU8 l with
  | .error _ => none
  | .ok (_, r1) =>
    match readU32 r1 with
    | .error _ => none
    | .ok (c, _) => some (i32ToUsize c)

/-- `IndexMap` lookup: the value stored under a key (first, and with the
insert discipline only, entry with that key). -/
def lookupKey : List (List Nat × NbtTag) → List Nat → Option NbtTag
  | [], _ => none
  | (k, v) :: r, n => if k = n then some v else lookupKey r n

/-- The compound loop builds its map by repeated `IndexMap::insert`. -/
def foldInsert (acc : List (List Nat × NbtTag)) (es : List (List Nat × NbtTag)) :
    List (List Nat × NbtTag) :=
  es.foldl (fun a e => indexInsert a e.1 e.2) acc

/-! ## Well-formedness of tags (the round-trip hypotheses) -/

/-- A string the codec round-trips inside NBT: all scalars valid and the
encoded length fits the unsigned 16-bit length prefix. -/
def wfStr (s : List Nat) : Bool :=
  s.all isScalar && decide ((encode_mutf8 s).length < 65536)

/-- The encoder uses the first element{'}s type id for the whole list, so a
list round-trips when every element has the head{'}s type id. -/
def homogeneous : List NbtTag → Bool
  | [] => true
  | t :: rest => rest.all (fun x => get_type_id x == get_type_id t)

mutual

/-- Wire-faithful well-formedness: numeric payloads fit their width,
lengths fit a signed 32-bit count, lists are homogeneous, compound keys are
distinct valid strings and compound values are not `End`. -/
def wfTag : NbtTag → Bool
  | .End => true
  | .Byte v => decide (v < 256)
  | .Short v => decide (v < 65536)
  | .Int v => decide (v < 4294967296)
  | .Long v => decide (v < 18446744073709551616)
  | .Float b => decide (b < 4294967296)
  | .Double b => decide (b < 18446744073709551616)
  | .ByteArray v => decide (v.length < 2147483648) && v.all (fun b => decide (b < 256))
  | .String s => wfStr s
  | .List ts => decide (ts.length < 2147483648) && homogeneous ts && wfTagList ts
  | .Compound es => decide ((es.map Prod.fst).Nodup) && wfEntries es
  | .IntArray v =>
    decide (v.length < 2147483648) && v.all (fun x => decide (x < 4294967296))
  | .LongArray v =>
    decide (v.length < 2147483648) && v.all (fun x => decide (x < 18446744073709551616))

def wfTagList : List NbtTag → Bool
  | [] => true
  | t :: ts => wfTag t && wfTagList ts

def wfEntries : List (List Nat × NbtTag) → Bool
  | [] => true
  | (n, t) :: es =>
    wfStr n && wfTag t && decide (0 < get_type_id t) && wfEntries es

end

/-- Well-formedness of a named document for the round trip: if the tag is
`End` the name must be empty (a leading zero type id is read back as the
empty document). -/
def wfNamed (name : List Nat) (tag : NbtTag) : Bool :=
  wfStr name && wfTag tag && (decide (0 < get_type_id tag) || decide (name = []))

/-! ## Anvil region container (src/anvil/mod.rs, access.rs, encode.rs) -/

def SECTOR_SIZE : Nat := 4096

/-- Embeds `ChunkLocation` (src/anvil/mod.rs lines 14-19): `offset` is a
`u32` (< 2^32), `sector_count` a `u8` (< 256). -/
structure ChunkLocation where
  offset : Nat
  sector_count : Nat

/-- Reader slot computation (src/anvil/access.rs lines 82-84):
`x.rem_euclid(32)` is Euclidean modulo, which is `%` on `Int` (`Int.emod`). -/
def slotIndexR (x z : Int) : Nat := ((z % 32) * 32 + x % 32).toNat

/-- Writer slot computation (src/anvil/encode.rs lines 39-41): Rust `%` on
`i32` is the truncated remainder, `Int.tmod`. -/
def slotIndexW (x z : Int) : Nat :=
  (((z.tmod 32 + 32).tmod 32) * 32 + ((x.tmod 32 + 32).tmod 32)).toNat

/-- One location-table entry as written back by `write_all_chunks`
(src/anvil/encode.rs lines 78-85): three big-endian offset bytes and the
count byte. -/
def locEntryBytes (loc : ChunkLocation) : List Nat :=
  [loc.offset / 65536 % 256, loc.offset / 256 % 256, loc.offset % 256,
   loc.sector_count % 256]

def locTableBytes : List ChunkLocation → List Nat
  | [] => []
  | loc :: ls => locEntryBytes loc ++ locTableBytes ls

/-- Parse one `ChunkLocation` from the first header sector
(src/anvil/access.rs lines 42-52).  Called only after the two-sector
length check, so all indices are in bounds and the `getD` defaults are
never taken. -/
def readLoc (file : List Nat) (i : Nat) : ChunkLocation :=
  { offset := (file.getD (i * 4) 0) * 65536 + (file.getD (i * 4 + 1) 0) * 256
      + file.getD (i * 4 + 2) 0,
    sector_count := file.getD (i * 4 + 3) 0 }

/-- A memory-mapped region file with its eagerly parsed location table
(the timestamp table is parsed too in the source but no claim uses it). -/
structure Region where
  mmap : List Nat
  locations : List ChunkLocation

/-- Embeds `Region::open` (src/anvil/access.rs lines 25-70). -/
def Region.openFile (file : List Nat) : Except Unit Region :=
  if file.length < SECTOR_SIZE * 2 then .error ()
  else .ok { mmap := file, locations := (List.range 1024).map (readLoc file) }

/-- Outcome of `get_chunk_data`: Rust slice indexing out of bounds panics,
modelled as the distinguished `panics` outcome; `err` is any returned
`io::Error`. -/
inductive ChunkResult where
  | panics
  | err
  | absent
  | chunk (data : List Nat)

/-- Embeds `Region::get_chunk_data` (src/anvil/access.rs lines 81-123).
`decGz`/`decZl` are the external flate2 decoders (abstract parameters, spec
section 6).  Every `mmap[...]` index is checked exactly where the source
performs it; a failed check is the `panics` outcome. -/
def get_chunk_data (r : Region) (decGz decZl : List Nat → Except Unit (List Nat))
    (x z : Int) : ChunkResult :=
  let index := slotIndexR x z
  let location := r.locations.getD index ⟨0, 0⟩
  if location.offset = 0 then .absent
  else
    let start := location.offset * SECTOR_SIZE
    match r.mmap[start]?, r.mmap[start + 1]?, r.mmap[start + 2]?,
      r.mmap[start + 3]? with
    | some a, some b, some c, some d =>
      let length := a * 16777216 + b * 65536 + c * 256 + d
      if length < 1 then .absent
      else
        match r.mmap[start + 4]? with
        | none => .panics
        | some ct =>
          if ct = 1 ∨ ct = 2 ∨ ct = 3 then
            if start + 4 + length ≤ r.mmap.length then
              let data := (r.mmap.drop (start + 5)).take (length - 1)
              if ct = 1 then
                match decGz data with
                | .ok d2 => .chunk d2
                | .error _ => .err
              else if ct = 2 then
                match decZl data with
                | .ok d2 => .chunk d2
                | .error _ => .err
              else .chunk data
            else .panics
          else .err
    | _, _, _, _ => .panics

/-- Outcome of `get_chunk_nbt`. -/
inductive NbtResult where
  | panics
  | err
  | absent
  | nbt (doc : List Nat × NbtTag)

/-- Embeds `Region::get_chunk_nbt` (src/anvil/access.rs lines 129-139). -/
def get_chunk_nbt (r : Region) (decGz decZl : List Nat → Except Unit (List Nat))
    (x z : Int) : NbtResult :=
  match get_chunk_data r decGz decZl x z with
  | .panics => .panics
  | .err => .err
  | .absent => .absent
  | .chunk data =>
    match parse_named_tag data with
    | .ok (doc, _) => .nbt doc
    | .error _ => .err

/-- State of the chunk-writing loop of `write_all_chunks`: the accumulated
location table, the sector cursor (a `u32`), and the body bytes laid out
from the end of the two header sectors on (the writer seeks exactly to the
sector cursor, so on a fresh stream the body is contiguous). -/
structure WriteState where
  locations : List ChunkLocation
  currentSector : Nat
  body : List Nat

/-- One iteration of the chunk loop of `write_all_chunks`
(src/anvil/encode.rs lines 38-74); `compress` is the external zlib encoder.
`sectors_needed as u8` truncates to `% 256`, and the sector cursor advances
with `u32` wrapping arithmetic, exactly as in the source. -/
def writeChunkStep (compress : List Nat → List Nat) (st : WriteState)
    (ch : Int × Int × List Nat × NbtTag) : WriteState :=
  let index := slotIndexW ch.1 ch.2.1
  let raw := write_named_tag ch.2.2.1 ch.2.2.2
  let compressed := compress raw
  let total_len := compressed.length + 1
  let sectors_needed := (total_len + 4 + SECTOR_SIZE - 1) / SECTOR_SIZE
  let padding := sectors_needed * SECTOR_SIZE - (total_len + 4)
  { locations := st.locations.set index
      ⟨st.currentSector, sectors_needed % 256⟩,
    currentSector := (st.currentSector + sectors_needed % 4294967296) % 4294967296,
    body := st.body ++ u32be total_len ++ [2] ++ compressed
      ++ List.replicate padding 0 }

/-- Embeds `write_all_chunks` (src/anvil/encode.rs lines 28-93) up to the
header write-back: the final location table and body. -/
def write_all_chunks (compress : List Nat → List Nat)
    (chunks : List (Int × Int × List Nat × NbtTag)) : WriteState :=
  chunks.foldl (writeChunkStep compress)
    { locations := List.replicate 1024 ⟨0, 0⟩, currentSector := 2, body := [] }

/-- The full byte image produced by `write_all_chunks` on a fresh stream:
the written-back location table, the all-zero timestamp table, then the
chunk bodies. -/
def write_all_chunks_bytes (compress : List Nat → List Nat)
    (chunks : List (Int × Int × List Nat × NbtTag)) : List Nat :=
  locTableBytes (write_all_chunks compress chunks).locations
    ++ List.replicate 4096 0 ++ (write_all_chunks compress chunks).body

/-- A concrete 8192-byte region file: the slot-0 location entry has offset
bytes `0,0,2` (sector offset 2) and sector count `1`, so the chunk record
is claimed to start at byte 8192, exactly the end of the file. -/
def c4file : List Nat := [0, 0, 2, 1] ++ List.replicate 8188 0

/-- The region obtained by opening the byte image written for an empty
chunk list (identity compressor). -/
def regEmpty : Region :=
  { mmap := write_all_chunks_bytes (fun l => l) [],
    locations :=
      (List.range 1024).map (readLoc (write_all_chunks_bytes (fun l => l) [])) }

/-! ## Theorems: text codec -/

theorem pushChar_ok {v : Nat} (h : isScalar v = true) : pushChar v = .ok v := by
  simp [pushChar, h]

theorem decodePush_ok {v : Nat} (h : isScalar v = true) (go : List Nat → Option (Except Unit (List Nat)))
    (r : List Nat) : decodePush go v r = contCons v (go r) := by
  simp [decodePush, pushChar_ok h]

/-- When the just-decoded 16-bit value is not a high surrogate, the
lookahead step pushes it and continues at the same place. -/
theorem decodeAfterThreeStep_plain {v : Nat} (hns : ¬ (0xD800 ≤ v ∧ v ≤ 0xDBFF))
    (hs : isScalar v = true) (go : List Nat → Option (Except Unit (List Nat)))
    (r : List Nat) :
    decodeAfterThreeStep go v r = contCons v (go r) := by
  match r with
  | [] => rw [show decodeAfterThreeStep go v [] = decodePush go v [] from rfl,
      decodePush_ok hs]
  | [b4] => rw [show decodeAfterThreeStep go v [b4] = decodePush go v [b4] from rfl,
      decodePush_ok hs]
  | [b4, b5] => rw [show decodeAfterThreeStep go v [b4, b5] = decodePush go v [b4, b5] from rfl,
      decodePush_ok hs]
  | b4 :: b5 :: b6 :: r6 =>
    have h : ¬ (0xD800 ≤ v ∧ v ≤ 0xDBFF ∧ b4 = 0xED ∧ b5 / 16 = 11) := by tauto
    rw [decodeAfterThreeStep, if_neg h, decodePush_ok hs]

/-- Decoding the MUTF-8 bytes of one scalar value followed by anything
decodes that scalar in a single loop iteration and continues with the
remainder. -/
theorem decodeStep_encodeChar {c : Nat} (hc : isScalar c = true)
    (go : List Nat → Option (Except Unit (List Nat))) (rest : List Nat) :
    decodeStep go (encodeChar c ++ rest) = contCons c (go rest) := by
  have hc' : c < 0xD800 ∨ (0xE000 ≤ c ∧ c < 0x110000) := by
    simpa [isScalar] using hc
  by_cases h0 : c = 0
  · subst h0
    have he : encodeChar 0 = [0xC0, 0x80] := rfl
    rw [he]
    have hv : 0xC0 % 32 * 64 + 0x80 % 64 = 0 := by norm_num
    simp only [List.cons_append, List.nil_append, decodeStep, decodeTwoStep]
    norm_num [hv, decodePush_ok hc]
  by_cases h1 : c < 0x80
  · have he : encodeChar c = [c] := by
      simp [encodeChar, utf16Units, encodeUnits, encodeUnit, h0, h1,
        (by omega : c < 0x10000)]
    rw [he]
    simp only [List.cons_append, List.nil_append, decodeStep, if_pos h1]
  by_cases h2 : c < 0x800
  · have he : encodeChar c = [0xC0 + c / 64, 0x80 + c % 64] := by
      simp [encodeChar, utf16Units, encodeUnits, encodeUnit, h0, h1, h2,
        (by omega : c < 0x10000)]
    rw [he]
    have hb1 : ¬ (0xC0 + c / 64 < 0x80) := by omega
    have hb2 : (0xC0 + c / 64) / 32 = 6 := by omega
    have hb3 : ¬ ((0x80 + c % 64) / 64 ≠ 2) := by omega
    have hv : (0xC0 + c / 64) % 32 * 64 + (0x80 + c % 64) % 64 = c := by omega
    simp only [List.cons_append, List.nil_append, decodeStep, decodeTwoStep,
      if_neg hb1, if_pos hb2, if_neg hb3, hv, decodePush_ok hc]
  by_cases h3 : c < 0x10000
  · have he : encodeChar c = [0xE0 + c / 4096, 0x80 + c / 64 % 64, 0x80 + c % 64] := by
      simp only [encodeChar, utf16Units, if_pos h3, encodeUnits, List.append_nil,
        encodeUnit]
      rw [if_neg h0, if_neg h1, if_neg h2]
    rw [he]
    have hb1 : ¬ (0xE0 + c / 4096 < 0x80) := by omega
    have hb2 : ¬ ((0xE0 + c / 4096) / 32 = 6) := by omega
    have hb3 : (0xE0 + c / 4096) / 16 = 14 := by omega
    have hb4 : ¬ ((0x80 + c / 64 % 64) / 64 ≠ 2 ∨ (0x80 + c % 64) / 64 ≠ 2) := by omega
    have hv : (0xE0 + c / 4096) % 16 * 4096 + (0x80 + c / 64 % 64) % 64 * 64
        + (0x80 + c % 64) % 64 = c := by omega
    have hns : ¬ (0xD800 ≤ c ∧ c ≤ 0xDBFF) := by omega
    simp only [List.cons_append, List.nil_append, decodeStep, decodeThreeStep,
      if_neg hb1, if_neg hb2, if_pos hb3, if_neg hb4, hv]
    exact decodeAfterThreeStep_plain hns hc go rest
  · -- supplementary plane: two 3-byte sequences forming a surrogate pair
    have hcr : 0x10000 ≤ c ∧ c < 0x110000 := by omega
    set hi := 0xD800 + (c - 0x10000) / 0x400 with hhi
    set lo := 0xDC00 + (c - 0x10000) % 0x400 with hlo
    have hhir : 0xD800 ≤ hi ∧ hi ≤ 0xDBFF := by omega
    have hlor : 0xDC00 ≤ lo ∧ lo ≤ 0xDFFF := by omega
    have he : encodeChar c =
        [0xE0 + hi / 4096, 0x80 + hi / 64 % 64, 0x80 + hi % 64,
         0xE0 + lo / 4096, 0x80 + lo / 64 % 64, 0x80 + lo % 64] := by
      simp only [encodeChar, utf16Units, if_neg (by omega : ¬ c < 0x10000),
        encodeUnits, List.append_nil, encodeUnit, ← hhi, ← hlo]
      rw [if_neg (by omega), if_neg (by omega), if_neg (by omega),
        if_neg (by omega), if_neg (by omega), if_neg (by omega)]
      rfl
    rw [he]
    have hb1 : ¬ (0xE0 + hi / 4096 < 0x80) := by omega
    have hb2 : ¬ ((0xE0 + hi / 4096) / 32 = 6) := by omega
    have hb3 : (0xE0 + hi / 4096) / 16 = 14 := by omega
    have hb4 : ¬ ((0x80 + hi / 64 % 64) / 64 ≠ 2 ∨ (0x80 + hi % 64) / 64 ≠ 2) := by
      omega
    have hv : (0xE0 + hi / 4096) % 16 * 4096 + (0x80 + hi / 64 % 64) % 64 * 64
        + (0x80 + hi % 64) % 64 = hi := by omega
    have hsur : 0xD800 ≤ hi ∧ hi ≤ 0xDBFF ∧ 0xE0 + lo / 4096 = 0xED
        ∧ (0x80 + lo / 64 % 64) / 16 = 11 := by omega
    have hv2 : (0xE0 + lo / 4096) % 16 * 4096 + (0x80 + lo / 64 % 64) % 64 * 64
        + (0x80 + lo % 64) % 64 = lo := by omega
    have hcp : 0x10000 + (hi - 0xD800) * 1024 + (lo - 0xDC00) = c := by omega
    simp only [List.cons_append, List.nil_append, decodeStep, decodeThreeStep,
      if_neg hb1, if_neg hb2, if_pos hb3, if_neg hb4, hv, decodeAfterThreeStep,
      if_pos hsur, hv2, if_pos hlor, hcp, decodePush_ok hc]

theorem encodeUnits_append (a b : List Nat) :
    encodeUnits (a ++ b) = encodeUnits a ++ encodeUnits b := by
  induction a with
  | nil => simp [encodeUnits]
  | cons u us ih => simp [encodeUnits, ih]

theorem encode_mutf8_cons (c : Nat) (cs : List Nat) :
    encode_mutf8 (c :: cs) = encodeChar c ++ encode_mutf8 cs := by
  simp [encode_mutf8, encodeChar, encodeUnits_append]

theorem encode_mutf8_nil : encode_mutf8 [] = [] := rfl

theorem encodeUnit_length_pos (c : Nat) : 0 < (encodeUnit c).length := by
  unfold encodeUnit
  split
  · simp
  split
  · simp
  split
  · simp
  · simp

theorem encodeChar_length_pos (c : Nat) : 0 < (encodeChar c).length := by
  unfold encodeChar utf16Units
  split
  · simp only [encodeUnits, List.append_nil]
    exact encodeUnit_length_pos c
  · simp only [encodeUnits, List.append_nil, List.length_append]
    have := encodeUnit_length_pos (0xD800 + (c - 0x10000) / 0x400)
    omega

theorem length_le_encode_length (s : List Nat) :
    s.length ≤ (encode_mutf8 s).length := by
  induction s with
  | nil => simp [encode_mutf8_nil]
  | cons c cs ih =>
    rw [encode_mutf8_cons, List.length_append, List.length_cons]
    have := encodeChar_length_pos c
    omega

theorem contCons_contApp (c : Nat) (s : List Nat) (r : Option (Except Unit (List Nat))) :
    contCons c (contApp s r) = contApp (c :: s) r := by
  match r with
  | none => rfl
  | some (.error e) => rfl
  | some (.ok t) => rfl

/-- With per-string fuel accounting, decoding the encoding of a valid string
followed by anything decodes the string and continues with the remainder. -/
theorem decodeLoopF_encode (s : List Nat) (h : ∀ c ∈ s, isScalar c = true)
    (f : Nat) (rest : List Nat) :
    decodeLoopF (s.length + f) (encode_mutf8 s ++ rest) = contApp s (decodeLoopF f rest) := by
  induction s with
  | nil =>
    simp only [encode_mutf8_nil, List.nil_append, List.length_nil, Nat.zero_add]
    match hd : decodeLoopF f rest with
    | none => rfl
    | some (.error e) => rfl
    | some (.ok t) => simp [contApp]
  | cons c cs ih =>
    have hlen : (c :: cs).length + f = (cs.length + f) + 1 := by simp; omega
    rw [hlen, encode_mutf8_cons, List.append_assoc, decodeLoopF,
      decodeStep_encodeChar (h c (by simp)),
      ih (fun x hx => h x (by simp [hx])), contCons_contApp]

/-- The all-ASCII fast path of `decode_mutf8` agrees with the decode loop. -/
theorem decodeLoopF_ascii (l : List Nat)
    (h : l.all (fun b => decide (0 < b) && decide (b < 0x80)) = true)
    (f : Nat) (hf : l.length < f) :
    decodeLoopF f l = some (.ok l) := by
  induction l generalizing f with
  | nil =>
    match f, hf with
    | g + 1, _ => rfl
  | cons b r ih =>
    simp only [List.all_cons, Bool.and_eq_true, decide_eq_true_eq] at h
    match f, hf with
    | g + 1, hf =>
      have : decodeLoopF g r = some (.ok r) := by
        apply ih (by simpa [List.all_eq_true] using h.2)
        simp at hf; omega
      simp only [decodeLoopF, decodeStep, if_pos h.1.2, this, contCons]

/-- The public decoder always equals the fueled loop at canonical fuel. -/
theorem decode_mutf8_eq_loop (l : List Nat) :
    decode_mutf8 l = (decodeLoopF (l.length + 1) l).getD (.error ()) := by
  unfold decode_mutf8
  by_cases h : l.all (fun b => decide (0 < b) && decide (b < 0x80)) = true
  · rw [if_pos h, decodeLoopF_ascii l h (l.length + 1) (by omega)]
    rfl
  · rw [if_neg h]

/-- Text codec round trip: decoding the encoding of any valid string
returns the string unchanged. -/
theorem decode_encode_mutf8 (s : List Nat) (h : ∀ c ∈ s, isScalar c = true) :
    decode_mutf8 (encode_mutf8 s) = .ok s := by
  have hlen : s.length ≤ (encode_mutf8 s).length := length_le_encode_length s
  have key := decodeLoopF_encode s h ((encode_mutf8 s).length - s.length + 1) []
  rw [List.append_nil] at key
  have hnil : decodeLoopF ((encode_mutf8 s).length - s.length + 1) []
      = some (.ok []) := by
    rw [(by omega : (encode_mutf8 s).length - s.length + 1
      = ((encode_mutf8 s).length - s.length) + 1)]
    rfl
  rw [decode_mutf8_eq_loop,
    (by omega : (encode_mutf8 s).length + 1
      = s.length + ((encode_mutf8 s).length - s.length + 1)), key, hnil]
  simp [contApp]



/-! ## Theorems: reader primitives and byte helpers -/

theorem readU8_shape {l r : List Nat} {b : Nat} (h : readU8 l = .ok (b, r)) :
    l = b :: r := by
  match l with
  | [] => simp [readU8] at h
  | x :: xs => simp only [readU8, Except.ok.injEq, Prod.mk.injEq] at h; simp [h.1, h.2]

theorem readU16_shape {l r : List Nat} {v : Nat} (h : readU16 l = .ok (v, r)) :
    ∃ b1 b2, l = b1 :: b2 :: r ∧ v = b1 * 256 + b2 := by
  match l with
  | [] => simp [readU16] at h
  | [x] => simp [readU16] at h
  | b1 :: b2 :: xs =>
    simp only [readU16, Except.ok.injEq, Prod.mk.injEq] at h
    exact ⟨b1, b2, by simp [h.2], h.1.symm⟩

theorem readU32_shape {l r : List Nat} {v : Nat} (h : readU32 l = .ok (v, r)) :
    ∃ b1 b2 b3 b4, l = b1 :: b2 :: b3 :: b4 :: r
      ∧ v = b1 * 16777216 + b2 * 65536 + b3 * 256 + b4 := by
  match l with
  | [] => simp [readU32] at h
  | [x] => simp [readU32] at h
  | [x, y] => simp [readU32] at h
  | [x, y, z] => simp [readU32] at h
  | b1 :: b2 :: b3 :: b4 :: xs =>
    simp only [readU32, Except.ok.injEq, Prod.mk.injEq] at h
    exact ⟨b1, b2, b3, b4, by simp [h.2], h.1.symm⟩

theorem readU64_shape {l r : List Nat} {v : Nat} (h : readU64 l = .ok (v, r)) :
    ∃ b1 b2 b3 b4 b5 b6 b7 b8, l = b1 :: b2 :: b3 :: b4 :: b5 :: b6 :: b7 :: b8 :: r
      ∧ v = b1 * 72057594037927936 + b2 * 281474976710656 + b3 * 1099511627776
        + b4 * 4294967296 + b5 * 16777216 + b6 * 65536 + b7 * 256 + b8 := by
  match l with
  | [] => simp [readU64] at h
  | [x1] => simp [readU64] at h
  | [x1, x2] => simp [readU64] at h
  | [x1, x2, x3] => simp [readU64] at h
  | [x1, x2, x3, x4] => simp [readU64] at h
  | [x1, x2, x3, x4, x5] => simp [readU64] at h
  | [x1, x2, x3, x4, x5, x6] => simp [readU64] at h
  | [x1, x2, x3, x4, x5, x6, x7] => simp [readU64] at h
  | b1 :: b2 :: b3 :: b4 :: b5 :: b6 :: b7 :: b8 :: xs =>
    simp only [readU64, Except.ok.injEq, Prod.mk.injEq] at h
    exact ⟨b1, b2, b3, b4, b5, b6, b7, b8, by simp [h.2], h.1.symm⟩

theorem readBytes_shape {n : Nat} {l bs r : List Nat}
    (h : readBytes n l = .ok (bs, r)) : l = bs ++ r ∧ bs.length = n := by
  unfold readBytes at h
  split at h
  · simp at h
  · next hn =>
    simp only [Except.ok.injEq, Prod.mk.injEq] at h
    refine ⟨by rw [← h.1, ← h.2]; simp, ?_⟩
    rw [← h.1]
    simp
    omega

theorem parse_nbt_string_shape {l s r : List Nat}
    (h : parse_nbt_string l = .ok (s, r)) :
    ∃ b1 b2 bs, l = b1 :: b2 :: (bs ++ r) ∧ bs.length = b1 * 256 + b2
      ∧ decode_mutf8 bs = .ok s := by
  unfold parse_nbt_string at h
  split at h
  · simp at h
  · next len r1 h16 =>
    split at h
    · simp at h
    · next bs r2 hb =>
      split at h
      · next s2 hd =>
        simp only [Except.ok.injEq, Prod.mk.injEq] at h
        obtain ⟨b1, b2, hl, hv⟩ := readU16_shape h16
        obtain ⟨hr1, hlen⟩ := readBytes_shape hb
        exact ⟨b1, b2, bs, by rw [hl, hr1, h.2], by omega,
          by rw [hd, h.1]⟩
      · simp at h

theorem readU8_error {l : List Nat} {e : ParseError} (h : readU8 l = .error e) :
    l = [] ∧ e = .UnexpectedEof := by
  match l with
  | [] =>
    simp only [readU8, Except.error.injEq] at h
    exact ⟨rfl, h.symm⟩
  | x :: xs => simp [readU8] at h

theorem readU16_error {l : List Nat} {e : ParseError} (h : readU16 l = .error e) :
    l.length < 2 ∧ e = .UnexpectedEof := by
  match l with
  | [] => simp only [readU16, Except.error.injEq] at h; exact ⟨by simp, h.symm⟩
  | [x] => simp only [readU16, Except.error.injEq] at h; exact ⟨by simp, h.symm⟩
  | b1 :: b2 :: xs => simp [readU16] at h

theorem readU32_error {l : List Nat} {e : ParseError} (h : readU32 l = .error e) :
    l.length < 4 ∧ e = .UnexpectedEof := by
  match l with
  | [] => simp only [readU32, Except.error.injEq] at h; exact ⟨by simp, h.symm⟩
  | [x] => simp only [readU32, Except.error.injEq] at h; exact ⟨by simp, h.symm⟩
  | [x, y] => simp only [readU32, Except.error.injEq] at h; exact ⟨by simp, h.symm⟩
  | [x, y, z] => simp only [readU32, Except.error.injEq] at h; exact ⟨by simp, h.symm⟩
  | b1 :: b2 :: b3 :: b4 :: xs => simp [readU32] at h

theorem readU64_error {l : List Nat} {e : ParseError} (h : readU64 l = .error e) :
    l.length < 8 ∧ e = .UnexpectedEof := by
  match l with
  | [] => simp only [readU64, Except.error.injEq] at h; exact ⟨by simp, h.symm⟩
  | [x1] => simp only [readU64, Except.error.injEq] at h; exact ⟨by simp, h.symm⟩
  | [x1, x2] => simp only [readU64, Except.error.injEq] at h; exact ⟨by simp, h.symm⟩
  | [x1, x2, x3] => simp only [readU64, Except.error.injEq] at h; exact ⟨by simp, h.symm⟩
  | [x1, x2, x3, x4] =>
    simp only [readU64, Except.error.injEq] at h; exact ⟨by simp, h.symm⟩
  | [x1, x2, x3, x4, x5] =>
    simp only [readU64, Except.error.injEq] at h; exact ⟨by simp, h.symm⟩
  | [x1, x2, x3, x4, x5, x6] =>
    simp only [readU64, Except.error.injEq] at h; exact ⟨by simp, h.symm⟩
  | [x1, x2, x3, x4, x5, x6, x7] =>
    simp only [readU64, Except.error.injEq] at h; exact ⟨by simp, h.symm⟩
  | b1 :: b2 :: b3 :: b4 :: b5 :: b6 :: b7 :: b8 :: xs => simp [readU64] at h

theorem readBytes_error {n : Nat} {l : List Nat} {e : ParseError}
    (h : readBytes n l = .error e) : l.length < n ∧ e = .UnexpectedEof := by
  unfold readBytes at h
  split at h
  · next hn => simp only [Except.error.injEq] at h; exact ⟨hn, h.symm⟩
  · simp at h

/-! Round trips of the byte helpers. -/

theorem readU16_u16be (n : Nat) (r : List Nat) :
    readU16 (u16be n ++ r) = .ok (n % 65536, r) := by
  simp only [u16be, List.cons_append, List.nil_append, readU16, Except.ok.injEq,
    Prod.mk.injEq, and_true]
  omega

theorem readU32_u32be (n : Nat) (r : List Nat) :
    readU32 (u32be n ++ r) = .ok (n % 4294967296, r) := by
  simp only [u32be, List.cons_append, List.nil_append, readU32, Except.ok.injEq,
    Prod.mk.injEq, and_true]
  omega

theorem readU64_u64be (n : Nat) (r : List Nat) :
    readU64 (u64be n ++ r) = .ok (n % 18446744073709551616, r) := by
  simp only [u64be, List.cons_append, List.nil_append, readU64, Except.ok.injEq,
    Prod.mk.injEq, and_true]
  omega

theorem readBytes_exact {bs r : List Nat} {n : Nat} (h : bs.length = n) :
    readBytes n (bs ++ r) = .ok (bs, r) := by
  unfold readBytes
  rw [if_neg (by simp [← h])]
  subst h
  rw [List.take_left, List.drop_left]

theorem u16be_length (n : Nat) : (u16be n).length = 2 := rfl

theorem u32be_length (n : Nat) : (u32be n).length = 4 := rfl

theorem u64be_length (n : Nat) : (u64be n).length = 8 := rfl

/-- Parsing a well-formed written string yields it back. -/
theorem parse_nbt_string_write {s : List Nat} (h : wfStr s = true) (r : List Nat) :
    parse_nbt_string (write_nbt_string s ++ r) = .ok (s, r) := by
  have hs : ∀ c ∈ s, isScalar c = true := by
    intro c hc
    have := (Bool.and_eq_true _ _).mp h
    exact List.all_eq_true.mp this.1 c hc
  have hlen : (encode_mutf8 s).length < 65536 := by
    have := (Bool.and_eq_true _ _).mp h
    simpa using this.2
  unfold write_nbt_string parse_nbt_string
  rw [List.append_assoc, readU16_u16be, Nat.mod_eq_of_lt hlen]
  dsimp only
  rw [readBytes_exact rfl]
  dsimp only
  rw [decode_encode_mutf8 s hs]

/-! ## Theorems: the parser consumes a prefix -/

theorem parseListStep_shape {pay : List Nat → Option (PRes NbtTag)}
    (hpay : ∀ l a r, pay l = some (.ok (a, r)) → ∃ u, l = u ++ r) :
    ∀ c l ts r, parseListStep pay c l = some (.ok (ts, r)) → ∃ u, l = u ++ r := by
  intro c
  induction c with
  | zero =>
    intro l ts r h
    simp only [parseListStep, Option.some.injEq, Except.ok.injEq, Prod.mk.injEq] at h
    exact ⟨[], by simp [h.2]⟩
  | succ c ih =>
    intro l ts r h
    simp only [parseListStep] at h
    cases hp : pay l with
    | none => rw [hp] at h; simp at h
    | some res =>
      rw [hp] at h
      match res with
      | .error e => simp at h
      | .ok (t, r1) =>
        dsimp only at h
        cases hq : parseListStep pay c r1 with
        | none => rw [hq] at h; simp at h
        | some res2 =>
          rw [hq] at h
          match res2 with
          | .error e => simp at h
          | .ok (ts2, r2) =>
            simp only [Option.some.injEq, Except.ok.injEq, Prod.mk.injEq] at h
            obtain ⟨u1, hu1⟩ := hpay l t r1 hp
            obtain ⟨u2, hu2⟩ := ih r1 ts2 r2 hq
            exact ⟨u1 ++ u2, by rw [hu1, hu2, ← h.2, List.append_assoc]⟩

theorem parseCompoundF_shape {pay : Nat → List Nat → Option (PRes NbtTag)}
    (hpay : ∀ tt l a r, pay tt l = some (.ok (a, r)) → ∃ u, l = u ++ r) :
    ∀ cf acc l es r, parseCompoundF pay cf acc l = some (.ok (es, r)) →
      ∃ u, l = u ++ r := by
  intro cf
  induction cf with
  | zero => intro acc l es r h; simp [parseCompoundF] at h
  | succ cf ih =>
    intro acc l es r h
    simp only [parseCompoundF] at h
    cases hu8 : readU8 l with
    | error e => rw [hu8] at h; simp at h
    | ok p =>
      obtain ⟨tt, r1⟩ := p
      rw [hu8] at h
      dsimp only at h
      by_cases htt : tt = 0
      · rw [if_pos htt] at h
        simp only [Option.some.injEq, Except.ok.injEq, Prod.mk.injEq] at h
        have := readU8_shape hu8
        exact ⟨[tt], by rw [this, h.2]; rfl⟩
      · rw [if_neg htt] at h
        cases hs : parse_nbt_string r1 with
        | error e => rw [hs] at h; simp at h
        | ok p2 =>
          obtain ⟨name, r2⟩ := p2
          rw [hs] at h
          dsimp only at h
          cases hp : pay tt r2 with
          | none => rw [hp] at h; simp at h
          | some res =>
            rw [hp] at h
            match res with
            | .error e => simp at h
            | .ok (t, r3) =>
              dsimp only at h
              obtain ⟨u1, hu1⟩ : ∃ u, r1 = u ++ r2 := by
                obtain ⟨b1, b2, bs, he, -, -⟩ := parse_nbt_string_shape hs
                exact ⟨b1 :: b2 :: bs, by simpa using he⟩
              obtain ⟨u2, hu2⟩ := hpay tt r2 t r3 hp
              obtain ⟨u3, hu3⟩ := ih _ r3 es r h
              refine ⟨tt :: (u1 ++ (u2 ++ u3)), ?_⟩
              rw [readU8_shape hu8, hu1, hu2, hu3]
              simp

theorem parsePayloadF_shape :
    ∀ f t l a r, parsePayloadF f t l = some (.ok (a, r)) → ∃ u, l = u ++ r := by
  intro f
  induction f with
  | zero => intro t l a r h; simp [parsePayloadF] at h
  | succ f ih =>
    intro t l a r h
    match t with
    | 0 =>
      simp only [parsePayloadF, Option.some.injEq, Except.ok.injEq, Prod.mk.injEq] at h
      exact ⟨[], by simp [h.2]⟩
    | 1 =>
      simp only [parsePayloadF] at h
      cases hr : readU8 l with
      | error e => rw [hr] at h; simp at h
      | ok p =>
        obtain ⟨b, r1⟩ := p
        rw [hr] at h
        simp only [Option.some.injEq, Except.ok.injEq, Prod.mk.injEq] at h
        exact ⟨[b], by rw [readU8_shape hr, h.2]; rfl⟩
    | 2 =>
      simp only [parsePayloadF] at h
      cases hr : readU16 l with
      | error e => rw [hr] at h; simp at h
      | ok p =>
        obtain ⟨v, r1⟩ := p
        rw [hr] at h
        simp only [Option.some.injEq, Except.ok.injEq, Prod.mk.injEq] at h
        obtain ⟨b1, b2, he, -⟩ := readU16_shape hr
        exact ⟨[b1, b2], by rw [he, h.2]; rfl⟩
    | 3 =>
      simp only [parsePayloadF] at h
      cases hr : readU32 l with
      | error e => rw [hr] at h; simp at h
      | ok p =>
        obtain ⟨v, r1⟩ := p
        rw [hr] at h
        simp only [Option.some.injEq, Except.ok.injEq, Prod.mk.injEq] at h
        obtain ⟨b1, b2, b3, b4, he, -⟩ := readU32_shape hr
        exact ⟨[b1, b2, b3, b4], by rw [he, h.2]; rfl⟩
    | 4 =>
      simp only [parsePayloadF] at h
      cases hr : readU64 l with
      | error e => rw [hr] at h; simp at h
      | ok p =>
        obtain ⟨v, r1⟩ := p
        rw [hr] at h
        simp only [Option.some.injEq, Except.ok.injEq, Prod.mk.injEq] at h
        obtain ⟨b1, b2, b3, b4, b5, b6, b7, b8, he, -⟩ := readU64_shape hr
        exact ⟨[b1, b2, b3, b4, b5, b6, b7, b8], by rw [he, h.2]; rfl⟩
    | 5 =>
      simp only [parsePayloadF] at h
      cases hr : readU32 l with
      | error e => rw [hr] at h; simp at h
      | ok p =>
        obtain ⟨v, r1⟩ := p
        rw [hr] at h
        simp only [Option.some.injEq, Except.ok.injEq, Prod.mk.injEq] at h
        obtain ⟨b1, b2, b3, b4, he, -⟩ := readU32_shape hr
        exact ⟨[b1, b2, b3, b4], by rw [he, h.2]; rfl⟩
    | 6 =>
      simp only [parsePayloadF] at h
      cases hr : readU64 l with
      | error e => rw [hr] at h; simp at h
      | ok p =>
        obtain ⟨v, r1⟩ := p
        rw [hr] at h
        simp only [Option.some.injEq, Except.ok.injEq, Prod.mk.injEq] at h
        obtain ⟨b1, b2, b3, b4, b5, b6, b7, b8, he, -⟩ := readU64_shape hr
        exact ⟨[b1, b2, b3, b4, b5, b6, b7, b8], by rw [he, h.2]; rfl⟩
    | 7 =>
      simp only [parsePayloadF] at h
      cases hr : readU32 l with
      | error e => rw [hr] at h; simp at h
      | ok p =>
        obtain ⟨c, r1⟩ := p
        rw [hr] at h
        dsimp only at h
        cases hb : readBytes (i32ToUsize c) r1 with
        | error e => rw [hb] at h; simp at h
        | ok p2 =>
          obtain ⟨bs, r2⟩ := p2
          rw [hb] at h
          simp only [Option.some.injEq, Except.ok.injEq, Prod.mk.injEq] at h
          obtain ⟨b1, b2, b3, b4, he, -⟩ := readU32_shape hr
          obtain ⟨hb1, -⟩ := readBytes_shape hb
          exact ⟨b1 :: b2 :: b3 :: b4 :: bs, by rw [he, hb1, h.2]; rfl⟩
    | 8 =>
      simp only [parsePayloadF] at h
      cases hs : parse_nbt_string l with
      | error e => rw [hs] at h; simp at h
      | ok p =>
        obtain ⟨s, r1⟩ := p
        rw [hs] at h
        simp only [Option.some.injEq, Except.ok.injEq, Prod.mk.injEq] at h
        obtain ⟨b1, b2, bs, he, -, -⟩ := parse_nbt_string_shape hs
        exact ⟨b1 :: b2 :: bs, by rw [he, h.2]; simp⟩
    | 9 =>
      simp only [parsePayloadF] at h
      cases hr : readU8 l with
      | error e => rw [hr] at h; simp at h
      | ok p =>
        obtain ⟨et, r1⟩ := p
        rw [hr] at h
        dsimp only at h
        cases h32 : readU32 r1 with
        | error e => rw [h32] at h; simp at h
        | ok p2 =>
          obtain ⟨c, r2⟩ := p2
          rw [h32] at h
          dsimp only at h
          cases hl : parseListStep (parsePayloadF f et) (i32ToUsize c) r2 with
          | none => rw [hl] at h; simp at h
          | some res =>
            rw [hl] at h
            match res with
            | .error e => simp at h
            | .ok (ts, r3) =>
              simp only [Option.some.injEq, Except.ok.injEq, Prod.mk.injEq] at h
              obtain ⟨b1, b2, b3, b4, he32, -⟩ := readU32_shape h32
              obtain ⟨u, hu⟩ := parseListStep_shape (fun l2 a2 r2 => ih et l2 a2 r2)
                (i32ToUsize c) r2 ts r3 hl
              refine ⟨et :: (b1 :: b2 :: b3 :: b4 :: u), ?_⟩
              rw [readU8_shape hr, he32, hu, h.2]
              simp
    | 10 =>
      simp only [parsePayloadF] at h
      cases hc : parseCompoundF (parsePayloadF f) (l.length + 1) [] l with
      | none => rw [hc] at h; simp at h
      | some res =>
        rw [hc] at h
        match res with
        | .error e => simp at h
        | .ok (es, r1) =>
          simp only [Option.some.injEq, Except.ok.injEq, Prod.mk.injEq] at h
          obtain ⟨u, hu⟩ := parseCompoundF_shape
            (fun tt l2 a2 r2 => ih tt l2 a2 r2) (l.length + 1) [] l es r1 hc
          exact ⟨u, by rw [hu, h.2]⟩
    | 11 =>
      simp only [parsePayloadF] at h
      cases hr : readU32 l with
      | error e => rw [hr] at h; simp at h
      | ok p =>
        obtain ⟨c, r1⟩ := p
        rw [hr] at h
        dsimp only at h
        cases hb : readBytes (i32ToUsize c * 4 % 18446744073709551616) r1 with
        | error e => rw [hb] at h; simp at h
        | ok p2 =>
          obtain ⟨bs, r2⟩ := p2
          rw [hb] at h
          simp only [Option.some.injEq, Except.ok.injEq, Prod.mk.injEq] at h
          obtain ⟨b1, b2, b3, b4, he, -⟩ := readU32_shape hr
          obtain ⟨hb1, -⟩ := readBytes_shape hb
          exact ⟨b1 :: b2 :: b3 :: b4 :: bs, by rw [he, hb1, h.2]; rfl⟩
    | 12 =>
      simp only [parsePayloadF] at h
      cases hr : readU32 l with
      | error e => rw [hr] at h; simp at h
      | ok p =>
        obtain ⟨c, r1⟩ := p
        rw [hr] at h
        dsimp only at h
        cases hb : readBytes (i32ToUsize c * 8 % 18446744073709551616) r1 with
        | error e => rw [hb] at h; simp at h
        | ok p2 =>
          obtain ⟨bs, r2⟩ := p2
          rw [hb] at h
          simp only [Option.some.injEq, Except.ok.injEq, Prod.mk.injEq] at h
          obtain ⟨b1, b2, b3, b4, he, -⟩ := readU32_shape hr
          obtain ⟨hb1, -⟩ := readBytes_shape hb
          exact ⟨b1 :: b2 :: b3 :: b4 :: bs, by rw [he, hb1, h.2]; rfl⟩
    | (n + 13) =>
      simp [parsePayloadF] at h

theorem parsePayloadF_lenLe {f t : Nat} {l : List Nat} {a : NbtTag} {r : List Nat}
    (h : parsePayloadF f t l = some (.ok (a, r))) : r.length ≤ l.length := by
  obtain ⟨u, hu⟩ := parsePayloadF_shape f t l a r h
  rw [hu]
  simp

/-! ## Theorems: fuel monotonicity and sufficiency -/

theorem parseListStep_mono {pay pay2 : List Nat → Option (PRes NbtTag)}
    (hp : ∀ l res, pay l = some res → pay2 l = some res) :
    ∀ c l res, parseListStep pay c l = some res → parseListStep pay2 c l = some res := by
  intro c
  induction c with
  | zero => intro l res h; simpa [parseListStep] using h
  | succ c ih =>
    intro l res h
    simp only [parseListStep] at h ⊢
    cases hpl : pay l with
    | none => rw [hpl] at h; simp at h
    | some r1 =>
      rw [hpl] at h
      rw [hp l r1 hpl]
      match r1 with
      | .error e => exact h
      | .ok (t, r) =>
        dsimp only at h ⊢
        cases hq : parseListStep pay c r with
        | none => rw [hq] at h; simp at h
        | some r2 =>
          rw [hq] at h
          rw [ih r r2 hq]
          exact h

theorem parseCompoundF_mono {pay pay2 : Nat → List Nat → Option (PRes NbtTag)}
    (hp : ∀ tt l res, pay tt l = some res → pay2 tt l = some res) :
    ∀ cf cf2 acc l res, cf ≤ cf2 →
      parseCompoundF pay cf acc l = some res →
      parseCompoundF pay2 cf2 acc l = some res := by
  intro cf
  induction cf with
  | zero => intro cf2 acc l res _ h; simp [parseCompoundF] at h
  | succ cf ih =>
    intro cf2 acc l res hle h
    match cf2, hle with
    | cf2 + 1, hle =>
      simp only [parseCompoundF] at h ⊢
      cases hu8 : readU8 l with
      | error e => rw [hu8] at h; exact h
      | ok p =>
        obtain ⟨tt, r1⟩ := p
        rw [hu8] at h
        dsimp only at h ⊢
        by_cases htt : tt = 0
        · rw [if_pos htt] at h ⊢; exact h
        · rw [if_neg htt] at h ⊢
          cases hs : parse_nbt_string r1 with
          | error e => rw [hs] at h; exact h
          | ok p2 =>
            obtain ⟨name, r2⟩ := p2
            rw [hs] at h
            dsimp only at h ⊢
            cases hpv : pay tt r2 with
            | none => rw [hpv] at h; simp at h
            | some r3 =>
              rw [hpv] at h
              rw [hp tt r2 r3 hpv]
              match r3 with
              | .error e => exact h
              | .ok (t, r4) =>
                dsimp only at h ⊢
                exact ih cf2 _ r4 res (by omega) h

theorem parsePayloadF_mono :
    ∀ f f2 t l res, f ≤ f2 → parsePayloadF f t l = some res →
      parsePayloadF f2 t l = some res := by
  intro f
  induction f with
  | zero => intro f2 t l res _ h; simp [parsePayloadF] at h
  | succ f ih =>
    intro f2 t l res hle h
    match f2, hle with
    | f2 + 1, hle =>
      have hf : f ≤ f2 := by omega
      match t with
      | 0 => exact h
      | 1 => exact h
      | 2 => exact h
      | 3 => exact h
      | 4 => exact h
      | 5 => exact h
      | 6 => exact h
      | 7 => exact h
      | 8 => exact h
      | 9 =>
        simp only [parsePayloadF] at h ⊢
        cases hr : readU8 l with
        | error e => rw [hr] at h; exact h
        | ok p =>
          obtain ⟨et, r1⟩ := p
          rw [hr] at h
          dsimp only at h ⊢
          cases h32 : readU32 r1 with
          | error e => rw [h32] at h; exact h
          | ok p2 =>
            obtain ⟨c, r2⟩ := p2
            rw [h32] at h
            dsimp only at h ⊢
            cases hl : parseListStep (parsePayloadF f et) (i32ToUsize c) r2 with
            | none => rw [hl] at h; simp at h
            | some res2 =>
              rw [hl] at h
              rw [parseListStep_mono (fun l2 r2 => ih f2 et l2 r2 hf)
                (i32ToUsize c) r2 res2 hl]
              exact h
      | 10 =>
        simp only [parsePayloadF] at h ⊢
        cases hc : parseCompoundF (parsePayloadF f) (l.length + 1) [] l with
        | none => rw [hc] at h; simp at h
        | some res2 =>
          rw [hc] at h
          rw [parseCompoundF_mono (fun tt l2 r2 => ih f2 tt l2 r2 hf)
            (l.length + 1) (l.length + 1) [] l res2 (by omega) hc]
          exact h
      | 11 => exact h
      | 12 => exact h
      | (n + 13) => exact h

theorem parseListStep_suff {pay : List Nat → Option (PRes NbtTag)} {g : Nat}
    (hsome : ∀ l2, l2.length + 1 ≤ g → (pay l2).isSome)
    (hlen : ∀ l2 a r, pay l2 = some (.ok (a, r)) → r.length ≤ l2.length) :
    ∀ c l, l.length + 1 ≤ g → (parseListStep pay c l).isSome := by
  intro c
  induction c with
  | zero => intro l _; simp [parseListStep]
  | succ c ih =>
    intro l hl
    simp only [parseListStep]
    cases hpl : pay l with
    | none =>
      have := hsome l hl
      rw [hpl] at this
      simp at this
    | some r1 =>
      match r1 with
      | .error e => simp
      | .ok (t, r) =>
        dsimp only
        have hr : r.length + 1 ≤ g := by
          have := hlen l t r hpl
          omega
        cases hq : parseListStep pay c r with
        | none =>
          have := ih r hr
          rw [hq] at this
          simp at this
        | some r2 =>
          match r2 with
          | .error e => simp
          | .ok (ts, r3) => simp

theorem parseCompoundF_suff {pay : Nat → List Nat → Option (PRes NbtTag)} {g : Nat}
    (hsome : ∀ tt l2, l2.length + 1 ≤ g → (pay tt l2).isSome)
    (hlen : ∀ tt l2 a r, pay tt l2 = some (.ok (a, r)) → r.length ≤ l2.length) :
    ∀ cf acc l, l.length + 1 ≤ cf → l.length ≤ g + 2 →
      (parseCompoundF pay cf acc l).isSome := by
  intro cf
  induction cf with
  | zero => intro acc l hl _; omega
  | succ cf ih =>
    intro acc l hl hg
    simp only [parseCompoundF]
    cases hu8 : readU8 l with
    | error e => simp
    | ok p =>
      obtain ⟨tt, r1⟩ := p
      dsimp only
      by_cases htt : tt = 0
      · rw [if_pos htt]; simp
      · rw [if_neg htt]
        cases hs : parse_nbt_string r1 with
        | error e => simp
        | ok p2 =>
          obtain ⟨name, r2⟩ := p2
          dsimp only
          have hr1 : r1.length + 1 = l.length := by
            rw [readU8_shape hu8]; rfl
          have hr2 : r2.length + 2 ≤ r1.length := by
            obtain ⟨b1, b2, bs, he, -, -⟩ := parse_nbt_string_shape hs
            rw [he]
            simp only [List.length_cons, List.length_append]
            omega
          cases hpv : pay tt r2 with
          | none =>
            have := hsome tt r2 (by omega)
            rw [hpv] at this
            simp at this
          | some r3 =>
            match r3 with
            | .error e => simp
            | .ok (t, r4) =>
              dsimp only
              have hr4 : r4.length ≤ r2.length := hlen tt r2 t r4 hpv
              exact ih _ r4 (by omega) (by omega)

theorem parsePayloadF_suff :
    ∀ f t l, l.length + 1 ≤ f → (parsePayloadF f t l).isSome := by
  intro f
  induction f with
  | zero => intro t l hl; omega
  | succ f ih =>
    intro t l hl
    match t with
    | 0 => simp [parsePayloadF]
    | 1 =>
      simp only [parsePayloadF]
      cases hr : readU8 l with
      | error e => simp
      | ok p => obtain ⟨b, r⟩ := p; simp
    | 2 =>
      simp only [parsePayloadF]
      cases hr : readU16 l with
      | error e => simp
      | ok p => obtain ⟨v, r⟩ := p; simp
    | 3 =>
      simp only [parsePayloadF]
      cases hr : readU32 l with
      | error e => simp
      | ok p => obtain ⟨v, r⟩ := p; simp
    | 4 =>
      simp only [parsePayloadF]
      cases hr : readU64 l with
      | error e => simp
      | ok p => obtain ⟨v, r⟩ := p; simp
    | 5 =>
      simp only [parsePayloadF]
      cases hr : readU32 l with
      | error e => simp
      | ok p => obtain ⟨v, r⟩ := p; simp
    | 6 =>
      simp only [parsePayloadF]
      cases hr : readU64 l with
      | error e => simp
      | ok p => obtain ⟨v, r⟩ := p; simp
    | 7 =>
      simp only [parsePayloadF]
      cases hr : readU32 l with
      | error e => simp
      | ok p =>
        obtain ⟨c, r1⟩ := p
        dsimp only
        cases hb : readBytes (i32ToUsize c) r1 with
        | error e => simp
        | ok p2 => obtain ⟨bs, r2⟩ := p2; simp
    | 8 =>
      simp only [parsePayloadF]
      cases hs : parse_nbt_string l with
      | error e => simp
      | ok p => obtain ⟨s, r⟩ := p; simp
    | 9 =>
      simp only [parsePayloadF]
      cases hr : readU8 l with
      | error e => simp
      | ok p =>
        obtain ⟨et, r1⟩ := p
        dsimp only
        cases h32 : readU32 r1 with
        | error e => simp
        | ok p2 =>
          obtain ⟨c, r2⟩ := p2
          dsimp only
          have hr1 : r1.length + 1 = l.length := by rw [readU8_shape hr]; rfl
          have hr2 : r2.length + 4 = r1.length := by
            obtain ⟨b1, b2, b3, b4, he, -⟩ := readU32_shape h32
            rw [he]; rfl
          have hsuff := @parseListStep_suff (parsePayloadF f et) f
            (fun l2 hl2 => ih et l2 hl2)
            (fun l2 a r hres => parsePayloadF_lenLe hres)
            (i32ToUsize c) r2 (by omega)
          cases hlres : parseListStep (parsePayloadF f et) (i32ToUsize c) r2 with
          | none => rw [hlres] at hsuff; simp at hsuff
          | some res =>
            match res with
            | .error e => simp
            | .ok (ts, r3) => simp
    | 10 =>
      simp only [parsePayloadF]
      have hsuff := @parseCompoundF_suff (parsePayloadF f) f
        (fun tt l2 hl2 => ih tt l2 hl2)
        (fun tt l2 a r hres => parsePayloadF_lenLe hres)
        (l.length + 1) [] l (by omega) (by omega)
      cases hcres : parseCompoundF (parsePayloadF f) (l.length + 1) [] l with
      | none => rw [hcres] at hsuff; simp at hsuff
      | some res =>
        match res with
        | .error e => simp
        | .ok (es, r1) => simp
    | 11 =>
      simp only [parsePayloadF]
      cases hr : readU32 l with
      | error e => simp
      | ok p =>
        obtain ⟨c, r1⟩ := p
        dsimp only
        cases hb : readBytes (i32ToUsize c * 4 % 18446744073709551616) r1 with
        | error e => simp
        | ok p2 => obtain ⟨bs, r2⟩ := p2; simp
    | 12 =>
      simp only [parsePayloadF]
      cases hr : readU32 l with
      | error e => simp
      | ok p =>
        obtain ⟨c, r1⟩ := p
        dsimp only
        cases hb : readBytes (i32ToUsize c * 8 % 18446744073709551616) r1 with
        | error e => simp
        | ok p2 => obtain ⟨bs, r2⟩ := p2; simp
    | (n + 13) => simp [parsePayloadF]

/-- The public payload parser agrees with the fueled parser at any
sufficient fuel. -/
theorem parse_tag_payload_eq {f t : Nat} {l : List Nat} {res : PRes NbtTag}
    (hf : l.length + 1 ≤ f) (h : parsePayloadF f t l = some res) :
    parse_tag_payload t l = res := by
  unfold parse_tag_payload
  have hsuff := parsePayloadF_suff (l.length + 1) t l (by omega)
  cases hc : parsePayloadF (l.length + 1) t l with
  | none => rw [hc] at hsuff; simp at hsuff
  | some res2 =>
    have := parsePayloadF_mono (l.length + 1) (max f (l.length + 1)) t l res2
      (by omega) hc
    have h2 := parsePayloadF_mono f (max f (l.length + 1)) t l res (by omega) h
    rw [this] at h2
    simp only [Option.some.injEq] at h2
    simp [h2]

/-- Conversely, the fueled parser at sufficient fuel returns what the
public parser returns. -/
theorem parsePayloadF_of_public {f t : Nat} {l : List Nat}
    (hf : l.length + 1 ≤ f) :
    parsePayloadF f t l = some (parse_tag_payload t l) := by
  have hsuff := parsePayloadF_suff f t l hf
  cases hc : parsePayloadF f t l with
  | none => rw [hc] at hsuff; simp at hsuff
  | some res => rw [parse_tag_payload_eq hf hc]

/-! ## Theorems: encoder/parser round trip -/

theorem i32ToUsize_small {n : Nat} (h : n < 2147483648) : i32ToUsize n = n := by
  simp [i32ToUsize, h]

theorem writeInts_length (v : List Nat) : (writeInts v).length = 4 * v.length := by
  induction v with
  | nil => rfl
  | cons x xs ih => simp [writeInts, u32be, ih]; omega

theorem writeLongs_length (v : List Nat) : (writeLongs v).length = 8 * v.length := by
  induction v with
  | nil => rfl
  | cons x xs ih => simp [writeLongs, u64be, ih]; omega

theorem beChunks4_writeInts {v : List Nat} (h : ∀ x ∈ v, x < 4294967296) :
    beChunks4 (writeInts v) = v := by
  induction v with
  | nil => rfl
  | cons x xs ih =>
    have hx : x < 4294967296 := h x (by simp)
    have hstep : beChunks4 (writeInts (x :: xs))
        = (x / 16777216 % 256 * 16777216 + x / 65536 % 256 * 65536
            + x / 256 % 256 * 256 + x % 256) :: beChunks4 (writeInts xs) := rfl
    rw [hstep, ih (fun y hy => h y (by simp [hy]))]
    congr 1
    omega

theorem beChunks8_writeLongs {v : List Nat} (h : ∀ x ∈ v, x < 18446744073709551616) :
    beChunks8 (writeLongs v) = v := by
  induction v with
  | nil => rfl
  | cons x xs ih =>
    have hx : x < 18446744073709551616 := h x (by simp)
    have hstep : beChunks8 (writeLongs (x :: xs))
        = (x / 72057594037927936 % 256 * 72057594037927936
            + x / 281474976710656 % 256 * 281474976710656
            + x / 1099511627776 % 256 * 1099511627776
            + x / 4294967296 % 256 * 4294967296
            + x / 16777216 % 256 * 16777216 + x / 65536 % 256 * 65536
            + x / 256 % 256 * 256 + x % 256) :: beChunks8 (writeLongs xs) := rfl
    rw [hstep, ih (fun y hy => h y (by simp [hy]))]
    congr 1
    omega

theorem writeCompoundEntries_length_ge (es : List (List Nat × NbtTag)) :
    es.length ≤ (writeCompoundEntries es).length := by
  induction es with
  | nil => simp [writeCompoundEntries]
  | cons e es ih =>
    obtain ⟨n, t⟩ := e
    simp only [writeCompoundEntries, List.length_cons, List.length_append]
    omega

theorem indexInsert_of_notMem {acc : List (List Nat × NbtTag)} {n : List Nat}
    {t : NbtTag} (h : n ∉ acc.map Prod.fst) :
    indexInsert acc n t = acc ++ [(n, t)] := by
  induction acc with
  | nil => rfl
  | cons e es ih =>
    obtain ⟨k, v⟩ := e
    simp only [List.map_cons, List.mem_cons] at h
    push_neg at h
    simp only [indexInsert, List.cons_append]
    rw [if_neg (fun hkn => h.1 hkn.symm), ih h.2]

theorem foldInsert_of_disjoint :
    ∀ (es acc : List (List Nat × NbtTag)),
      (es.map Prod.fst).Nodup →
      (∀ k ∈ es.map Prod.fst, k ∉ acc.map Prod.fst) →
      foldInsert acc es = acc ++ es := by
  intro es
  induction es with
  | nil => intro acc _ _; simp [foldInsert]
  | cons e es ih =>
    intro acc hnd hdisj
    obtain ⟨n, t⟩ := e
    simp only [List.map_cons, List.nodup_cons] at hnd
    have hn : n ∉ acc.map Prod.fst := hdisj n (by simp)
    simp only [foldInsert, List.foldl_cons]
    rw [show (indexInsert acc n t) = acc ++ [(n, t)] from indexInsert_of_notMem hn]
    rw [show List.foldl (fun a e => indexInsert a e.1 e.2) (acc ++ [(n, t)]) es
      = foldInsert (acc ++ [(n, t)]) es from rfl]
    rw [ih (acc ++ [(n, t)]) hnd.2]
    · simp
    · intro k hk
      simp only [List.map_append, List.mem_append]
      push_neg
      constructor
      · exact fun hmem => hdisj k (by simp [hk]) hmem
      · simp only [List.map_cons, List.map_nil, List.mem_singleton]
        intro hkn
        exact hnd.1 (hkn ▸ hk)

theorem foldInsert_nodup {es : List (List Nat × NbtTag)}
    (h : (es.map Prod.fst).Nodup) : foldInsert [] es = es := by
  rw [foldInsert_of_disjoint es [] h (by simp)]
  simp

theorem homogeneous_cons {t : NbtTag} {ts : List NbtTag}
    (h : homogeneous (t :: ts) = true) :
    ∀ x ∈ t :: ts, get_type_id x = get_type_id t := by
  intro x hx
  simp only [List.mem_cons] at hx
  cases hx with
  | inl he => rw [he]
  | inr hm =>
    simp only [homogeneous, List.all_eq_true] at h
    have := h x hm
    simpa using this

mutual

theorem payload_roundtrip (tag : NbtTag) (hwf : wfTag tag = true) :
    ∃ f0, ∀ f rest, f0 ≤ f →
      parsePayloadF f (get_type_id tag) (write_tag_payload tag ++ rest)
        = some (.ok (tag, rest)) := by
  match tag with
  | .End =>
    refine ⟨1, fun f rest hf => ?_⟩
    match f, hf with
    | f + 1, _ => simp [parsePayloadF, write_tag_payload, get_type_id]
  | .Byte v =>
    refine ⟨1, fun f rest hf => ?_⟩
    have hv : v < 256 := by simpa [wfTag] using hwf
    match f, hf with
    | f + 1, _ =>
      simp [parsePayloadF, write_tag_payload, get_type_id, readU8,
        Nat.mod_eq_of_lt hv]
  | .Short v =>
    refine ⟨1, fun f rest hf => ?_⟩
    have hv : v < 65536 := by simpa [wfTag] using hwf
    match f, hf with
    | f + 1, _ =>
      simp only [get_type_id, write_tag_payload, parsePayloadF, readU16_u16be,
        Nat.mod_eq_of_lt hv]
  | .Int v =>
    refine ⟨1, fun f rest hf => ?_⟩
    have hv : v < 4294967296 := by simpa [wfTag] using hwf
    match f, hf with
    | f + 1, _ =>
      simp only [get_type_id, write_tag_payload, parsePayloadF, readU32_u32be,
        Nat.mod_eq_of_lt hv]
  | .Long v =>
    refine ⟨1, fun f rest hf => ?_⟩
    have hv : v < 18446744073709551616 := by simpa [wfTag] using hwf
    match f, hf with
    | f + 1, _ =>
      simp only [get_type_id, write_tag_payload, parsePayloadF, readU64_u64be,
        Nat.mod_eq_of_lt hv]
  | .Float v =>
    refine ⟨1, fun f rest hf => ?_⟩
    have hv : v < 4294967296 := by simpa [wfTag] using hwf
    match f, hf with
    | f + 1, _ =>
      simp only [get_type_id, write_tag_payload, parsePayloadF, readU32_u32be,
        Nat.mod_eq_of_lt hv]
  | .Double v =>
    refine ⟨1, fun f rest hf => ?_⟩
    have hv : v < 18446744073709551616 := by simpa [wfTag] using hwf
    match f, hf with
    | f + 1, _ =>
      simp only [get_type_id, write_tag_payload, parsePayloadF, readU64_u64be,
        Nat.mod_eq_of_lt hv]
  | .ByteArray v =>
    refine ⟨1, fun f rest hf => ?_⟩
    have hv : v.length < 2147483648 ∧ ∀ x ∈ v, x < 256 := by
      simpa [wfTag] using hwf
    match f, hf with
    | f + 1, _ =>
      simp only [get_type_id, write_tag_payload, parsePayloadF, List.append_assoc,
        readU32_u32be, Nat.mod_eq_of_lt (by omega : v.length < 4294967296)]
      rw [i32ToUsize_small hv.1, readBytes_exact rfl]
  | .String s =>
    refine ⟨1, fun f rest hf => ?_⟩
    have hs : wfStr s = true := by simpa [wfTag] using hwf
    match f, hf with
    | f + 1, _ =>
      simp only [get_type_id, write_tag_payload, parsePayloadF,
        parse_nbt_string_write hs]
  | .List ts =>
    match ts with
    | [] =>
      refine ⟨1, fun f rest hf => ?_⟩
      match f, hf with
      | f + 1, _ =>
        simp only [get_type_id, write_tag_payload, parsePayloadF, List.cons_append,
          readU8, List.append_assoc, readU32_u32be]
        rw [show i32ToUsize (0 % 4294967296) = 0 from rfl]
        simp [parseListStep]
    | t :: ts' =>
      have hwf' : (ts'.length + 1 < 2147483648 ∧ homogeneous (t :: ts') = true)
          ∧ wfTagList (t :: ts') = true := by
        simpa [wfTag] using hwf
      have hlen' : (t :: ts').length < 2147483648 := by simp; omega
      obtain ⟨f1, hlist⟩ := list_roundtrip (get_type_id t) (t :: ts') hwf'.2
        (homogeneous_cons hwf'.1.2)
      refine ⟨f1 + 1, fun f rest hf => ?_⟩
      match f, hf with
      | f + 1, hf =>
        rw [show get_type_id (NbtTag.List (t :: ts')) = 9 from rfl]
        simp only [write_tag_payload, parsePayloadF, List.cons_append,
          readU8, List.append_assoc, readU32_u32be]
        rw [Nat.mod_eq_of_lt (by simp; omega), i32ToUsize_small hlen']
        rw [hlist f rest (by omega)]
  | .Compound es =>
    have hco : (es.map Prod.fst).Nodup ∧ wfEntries es = true := by
      simpa [wfTag] using hwf
    have hnd : (es.map Prod.fst).Nodup := hco.1
    obtain ⟨f1, hcomp⟩ := compound_roundtrip es hco.2
    refine ⟨f1 + 1, fun f rest hf => ?_⟩
    match f, hf with
    | f + 1, hf =>
      simp only [get_type_id, write_tag_payload, parsePayloadF]
      have harr : writeCompoundEntries es ++ [0] ++ rest
          = writeCompoundEntries es ++ 0 :: rest := by simp
      rw [harr]
      have hlen : es.length < (writeCompoundEntries es ++ 0 :: rest).length + 1 := by
        have := writeCompoundEntries_length_ge es
        simp only [List.length_append, List.length_cons]
        omega
      rw [hcomp f _ [] rest (by omega) hlen]
      dsimp only
      rw [foldInsert_nodup hnd]
  | .IntArray v =>
    refine ⟨1, fun f rest hf => ?_⟩
    have hv : v.length < 2147483648 ∧ ∀ x ∈ v, x < 4294967296 := by
      simpa [wfTag] using hwf
    match f, hf with
    | f + 1, _ =>
      simp only [get_type_id, write_tag_payload, parsePayloadF, List.append_assoc,
        readU32_u32be, Nat.mod_eq_of_lt (by omega : v.length < 4294967296)]
      rw [i32ToUsize_small hv.1,
        (by omega : v.length * 4 % 18446744073709551616 = v.length * 4),
        readBytes_exact (by rw [writeInts_length]; omega)]
      dsimp only
      rw [beChunks4_writeInts hv.2]
  | .LongArray v =>
    refine ⟨1, fun f rest hf => ?_⟩
    have hv : v.length < 2147483648 ∧ ∀ x ∈ v, x < 18446744073709551616 := by
      simpa [wfTag] using hwf
    match f, hf with
    | f + 1, _ =>
      simp only [get_type_id, write_tag_payload, parsePayloadF, List.append_assoc,
        readU32_u32be, Nat.mod_eq_of_lt (by omega : v.length < 4294967296)]
      rw [i32ToUsize_small hv.1,
        (by omega : v.length * 8 % 18446744073709551616 = v.length * 8),
        readBytes_exact (by rw [writeLongs_length]; omega)]
      dsimp only
      rw [beChunks8_writeLongs hv.2]

theorem list_roundtrip (et : Nat) (ts : List NbtTag) (hwf : wfTagList ts = true)
    (het : ∀ t ∈ ts, get_type_id t = et) :
    ∃ f0, ∀ f rest, f0 ≤ f →
      parseListStep (parsePayloadF f et) ts.length (writeListPayloads ts ++ rest)
        = some (.ok (ts, rest)) := by
  match ts with
  | [] =>
    refine ⟨0, fun f rest _ => ?_⟩
    simp [writeListPayloads, parseListStep]
  | t :: ts' =>
    have hw : wfTag t = true ∧ wfTagList ts' = true := by
      simpa [wfTagList] using hwf
    obtain ⟨f1, hpay⟩ := payload_roundtrip t hw.1
    obtain ⟨f2, hrest⟩ := list_roundtrip et ts' hw.2
      (fun x hx => het x (by simp [hx]))
    refine ⟨max f1 f2, fun f rest hf => ?_⟩
    have hpay' : parsePayloadF f et (write_tag_payload t ++ (writeListPayloads ts' ++ rest))
        = some (.ok (t, writeListPayloads ts' ++ rest)) := by
      rw [← het t (by simp)]
      exact hpay f _ (by omega)
    simp only [writeListPayloads, List.length_cons, parseListStep,
      List.append_assoc]
    rw [hpay']
    dsimp only
    rw [hrest f rest (by omega)]

theorem compound_roundtrip (es : List (List Nat × NbtTag))
    (hwf : wfEntries es = true) :
    ∃ f0, ∀ f cf acc rest, f0 ≤ f → es.length < cf →
      parseCompoundF (parsePayloadF f) cf acc (writeCompoundEntries es ++ 0 :: rest)
        = some (.ok (foldInsert acc es, rest)) := by
  match es with
  | [] =>
    refine ⟨0, fun f cf acc rest _ hcf => ?_⟩
    match cf, hcf with
    | cf + 1, _ =>
      simp [writeCompoundEntries, parseCompoundF, readU8, foldInsert]
  | (n, t) :: es' =>
    have hw : ((wfStr n = true ∧ wfTag t = true) ∧ 0 < get_type_id t)
        ∧ wfEntries es' = true := by simpa [wfEntries] using hwf
    have hwn : wfStr n = true := hw.1.1.1
    have hwt : wfTag t = true := hw.1.1.2
    have hpos : 0 < get_type_id t := hw.1.2
    obtain ⟨f1, hpay⟩ := payload_roundtrip t hwt
    obtain ⟨f2, hrest⟩ := compound_roundtrip es' hw.2
    refine ⟨max f1 f2, fun f cf acc rest hf hcf => ?_⟩
    match cf, hcf with
    | cf + 1, hcf =>
      simp only [writeCompoundEntries, List.cons_append, List.append_assoc,
        parseCompoundF, readU8]
      rw [if_neg (by omega)]
      rw [parse_nbt_string_write hwn]
      dsimp only
      rw [hpay f _ (by omega)]
      dsimp only
      rw [hrest f cf (indexInsert acc n t) rest (by omega) (by simp at hcf; omega)]
      rfl

end

/-! ## C1: named-tag round trip -/

theorem get_type_id_eq_zero {tag : NbtTag} (h : get_type_id tag = 0) :
    tag = .End := by
  match tag with
  | .End => rfl
  | .Byte v => simp [get_type_id] at h
  | .Short v => simp [get_type_id] at h
  | .Int v => simp [get_type_id] at h
  | .Long v => simp [get_type_id] at h
  | .Float v => simp [get_type_id] at h
  | .Double v => simp [get_type_id] at h
  | .ByteArray v => simp [get_type_id] at h
  | .String v => simp [get_type_id] at h
  | .List v => simp [get_type_id] at h
  | .Compound v => simp [get_type_id] at h
  | .IntArray v => simp [get_type_id] at h
  | .LongArray v => simp [get_type_id] at h

/-- The payload round trip at the public parser. -/
theorem parse_tag_payload_write {tag : NbtTag} (hwf : wfTag tag = true)
    (rest : List Nat) :
    parse_tag_payload (get_type_id tag) (write_tag_payload tag ++ rest)
      = .ok (tag, rest) := by
  obtain ⟨f0, hrt⟩ := payload_roundtrip tag hwf
  exact @parse_tag_payload_eq (max f0 ((write_tag_payload tag ++ rest).length + 1))
    _ _ _ (by omega) (hrt _ rest (by omega))

/-- C1 (amended): for every well-formed named document (homogeneous lists,
strings whose encodings fit the 16-bit length prefix, counts below 2^31,
distinct compound keys, no `End` as a compound value, and an empty name if
the tag itself is `End`), parsing the written bytes yields exactly the
document back. -/
theorem C1_roundtrip_amended (name : List Nat) (tag : NbtTag)
    (h : wfNamed name tag = true) :
    ∃ r, parse_named_tag (write_named_tag name tag) = .ok ((name, tag), r) := by
  have hw : (wfStr name = true ∧ wfTag tag = true)
      ∧ (0 < get_type_id tag ∨ name = []) := by
    simpa [wfNamed, Bool.or_eq_true] using h
  unfold write_named_tag parse_named_tag
  by_cases hz : get_type_id tag = 0
  · have htag : tag = .End := get_type_id_eq_zero hz
    have hname : name = [] := by
      rcases hw.2 with hpos | hnil
      · omega
      · exact hnil
    subst htag
    subst hname
    refine ⟨write_nbt_string [] ++ write_tag_payload .End, ?_⟩
    rw [hz]
    rfl
  · rw [show readU8 (get_type_id tag :: (write_nbt_string name ++ write_tag_payload tag))
        = .ok (get_type_id tag, write_nbt_string name ++ write_tag_payload tag) from rfl]
    dsimp only
    rw [if_neg hz]
    have hstr : parse_nbt_string (write_nbt_string name ++ write_tag_payload tag)
        = .ok (name, write_tag_payload tag) := parse_nbt_string_write hw.1.1 _
    rw [hstr]
    dsimp only
    have hpay : parse_tag_payload (get_type_id tag) (write_tag_payload tag)
        = .ok (tag, []) := by
      have := parse_tag_payload_write hw.1.2 []
      simpa using this
    rw [hpay]
    exact ⟨[], rfl⟩

/-- C1 witness: a concrete well-formed document round-trips. -/
theorem C1_roundtrip_amended_witness :
    wfNamed [97] (.Byte 255) = true ∧
      ∃ r, parse_named_tag (write_named_tag [97] (.Byte 255))
        = .ok (([97], .Byte 255), r) := by
  have hwf : wfNamed [97] (NbtTag.Byte 255) = true := by
    simp [wfNamed, wfTag, wfStr, isScalar, get_type_id, encode_mutf8, encodeUnits,
      utf16Units, encodeUnit]
  exact ⟨hwf, C1_roundtrip_amended [97] (.Byte 255) hwf⟩

/-- C1 counterexample: the named document `("a", End)` is written as a bare
zero type id followed by the name, but the parser returns the empty
document `("", End)` on a leading zero, so the round trip loses the name. -/
theorem C1_counterexample :
    parse_named_tag (write_named_tag [97] .End) = .ok (([], .End), [0, 1, 97])
      ∧ ([97] : List Nat) ≠ [] := by
  constructor
  · have hpe : write_tag_payload NbtTag.End = [] := by simp [write_tag_payload]
    have hw : write_named_tag [97] NbtTag.End = [0, 0, 1, 97] := by
      unfold write_named_tag
      rw [hpe]
      rfl
    rw [hw]
    rfl
  · simp

/-! ## C10: duplicate compound entry names -/

theorem parse_tag_payload_compound {es : List (List Nat × NbtTag)}
    (hwf : wfEntries es = true) (rest : List Nat) :
    parse_tag_payload 10 (writeCompoundEntries es ++ 0 :: rest)
      = .ok (.Compound (foldInsert [] es), rest) := by
  obtain ⟨f0, hcomp⟩ := compound_roundtrip es hwf
  set L := writeCompoundEntries es ++ 0 :: rest with hL
  have hlen : es.length < L.length + 1 := by
    have := writeCompoundEntries_length_ge es
    rw [hL]
    simp only [List.length_append, List.length_cons]
    omega
  have hstep : parsePayloadF (max f0 (L.length + 1) + 1) 10 L
      = some (.ok (.Compound (foldInsert [] es), rest)) := by
    simp only [parsePayloadF]
    rw [hcomp (max f0 (L.length + 1)) (L.length + 1) [] rest (by omega) hlen]
  exact parse_tag_payload_eq (by omega) hstep

theorem lookupKey_indexInsert_self (acc : List (List Nat × NbtTag))
    (n : List Nat) (t : NbtTag) : lookupKey (indexInsert acc n t) n = some t := by
  induction acc with
  | nil => simp [indexInsert, lookupKey]
  | cons e es ih =>
    obtain ⟨k, v⟩ := e
    by_cases hk : k = n
    · simp [indexInsert, lookupKey, hk]
    · simp [indexInsert, lookupKey, hk, ih]

theorem lookupKey_indexInsert_other {acc : List (List Nat × NbtTag)}
    {n m : List Nat} (t : NbtTag) (h : n ≠ m) :
    lookupKey (indexInsert acc n t) m = lookupKey acc m := by
  induction acc with
  | nil => simp [indexInsert, lookupKey, h]
  | cons e es ih =>
    obtain ⟨k, v⟩ := e
    by_cases hk : k = n
    · subst hk
      simp [indexInsert, lookupKey, h]
    · by_cases hm : k = m
      · simp only [indexInsert, if_neg hk, lookupKey, if_pos hm]
      · simp only [indexInsert, if_neg hk, lookupKey, if_neg hm, ih]

theorem lookupKey_foldInsert_notMem {es : List (List Nat × NbtTag)}
    {n : List Nat} (h : n ∉ es.map Prod.fst) (acc : List (List Nat × NbtTag)) :
    lookupKey (foldInsert acc es) n = lookupKey acc n := by
  induction es generalizing acc with
  | nil => simp [foldInsert]
  | cons e es ih =>
    obtain ⟨k, v⟩ := e
    simp only [List.map_cons, List.mem_cons] at h
    push_neg at h
    rw [show foldInsert acc ((k, v) :: es) = foldInsert (indexInsert acc k v) es
      from rfl]
    rw [ih h.2, lookupKey_indexInsert_other v (fun he => h.1 he.symm)]

theorem lookupKey_foldInsert_last {es2 : List (List Nat × NbtTag)}
    {n : List Nat} {t : NbtTag} (h : n ∉ es2.map Prod.fst)
    (acc : List (List Nat × NbtTag)) :
    lookupKey (foldInsert acc ((n, t) :: es2)) n = some t := by
  rw [show foldInsert acc ((n, t) :: es2) = foldInsert (indexInsert acc n t) es2
    from rfl]
  rw [lookupKey_foldInsert_notMem h, lookupKey_indexInsert_self]

theorem foldInsert_append (es1 es2 acc : List (List Nat × NbtTag)) :
    foldInsert acc (es1 ++ es2) = foldInsert (foldInsert acc es1) es2 := by
  simp [foldInsert, List.foldl_append]

theorem keys_indexInsert (acc : List (List Nat × NbtTag)) (n : List Nat)
    (t : NbtTag) :
    ∀ m, m ∈ (indexInsert acc n t).map Prod.fst ↔
      m = n ∨ m ∈ acc.map Prod.fst := by
  intro m
  induction acc with
  | nil => simp [indexInsert]
  | cons e es ih =>
    obtain ⟨k, v⟩ := e
    by_cases hk : k = n
    · subst hk
      rw [show indexInsert ((k, v) :: es) k t = (k, t) :: es from by
        simp [indexInsert]]
      simp only [List.map_cons, List.mem_cons]
      tauto
    · rw [show indexInsert ((k, v) :: es) n t = (k, v) :: indexInsert es n t from by
        simp only [indexInsert, if_neg hk]]
      simp only [List.map_cons, List.mem_cons, ih]
      tauto

theorem nodup_keys_indexInsert {acc : List (List Nat × NbtTag)}
    (h : (acc.map Prod.fst).Nodup) (n : List Nat) (t : NbtTag) :
    ((indexInsert acc n t).map Prod.fst).Nodup := by
  induction acc with
  | nil => simp [indexInsert]
  | cons e es ih =>
    obtain ⟨k, v⟩ := e
    simp only [List.map_cons, List.nodup_cons] at h
    by_cases hk : k = n
    · subst hk
      rw [show indexInsert ((k, v) :: es) k t = (k, t) :: es from by
        simp [indexInsert]]
      simp only [List.map_cons, List.nodup_cons]
      exact ⟨h.1, h.2⟩
    · rw [show indexInsert ((k, v) :: es) n t = (k, v) :: indexInsert es n t from by
        simp only [indexInsert, if_neg hk]]
      simp only [List.map_cons, List.nodup_cons]
      refine ⟨?_, ih h.2⟩
      rw [keys_indexInsert]
      push_neg
      exact ⟨hk, h.1⟩

theorem nodup_keys_foldInsert {acc : List (List Nat × NbtTag)}
    (h : (acc.map Prod.fst).Nodup) (es : List (List Nat × NbtTag)) :
    ((foldInsert acc es).map Prod.fst).Nodup := by
  induction es generalizing acc with
  | nil => simpa [foldInsert] using h
  | cons e es ih =>
    rw [show foldInsert acc (e :: es) = foldInsert (indexInsert acc e.1 e.2) es
      from rfl]
    exact ih (nodup_keys_indexInsert h e.1 e.2)

theorem mem_keys_foldInsert_acc {acc : List (List Nat × NbtTag)} {n : List Nat}
    (h : n ∈ acc.map Prod.fst) (es : List (List Nat × NbtTag)) :
    n ∈ (foldInsert acc es).map Prod.fst := by
  induction es generalizing acc with
  | nil => simpa [foldInsert] using h
  | cons e es ih =>
    rw [show foldInsert acc (e :: es) = foldInsert (indexInsert acc e.1 e.2) es
      from rfl]
    apply ih
    rw [keys_indexInsert]
    exact Or.inr h

theorem mem_keys_foldInsert {es : List (List Nat × NbtTag)} {n : List Nat}
    (h : n ∈ es.map Prod.fst) (acc : List (List Nat × NbtTag)) :
    n ∈ (foldInsert acc es).map Prod.fst := by
  induction es generalizing acc with
  | nil => simp at h
  | cons e es ih =>
    rw [show foldInsert acc (e :: es) = foldInsert (indexInsert acc e.1 e.2) es
      from rfl]
    simp only [List.map_cons, List.mem_cons] at h
    rcases h with he | hm
    · apply mem_keys_foldInsert_acc
      rw [keys_indexInsert]
      exact Or.inl he
    · exact ih hm _

theorem filter_key_nil {xs : List (List Nat)} {x : List Nat} (h : x ∉ xs) :
    xs.filter (fun k => decide (k = x)) = [] := by
  induction xs with
  | nil => rfl
  | cons y ys ih =>
    simp only [List.mem_cons] at h
    push_neg at h
    simp only [List.filter_cons]
    rw [if_neg (by simp; exact fun he => h.1 he.symm), ih h.2]

theorem filter_key_length_one {l : List (List Nat)} {n : List Nat}
    (hnd : l.Nodup) (hmem : n ∈ l) :
    (l.filter (fun k => decide (k = n))).length = 1 := by
  induction l with
  | nil => simp at hmem
  | cons x xs ih =>
    simp only [List.nodup_cons] at hnd
    simp only [List.mem_cons] at hmem
    by_cases hx : x = n
    · subst hx
      simp only [List.filter_cons]
      rw [if_pos (by simp), filter_key_nil hnd.1]
      rfl
    · rcases hmem with he | hm
      · exact absurd he.symm hx
      · simp only [List.filter_cons]
        rw [if_neg (by simp [hx])]
        exact ih hnd.2 hm

/-- C10: parsing a compound whose entry sequence carries the same name
twice succeeds and keeps exactly one entry under that name, holding the
payload of the later occurrence. -/
theorem C10_duplicate_names (es1 es2 es3 : List (List Nat × NbtTag))
    (n : List Nat) (t1 t2 : NbtTag)
    (hwf : wfEntries (es1 ++ (n, t1) :: es2 ++ (n, t2) :: es3) = true)
    (hlast : n ∉ (es2 ++ es3).map Prod.fst) (rest : List Nat) :
    ∃ m, parse_tag_payload 10
        (writeCompoundEntries (es1 ++ (n, t1) :: es2 ++ (n, t2) :: es3) ++ 0 :: rest)
      = .ok (.Compound m, rest)
    ∧ lookupKey m n = some t2
    ∧ ((m.map Prod.fst).filter (fun k => decide (k = n))).length = 1 := by
  set es := es1 ++ (n, t1) :: es2 ++ (n, t2) :: es3 with hes
  refine ⟨foldInsert [] es, parse_tag_payload_compound hwf rest, ?_, ?_⟩
  · simp only [List.map_append, List.mem_append] at hlast
    push_neg at hlast
    rw [hes, show es1 ++ (n, t1) :: es2 ++ (n, t2) :: es3
      = (es1 ++ (n, t1) :: es2) ++ (n, t2) :: es3 from by simp]
    rw [foldInsert_append]
    exact lookupKey_foldInsert_last (by simpa using hlast.2) _
  · have hnd : ((foldInsert [] es).map Prod.fst).Nodup :=
      nodup_keys_foldInsert (by simp) es
    have hmem : n ∈ (foldInsert [] es).map Prod.fst := by
      apply mem_keys_foldInsert
      rw [hes]
      simp
    exact filter_key_length_one hnd hmem

/-! ## C2, C5, C7 claim theorems and witnesses -/

/-- C2: at the failing input (List payload with element count -1, i.e. bytes
`[1, 0xFF, 0xFF, 0xFF, 0xFF]`, leaving zero bytes of input), the List branch
requests a `Vec` capacity of `(-1 as i32) as usize = 2^64 - 1` before any
validation -- far beyond the five bytes that exist -- while the parse itself
only fails with `UnexpectedEof` afterwards.  The claim that such counts are
rejected before any allocation is therefore false of the List case. -/
theorem C2_list_preallocation :
    listCaseCapacity [1, 255, 255, 255, 255] = some 18446744073709551615
      ∧ [1, 255, 255, 255, 255].length = 5
      ∧ parse_tag_payload 9 [1, 255, 255, 255, 255] = .error .UnexpectedEof :=
  ⟨rfl, rfl, rfl⟩

/-- C5: for every valid text string, including strings with embedded NUL
and supplementary-plane characters, decoding the MUTF-8 encoding succeeds
and returns the string. -/
theorem C5_text_roundtrip (s : List Nat) (h : ∀ c ∈ s, isScalar c = true) :
    decode_mutf8 (encode_mutf8 s) = .ok s :=
  decode_encode_mutf8 s h

/-- C5 witness: a string containing NUL, a non-BMP emoji and an ASCII
letter round-trips. -/
theorem C5_text_roundtrip_witness :
    (∀ c ∈ [0, 128512, 65], isScalar c = true)
      ∧ decode_mutf8 (encode_mutf8 [0, 128512, 65]) = .ok [0, 128512, 65] :=
  ⟨by decide, C5_text_roundtrip [0, 128512, 65] (by decide)⟩

theorem tmod_plus_32 (a : Int) : (a.tmod 32 + 32).tmod 32 = a % 32 := by
  have key : -32 < a.tmod 32 ∧ a.tmod 32 < 32 ∧ (a.tmod 32) % 32 = a % 32 := by
    match a with
    | .ofNat n =>
      rw [Int.tmod_eq_emod (by exact Int.ofNat_zero_le n) (by norm_num)]
      have h1 : 0 ≤ (Int.ofNat n) % 32 := Int.emod_nonneg _ (by norm_num)
      have h2 : (Int.ofNat n) % 32 < 32 := Int.emod_lt_of_pos _ (by norm_num)
      refine ⟨by omega, h2, Int.emod_emod_of_dvd _ dvd_rfl⟩
    | .negSucc n =>
      have he : (Int.negSucc n).tmod 32 = -(((n + 1) % 32 : Nat) : Int) := rfl
      have h32 : (n + 1) % 32 < 32 := Nat.mod_lt _ (by norm_num)
      have hns : Int.negSucc n = -(n + 1 : Int) := Int.negSucc_eq n
      rw [he, hns]
      refine ⟨by omega, by omega, by omega⟩
  obtain ⟨k1, k2, k3⟩ := key
  calc (a.tmod 32 + 32).tmod 32 = (a.tmod 32 + 32) % 32 :=
        Int.tmod_eq_emod (by omega) (by norm_num)
    _ = a % 32 := by omega

/-- C7: the writer slot `(c % 32 + 32) % 32` (truncated `%`) equals the
reader slot `c.rem_euclid(32)` (Euclidean modulo) for every coordinate,
both are `relZ * 32 + relX` under floor modulo, and the wrap sends
`(-1, -1)` to the same slot as `(31, 31)`. -/
theorem C7_slot_function :
    (∀ x z : Int, slotIndexW x z = slotIndexR x z
      ∧ slotIndexR x z = (z % 32).toNat * 32 + (x % 32).toNat)
    ∧ slotIndexR (-1) (-1) = slotIndexR 31 31 := by
  constructor
  · intro x z
    have hx : 0 ≤ x % 32 := Int.emod_nonneg _ (by norm_num)
    have hz : 0 ≤ z % 32 := Int.emod_nonneg _ (by norm_num)
    constructor
    · unfold slotIndexW slotIndexR
      rw [tmod_plus_32, tmod_plus_32]
    · unfold slotIndexR
      omega
  · decide

/-- C7 witness: the slot equations at the concrete coordinates `(-1, -1)`. -/
theorem C7_slot_function_witness :
    slotIndexW (-1) (-1) = slotIndexR (-1) (-1)
      ∧ slotIndexR (-1) (-1) = ((-1 : Int) % 32).toNat * 32 + ((-1 : Int) % 32).toNat :=
  C7_slot_function.1 (-1) (-1)

/-- C10 witness: a concrete compound with the name `"a"` twice keeps one
entry holding the second payload. -/
theorem C10_duplicate_names_witness :
    ∃ m, parse_tag_payload 10
        (writeCompoundEntries ([] ++ ([97], .Byte 1) :: [] ++ ([97], .Byte 2) :: []) ++ 0 :: [])
      = .ok (.Compound m, [])
    ∧ lookupKey m [97] = some (.Byte 2)
    ∧ ((m.map Prod.fst).filter (fun k => decide (k = [97]))).length = 1 := by
  apply C10_duplicate_names [] [] [] [97] (.Byte 1) (.Byte 2)
  · simp [wfEntries, wfTag, wfStr, isScalar, get_type_id, encode_mutf8,
      encodeUnits, utf16Units, encodeUnit]
  · simp

/-! ## Theorems: Anvil container -/

theorem slotIndexR_lt (x z : Int) : slotIndexR x z < 1024 := by
  have hz : 0 ≤ z % 32 := Int.emod_nonneg _ (by norm_num)
  have hz' : z % 32 < 32 := Int.emod_lt_of_pos _ (by norm_num)
  have hx : 0 ≤ x % 32 := Int.emod_nonneg _ (by norm_num)
  have hx' : x % 32 < 32 := Int.emod_lt_of_pos _ (by norm_num)
  unfold slotIndexR
  omega

theorem locTableBytes_length (ls : List ChunkLocation) :
    (locTableBytes ls).length = 4 * ls.length := by
  induction ls with
  | nil => rfl
  | cons a ls ih =>
    simp only [locTableBytes, locEntryBytes, List.length_append, List.length_cons,
      List.length_nil, ih]
    omega

theorem readLoc_cons4 (a b c d : Nat) (l : List Nat) (i : Nat) :
    readLoc (a :: b :: c :: d :: l) (i + 1) = readLoc l i := by
  unfold readLoc
  have h0 : (i + 1) * 4 = i * 4 + 1 + 1 + 1 + 1 := by omega
  have h1 : (i + 1) * 4 + 1 = i * 4 + 1 + 1 + 1 + 1 + 1 := by omega
  have h2 : (i + 1) * 4 + 2 = i * 4 + 2 + 1 + 1 + 1 + 1 := by omega
  have h3 : (i + 1) * 4 + 3 = i * 4 + 3 + 1 + 1 + 1 + 1 := by omega
  rw [h3, h2, h1, h0]
  simp only [List.getD_cons_succ]

theorem readLoc_table (ls : List ChunkLocation) (rest : List Nat) :
    ∀ i, i < ls.length →
      readLoc (locTableBytes ls ++ rest) i =
        ⟨(ls.getD i ⟨0, 0⟩).offset / 65536 % 256 * 65536
          + (ls.getD i ⟨0, 0⟩).offset / 256 % 256 * 256
          + (ls.getD i ⟨0, 0⟩).offset % 256,
         (ls.getD i ⟨0, 0⟩).sector_count % 256⟩ := by
  induction ls with
  | nil => intro i hi; exact absurd hi (by simp)
  | cons e ls ih =>
    intro i hi
    have hsplit : locTableBytes (e :: ls) ++ rest
        = e.offset / 65536 % 256 :: (e.offset / 256 % 256 :: (e.offset % 256
          :: (e.sector_count % 256 :: (locTableBytes ls ++ rest)))) := by
      simp [locTableBytes, locEntryBytes]
    rw [hsplit]
    cases i with
    | zero =>
      simp [readLoc]
    | succ i =>
      rw [readLoc_cons4]
      have hi' : i < ls.length := by simp at hi; omega
      rw [ih i hi']
      simp only [List.getD_cons_succ]

theorem write_locations_length (compress : List Nat → List Nat) :
    ∀ (chunks : List (Int × Int × List Nat × NbtTag)) (st : WriteState),
      (chunks.foldl (writeChunkStep compress) st).locations.length
        = st.locations.length := by
  intro chunks
  induction chunks with
  | nil => intro st; rfl
  | cons ch chunks ih =>
    intro st
    rw [List.foldl_cons, ih]
    simp [writeChunkStep]

theorem write_locations_untouched (compress : List Nat → List Nat) (s : Nat) :
    ∀ (chunks : List (Int × Int × List Nat × NbtTag)) (st : WriteState),
      (∀ ch ∈ chunks, slotIndexW ch.1 ch.2.1 ≠ s) →
      (chunks.foldl (writeChunkStep compress) st).locations.getD s ⟨0, 0⟩
        = st.locations.getD s ⟨0, 0⟩ := by
  intro chunks
  induction chunks with
  | nil => intro st _; rfl
  | cons ch chunks ih =>
    intro st h
    rw [List.foldl_cons, ih _ (fun c hc => h c (List.mem_cons_of_mem _ hc))]
    have hne : slotIndexW ch.1 ch.2.1 ≠ s := h ch (List.mem_cons_self _ _)
    simp [writeChunkStep, List.getD, List.getElem?_set_ne hne]

theorem get_chunk_data_absent_of_offset_zero (r : Region)
    (dG dZ : List Nat → Except Unit (List Nat)) (x z : Int)
    (h : (r.locations.getD (slotIndexR x z) ⟨0, 0⟩).offset = 0) :
    get_chunk_data r dG dZ x z = .absent := by
  simp only [get_chunk_data]
  rw [if_pos h]

theorem get_chunk_nbt_absent_of (r : Region)
    (dG dZ : List Nat → Except Unit (List Nat)) (x z : Int)
    (h : get_chunk_data r dG dZ x z = .absent) :
    get_chunk_nbt r dG dZ x z = .absent := by
  simp [get_chunk_nbt, h]

theorem get_chunk_data_absent_of_zeros (r : Region)
    (dG dZ : List Nat → Except Unit (List Nat)) (x z : Int)
    (ha : r.mmap[(r.locations.getD (slotIndexR x z) ⟨0, 0⟩).offset * SECTOR_SIZE]?
        = some 0)
    (hb : r.mmap[(r.locations.getD (slotIndexR x z) ⟨0, 0⟩).offset * SECTOR_SIZE + 1]?
        = some 0)
    (hc : r.mmap[(r.locations.getD (slotIndexR x z) ⟨0, 0⟩).offset * SECTOR_SIZE + 2]?
        = some 0)
    (hd : r.mmap[(r.locations.getD (slotIndexR x z) ⟨0, 0⟩).offset * SECTOR_SIZE + 3]?
        = some 0) :
    get_chunk_data r dG dZ x z = .absent := by
  by_cases h0 : (r.locations.getD (slotIndexR x z) ⟨0, 0⟩).offset = 0
  · exact get_chunk_data_absent_of_offset_zero r dG dZ x z h0
  · simp only [get_chunk_data]
    rw [if_neg h0, ha, hb, hc, hd]
    simp

theorem writeChunkStep_locations (compress : List Nat → List Nat)
    (st : WriteState) (ch : Int × Int × List Nat × NbtTag) :
    (writeChunkStep compress st ch).locations
      = st.locations.set (slotIndexW ch.1 ch.2.1)
          ⟨st.currentSector,
           ((compress (write_named_tag ch.2.2.1 ch.2.2.2)).length + 1 + 4
             + SECTOR_SIZE - 1) / SECTOR_SIZE % 256⟩ := rfl

theorem get_chunk_data_panics_of_head_none (r : Region)
    (dG dZ : List Nat → Except Unit (List Nat)) (x z : Int)
    (h0 : (r.locations.getD (slotIndexR x z) ⟨0, 0⟩).offset ≠ 0)
    (h : r.mmap[(r.locations.getD (slotIndexR x z) ⟨0, 0⟩).offset * SECTOR_SIZE]?
        = none) :
    get_chunk_data r dG dZ x z = .panics := by
  simp only [get_chunk_data]
  rw [if_neg h0, h]

theorem get_chunk_data_mk_absent_of_offset_zero (m : List Nat)
    (locs : List ChunkLocation) (dG dZ : List Nat → Except Unit (List Nat))
    (x z : Int) (h : (locs.getD (slotIndexR x z) ⟨0, 0⟩).offset = 0) :
    get_chunk_data ⟨m, locs⟩ dG dZ x z = .absent :=
  get_chunk_data_absent_of_offset_zero ⟨m, locs⟩ dG dZ x z h

theorem get_chunk_data_mk_panics_of_head_none (m : List Nat)
    (locs : List ChunkLocation) (dG dZ : List Nat → Except Unit (List Nat))
    (x z : Int)
    (h0 : (locs.getD (slotIndexR x z) ⟨0, 0⟩).offset ≠ 0)
    (h : m[(locs.getD (slotIndexR x z) ⟨0, 0⟩).offset * SECTOR_SIZE]? = none) :
    get_chunk_data ⟨m, locs⟩ dG dZ x z = .panics :=
  get_chunk_data_panics_of_head_none ⟨m, locs⟩ dG dZ x z h0 h

/-- C3: the claim fails on the code.  `write_all_chunks` stores
`sectors_needed as u8`, i.e. `sectors_needed % 256`, in every location
entry and returns normally (first conjunct, the general shape of the
recorded entry).  A chunk whose compressed payload has 1044476 bytes needs
exactly 256 sectors (second conjunct), yet its recorded `sector_count` is
the wrapped value `0` and no error is raised (third conjunct). -/
theorem C3_sector_count_truncated :
    (∀ (compress : List Nat → List Nat) (st : WriteState)
        (ch : Int × Int × List Nat × NbtTag),
      (writeChunkStep compress st ch).locations
        = st.locations.set (slotIndexW ch.1 ch.2.1)
            ⟨st.currentSector,
             ((compress (write_named_tag ch.2.2.1 ch.2.2.2)).length + 1 + 4
               + SECTOR_SIZE - 1) / SECTOR_SIZE % 256⟩)
    ∧ (∀ compressed : List Nat, compressed.length = 1044476 →
      (compressed.length + 1 + 4 + SECTOR_SIZE - 1) / SECTOR_SIZE = 256
      ∧ (write_all_chunks (fun _ => compressed)
          [(0, 0, [], .End)]).locations.getD 0 ⟨0, 0⟩ = ⟨2, 0⟩) := by
  refine ⟨fun compress st ch => rfl, fun compressed hcl => ⟨?_, ?_⟩⟩
  · rw [hcl]
    norm_num [SECTOR_SIZE]
  · unfold write_all_chunks
    rw [List.foldl_cons, List.foldl_nil, writeChunkStep_locations]
    show ((List.replicate 1024 (ChunkLocation.mk 0 0)).set (slotIndexW 0 0)
        ⟨2, (compressed.length + 1 + 4 + SECTOR_SIZE - 1)
          / SECTOR_SIZE % 256⟩).getD 0 ⟨0, 0⟩ = ⟨2, 0⟩
    rw [show slotIndexW 0 0 = 0 from by decide, hcl,
      show (1044476 + 1 + 4 + SECTOR_SIZE - 1) / SECTOR_SIZE = 256 from by
        norm_num [SECTOR_SIZE]]
    rfl

/-- C3 witness: the wrapped entry at the concrete compressed payload
`List.replicate 1044476 0`. -/
theorem C3_sector_count_truncated_witness :
    (List.replicate 1044476 (0 : Nat)).length = 1044476
    ∧ ((List.replicate 1044476 (0 : Nat)).length + 1 + 4 + SECTOR_SIZE - 1)
        / SECTOR_SIZE = 256
    ∧ (write_all_chunks (fun _ => List.replicate 1044476 0)
        [(0, 0, [], .End)]).locations.getD 0 ⟨0, 0⟩ = ⟨2, 0⟩ := by
  have hcl : (List.replicate 1044476 (0 : Nat)).length = 1044476 := by
    rw [List.length_replicate]
  have h := C3_sector_count_truncated.2 (List.replicate 1044476 0) hcl
  exact ⟨hcl, h.1, h.2⟩

/-- C4: the claim fails on the code.  In an 8192-byte region file whose
slot-0 entry stores sector offset 2, the chunk record starts at byte 8192,
one past the end: `Region::open` accepts the file, and `get_chunk_data`
indexes `self.mmap[8192]` without any bounds check, which panics instead
of returning an error — for every decompressor pair. -/
theorem C4_out_of_bounds_panic (dG dZ : List Nat → Except Unit (List Nat)) :
    Region.openFile c4file
      = .ok ⟨c4file, (List.range 1024).map (readLoc c4file)⟩
    ∧ get_chunk_data ⟨c4file, (List.range 1024).map (readLoc c4file)⟩ dG dZ 0 0
      = .panics := by
  have hc4len : c4file.length = 8192 := by
    unfold c4file
    rw [List.length_append, List.length_replicate]
    rfl
  have hloc : ((List.range 1024).map (readLoc c4file)).getD (slotIndexR 0 0)
      ⟨0, 0⟩ = ⟨2, 1⟩ := by
    rw [show slotIndexR 0 0 = 0 from by decide, List.getD_eq_getElem?_getD,
      List.getElem?_map, List.getElem?_range (by norm_num : (0 : Nat) < 1024),
      Option.map_some', Option.getD_some]
    rfl
  constructor
  · simp only [Region.openFile]
    rw [if_neg (by rw [hc4len]; norm_num [SECTOR_SIZE])]
  · refine get_chunk_data_mk_panics_of_head_none c4file
      ((List.range 1024).map (readLoc c4file)) dG dZ 0 0 ?_ ?_
    · rw [hloc]
      decide
    · rw [hloc]
      apply List.getElem?_eq_none
      rw [hc4len]
      show 8192 ≤ 2 * SECTOR_SIZE
      norm_num [SECTOR_SIZE]

/-- C8: offset `0` in a slot's location entry makes `get_chunk_data` and
`get_chunk_nbt` return the distinct success value `absent` (`Ok(None)`),
never an error (first conjunct); a zero length field likewise (second
conjunct, the four length bytes read as zero); and a slot that no chunk
passed to `write_all_chunks` maps to reads back `absent` after reopening
the written byte image (third conjunct). -/
theorem C8_absent_is_none :
    (∀ (r : Region) (dG dZ : List Nat → Except Unit (List Nat)) (x z : Int),
      (r.locations.getD (slotIndexR x z) ⟨0, 0⟩).offset = 0 →
      get_chunk_data r dG dZ x z = .absent ∧ get_chunk_nbt r dG dZ x z = .absent)
    ∧ (∀ (r : Region) (dG dZ : List Nat → Except Unit (List Nat)) (x z : Int),
      r.mmap[(r.locations.getD (slotIndexR x z) ⟨0, 0⟩).offset * SECTOR_SIZE]?
          = some 0 →
      r.mmap[(r.locations.getD (slotIndexR x z) ⟨0, 0⟩).offset * SECTOR_SIZE + 1]?
          = some 0 →
      r.mmap[(r.locations.getD (slotIndexR x z) ⟨0, 0⟩).offset * SECTOR_SIZE + 2]?
          = some 0 →
      r.mmap[(r.locations.getD (slotIndexR x z) ⟨0, 0⟩).offset * SECTOR_SIZE + 3]?
          = some 0 →
      get_chunk_data r dG dZ x z = .absent ∧ get_chunk_nbt r dG dZ x z = .absent)
    ∧ (∀ (compress : List Nat → List Nat)
        (chunks : List (Int × Int × List Nat × NbtTag))
        (dG dZ : List Nat → Except Unit (List Nat)) (x z : Int) (reg : Region),
      (∀ ch ∈ chunks, slotIndexW ch.1 ch.2.1 ≠ slotIndexR x z) →
      Region.openFile (write_all_chunks_bytes compress chunks) = .ok reg →
      get_chunk_data reg dG dZ x z = .absent
        ∧ get_chunk_nbt reg dG dZ x z = .absent) := by
  refine ⟨?_, ?_, ?_⟩
  · intro r dG dZ x z h
    have hd := get_chunk_data_absent_of_offset_zero r dG dZ x z h
    exact ⟨hd, get_chunk_nbt_absent_of r dG dZ x z hd⟩
  · intro r dG dZ x z ha hb hc hd
    have h := get_chunk_data_absent_of_zeros r dG dZ x z ha hb hc hd
    exact ⟨h, get_chunk_nbt_absent_of r dG dZ x z h⟩
  · intro compress chunks dG dZ x z reg hun hopen
    simp only [Region.openFile] at hopen
    split at hopen
    · exact absurd hopen (by simp)
    · cases hopen
      have hs := slotIndexR_lt x z
      have hlen1024 : (write_all_chunks compress chunks).locations.length = 1024 := by
        rw [write_all_chunks, write_locations_length]
        exact List.length_replicate 1024 _
      have hent : (write_all_chunks compress chunks).locations.getD
          (slotIndexR x z) ⟨0, 0⟩ = ⟨0, 0⟩ := by
        rw [write_all_chunks, write_locations_untouched compress _ chunks _ hun]
        rw [List.getD_eq_getElem?_getD, List.getElem?_replicate_of_lt hs,
          Option.getD_some]
      have hread : readLoc (write_all_chunks_bytes compress chunks)
          (slotIndexR x z) = ⟨0, 0⟩ := by
        rw [show write_all_chunks_bytes compress chunks
            = locTableBytes (write_all_chunks compress chunks).locations
              ++ (List.replicate 4096 0
                ++ (write_all_chunks compress chunks).body) from by
          rw [write_all_chunks_bytes, List.append_assoc]]
        rw [readLoc_table _ _ _ (by rw [hlen1024]; exact hs), hent]
        rfl
      have h0 : (((List.range 1024).map
            (readLoc (write_all_chunks_bytes compress chunks))).getD
          (slotIndexR x z) ⟨0, 0⟩).offset = 0 := by
        rw [List.getD_eq_getElem?_getD, List.getElem?_map,
          List.getElem?_range hs, Option.map_some', Option.getD_some, hread]
      have hd := get_chunk_data_mk_absent_of_offset_zero
        (write_all_chunks_bytes compress chunks)
        ((List.range 1024).map (readLoc (write_all_chunks_bytes compress chunks)))
        dG dZ x z h0
      exact ⟨hd, get_chunk_nbt_absent_of
        ⟨write_all_chunks_bytes compress chunks,
         (List.range 1024).map (readLoc (write_all_chunks_bytes compress chunks))⟩
        dG dZ x z hd⟩

/-- C8 witness: opening the image written for an empty chunk list and
reading slot `(0, 0)` yields `absent` from both accessors. -/
theorem C8_absent_is_none_witness :
    Region.openFile (write_all_chunks_bytes (fun l => l) []) = .ok regEmpty
    ∧ get_chunk_data regEmpty (fun _ => .error ()) (fun _ => .error ()) 0 0
      = .absent
    ∧ get_chunk_nbt regEmpty (fun _ => .error ()) (fun _ => .error ()) 0 0
      = .absent := by
  have e1 : (write_all_chunks (fun l => l) []).locations
      = List.replicate 1024 ⟨0, 0⟩ := rfl
  have e2 : (write_all_chunks (fun l => l) []).body = [] := rfl
  have hlen : (write_all_chunks_bytes (fun l => l) []).length = 8192 := by
    rw [write_all_chunks_bytes, e1, e2, List.length_append, List.length_append,
      locTableBytes_length, List.length_replicate, List.length_replicate,
      List.length_nil]
  have hopen : Region.openFile (write_all_chunks_bytes (fun l => l) [])
      = .ok regEmpty := by
    simp only [Region.openFile]
    rw [if_neg (by rw [hlen]; norm_num [SECTOR_SIZE])]
    rfl
  have h := C8_absent_is_none.2.2 (fun l => l) [] (fun _ => .error ())
    (fun _ => .error ()) 0 0 regEmpty (by simp) hopen
  exact ⟨hopen, h.1, h.2⟩

/-! ## Theorems: decoding truncated text (for the string length prefix) -/

/-- Pushing a non-scalar value fails the decode loop. -/
theorem decodePush_error {v : Nat} (h : pushChar v = .error ())
    (go : List Nat → Option (Except Unit (List Nat))) (r : List Nat) :
    decodePush go v r = some (.error ()) := by
  unfold decodePush
  rw [h]

/-- Decoding a strict, nonempty prefix of the MUTF-8 bytes of a single
scalar value fails: every multi-byte group is self-delimiting, and a cut
inside the trailing surrogate of a pair leaves an unpaired (non-scalar)
high surrogate. -/
theorem decodeLoopF_encodeChar_partial {c : Nat} (hc : isScalar c = true)
    {k : Nat} (h1 : 0 < k) (h2 : k < (encodeChar c).length)
    {f : Nat} (hf : 0 < f) :
    decodeLoopF f ((encodeChar c).take k) = some (.error ()) := by
  obtain ⟨f, rfl⟩ : ∃ g, f = g + 1 := ⟨f - 1, by omega⟩
  have hc' : c < 0xD800 ∨ (0xE000 ≤ c ∧ c < 0x110000) := by
    simpa [isScalar] using hc
  by_cases h0 : c = 0
  · subst h0
    have he : encodeChar 0 = [0xC0, 0x80] := rfl
    rw [he] at h2 ⊢
    have hk : k = 1 := by simp at h2; omega
    subst hk
    rfl
  by_cases hlt80 : c < 0x80
  · have he : encodeChar c = [c] := by
      simp [encodeChar, utf16Units, encodeUnits, encodeUnit, h0, hlt80,
        (by omega : c < 0x10000)]
    rw [he] at h2
    simp at h2
    omega
  by_cases hlt800 : c < 0x800
  · have he : encodeChar c = [0xC0 + c / 64, 0x80 + c % 64] := by
      simp [encodeChar, utf16Units, encodeUnits, encodeUnit, h0, hlt80, hlt800,
        (by omega : c < 0x10000)]
    rw [he] at h2 ⊢
    have hk : k = 1 := by simp at h2; omega
    subst hk
    rw [show ([0xC0 + c / 64, 0x80 + c % 64] : List Nat).take 1
        = [0xC0 + c / 64] from rfl]
    have hb1 : ¬ (0xC0 + c / 64 < 0x80) := by omega
    have hb2 : (0xC0 + c / 64) / 32 = 6 := by omega
    simp only [decodeLoopF, decodeStep, if_neg hb1, if_pos hb2, decodeTwoStep]
  by_cases hlt64k : c < 0x10000
  · have he : encodeChar c = [0xE0 + c / 4096, 0x80 + c / 64 % 64, 0x80 + c % 64] := by
      simp only [encodeChar, utf16Units, if_pos hlt64k, encodeUnits, List.append_nil,
        encodeUnit]
      rw [if_neg h0, if_neg hlt80, if_neg hlt800]
    rw [he] at h2 ⊢
    have hb1 : ¬ (0xE0 + c / 4096 < 0x80) := by omega
    have hb2 : ¬ ((0xE0 + c / 4096) / 32 = 6) := by omega
    have hb3 : (0xE0 + c / 4096) / 16 = 14 := by omega
    have hk : k = 1 ∨ k = 2 := by simp at h2; omega
    rcases hk with rfl | rfl
    · rw [show ([0xE0 + c / 4096, 0x80 + c / 64 % 64, 0x80 + c % 64] : List Nat).take 1
          = [0xE0 + c / 4096] from rfl]
      simp only [decodeLoopF, decodeStep, if_neg hb1, if_neg hb2, if_pos hb3]
      rfl
    · rw [show ([0xE0 + c / 4096, 0x80 + c / 64 % 64, 0x80 + c % 64] : List Nat).take 2
          = [0xE0 + c / 4096, 0x80 + c / 64 % 64] from rfl]
      simp only [decodeLoopF, decodeStep, if_neg hb1, if_neg hb2, if_pos hb3]
      rfl
  · have hcr : 0x10000 ≤ c ∧ c < 0x110000 := by omega
    set hi := 0xD800 + (c - 0x10000) / 0x400 with hhi
    set lo := 0xDC00 + (c - 0x10000) % 0x400 with hlo
    have hhir : 0xD800 ≤ hi ∧ hi ≤ 0xDBFF := by omega
    have hlor : 0xDC00 ≤ lo ∧ lo ≤ 0xDFFF := by omega
    have he : encodeChar c =
        [0xE0 + hi / 4096, 0x80 + hi / 64 % 64, 0x80 + hi % 64,
         0xE0 + lo / 4096, 0x80 + lo / 64 % 64, 0x80 + lo % 64] := by
      simp only [encodeChar, utf16Units, if_neg (by omega : ¬ c < 0x10000),
        encodeUnits, List.append_nil, encodeUnit, ← hhi, ← hlo]
      rw [if_neg (by omega), if_neg (by omega), if_neg (by omega),
        if_neg (by omega), if_neg (by omega), if_neg (by omega)]
      rfl
    rw [he] at h2 ⊢
    have hb1 : ¬ (0xE0 + hi / 4096 < 0x80) := by omega
    have hb2 : ¬ ((0xE0 + hi / 4096) / 32 = 6) := by omega
    have hb3 : (0xE0 + hi / 4096) / 16 = 14 := by omega
    have hb4 : ¬ ((0x80 + hi / 64 % 64) / 64 ≠ 2 ∨ (0x80 + hi % 64) / 64 ≠ 2) := by
      omega
    have hv : (0xE0 + hi / 4096) % 16 * 4096 + (0x80 + hi / 64 % 64) % 64 * 64
        + (0x80 + hi % 64) % 64 = hi := by omega
    have hpe : pushChar hi = .error () := by
      unfold pushChar
      rw [if_neg (by simp only [isScalar, Bool.or_eq_true, Bool.and_eq_true,
        decide_eq_true_eq]; omega)]
    have hk : k = 1 ∨ k = 2 ∨ k = 3 ∨ k = 4 ∨ k = 5 := by simp at h2; omega
    rcases hk with rfl | rfl | rfl | rfl | rfl
    · rw [show ([0xE0 + hi / 4096, 0x80 + hi / 64 % 64, 0x80 + hi % 64,
          0xE0 + lo / 4096, 0x80 + lo / 64 % 64, 0x80 + lo % 64] : List Nat).take 1
          = [0xE0 + hi / 4096] from rfl]
      simp only [decodeLoopF, decodeStep, if_neg hb1, if_neg hb2, if_pos hb3]
      rfl
    · rw [show ([0xE0 + hi / 4096, 0x80 + hi / 64 % 64, 0x80 + hi % 64,
          0xE0 + lo / 4096, 0x80 + lo / 64 % 64, 0x80 + lo % 64] : List Nat).take 2
          = [0xE0 + hi / 4096, 0x80 + hi / 64 % 64] from rfl]
      simp only [decodeLoopF, decodeStep, if_neg hb1, if_neg hb2, if_pos hb3]
      rfl
    · rw [show ([0xE0 + hi / 4096, 0x80 + hi / 64 % 64, 0x80 + hi % 64,
          0xE0 + lo / 4096, 0x80 + lo / 64 % 64, 0x80 + lo % 64] : List Nat).take 3
          = [0xE0 + hi / 4096, 0x80 + hi / 64 % 64, 0x80 + hi % 64] from rfl]
      simp only [decodeLoopF, decodeStep, if_neg hb1, if_neg hb2, if_pos hb3,
        decodeThreeStep, if_neg hb4, hv]
      rw [show decodeAfterThreeStep (decodeLoopF f) hi []
          = decodePush (decodeLoopF f) hi [] from rfl]
      exact decodePush_error hpe _ _
    · rw [show ([0xE0 + hi / 4096, 0x80 + hi / 64 % 64, 0x80 + hi % 64,
          0xE0 + lo / 4096, 0x80 + lo / 64 % 64, 0x80 + lo % 64] : List Nat).take 4
          = [0xE0 + hi / 4096, 0x80 + hi / 64 % 64, 0x80 + hi % 64,
             0xE0 + lo / 4096] from rfl]
      simp only [decodeLoopF, decodeStep, if_neg hb1, if_neg hb2, if_pos hb3,
        decodeThreeStep, if_neg hb4, hv]
      rw [show decodeAfterThreeStep (decodeLoopF f) hi [0xE0 + lo / 4096]
          = decodePush (decodeLoopF f) hi [0xE0 + lo / 4096] from rfl]
      exact decodePush_error hpe _ _
    · rw [show ([0xE0 + hi / 4096, 0x80 + hi / 64 % 64, 0x80 + hi % 64,
          0xE0 + lo / 4096, 0x80 + lo / 64 % 64, 0x80 + lo % 64] : List Nat).take 5
          = [0xE0 + hi / 4096, 0x80 + hi / 64 % 64, 0x80 + hi % 64,
             0xE0 + lo / 4096, 0x80 + lo / 64 % 64] from rfl]
      simp only [decodeLoopF, decodeStep, if_neg hb1, if_neg hb2, if_pos hb3,
        decodeThreeStep, if_neg hb4, hv]
      rw [show decodeAfterThreeStep (decodeLoopF f) hi
            [0xE0 + lo / 4096, 0x80 + lo / 64 % 64]
          = decodePush (decodeLoopF f) hi [0xE0 + lo / 4096, 0x80 + lo / 64 % 64]
          from rfl]
      exact decodePush_error hpe _ _

/-- Decoding a strict prefix of the encoding of a valid string either fails
or yields strictly fewer characters than the original string. -/
theorem decodeLoopF_encode_take (s : List Nat) (h : ∀ c ∈ s, isScalar c = true) :
    ∀ k f, k < (encode_mutf8 s).length → k < f →
      decodeLoopF f ((encode_mutf8 s).take k) = some (.error ())
      ∨ ∃ s', decodeLoopF f ((encode_mutf8 s).take k) = some (.ok s')
          ∧ s'.length < s.length := by
  induction s with
  | nil =>
    intro k f hk _
    rw [encode_mutf8_nil] at hk
    simp at hk
  | cons c cs ih =>
    intro k f hk hf
    have hc : isScalar c = true := h c (by simp)
    have hcs : ∀ x ∈ cs, isScalar x = true := fun x hx => h x (by simp [hx])
    rw [encode_mutf8_cons] at hk ⊢
    rcases Nat.lt_or_ge k (encodeChar c).length with hlt | hge
    · rw [List.take_append_of_le_length (Nat.le_of_lt hlt)]
      rcases Nat.eq_zero_or_pos k with h0 | hpos
      · subst h0
        right
        refine ⟨[], ?_, by simp⟩
        rw [List.take_zero]
        obtain ⟨g, rfl⟩ : ∃ g, f = g + 1 := ⟨f - 1, by omega⟩
        rfl
      · left
        exact decodeLoopF_encodeChar_partial hc hpos hlt (by omega)
    · obtain ⟨m, rfl⟩ : ∃ m, k = (encodeChar c).length + m :=
        ⟨k - (encodeChar c).length, by omega⟩
      rw [List.take_append]
      have hm : m < (encode_mutf8 cs).length := by
        rw [List.length_append] at hk
        omega
      obtain ⟨g, rfl⟩ : ∃ g, f = g + 1 := ⟨f - 1, by omega⟩
      rw [decodeLoopF, decodeStep_encodeChar hc]
      have hg : m < g := by
        have := encodeChar_length_pos c
        omega
      rcases ih hcs m g hm hg with herr | ⟨s', hok, hlen⟩
      · rw [herr]
        left
        rfl
      · rw [hok]
        right
        exact ⟨c :: s', rfl, by simp only [List.length_cons]; omega⟩

/-- `decode_mutf8` on a strict prefix of the encoding of a valid string:
error, or strictly fewer characters. -/
theorem decode_mutf8_take (s : List Nat) (h : ∀ c ∈ s, isScalar c = true)
    (k : Nat) (hk : k < (encode_mutf8 s).length) :
    decode_mutf8 ((encode_mutf8 s).take k) = .error ()
    ∨ ∃ s', decode_mutf8 ((encode_mutf8 s).take k) = .ok s'
        ∧ s'.length < s.length := by
  have hklen : ((encode_mutf8 s).take k).length = k := by
    rw [List.length_take, Nat.min_eq_left (by omega)]
  rw [decode_mutf8_eq_loop, hklen]
  rcases decodeLoopF_encode_take s h k (k + 1) hk (by omega) with herr | ⟨s', hok, hl⟩
  · rw [herr]
    left
    rfl
  · rw [hok]
    right
    exact ⟨s', rfl, hl⟩

/-- The letter `A` encodes to itself, so `A^n` encodes to itself. -/
theorem encode_mutf8_replicate65 (n : Nat) :
    encode_mutf8 (List.replicate n 65) = List.replicate n 65 := by
  induction n with
  | zero => rfl
  | succ n ih =>
    rw [List.replicate_succ, encode_mutf8_cons, ih,
      show encodeChar 65 = [65] from rfl]
    rfl

/-- C9: `write_nbt_string` writes `u16be` of the encoded length — the
length reduced mod 2^16 — followed by all encoded bytes (first conjunct,
with the prefix read back by `readU16`); when the encoding fits 65535
bytes the prefix is exact (second conjunct); for a longer string the whole
(longer) byte sequence is still written but the wrapped prefix makes
`parse_nbt_string` take a strict prefix of the encoding, so its output can
never be the original string (third conjunct). -/
theorem C9_string_length_prefix :
    (∀ s : List Nat,
      write_nbt_string s = u16be (encode_mutf8 s).length ++ encode_mutf8 s
      ∧ readU16 (write_nbt_string s)
          = .ok ((encode_mutf8 s).length % 65536, encode_mutf8 s))
    ∧ (∀ s : List Nat, (encode_mutf8 s).length ≤ 65535 →
      readU16 (write_nbt_string s) = .ok ((encode_mutf8 s).length, encode_mutf8 s))
    ∧ (∀ s : List Nat, (∀ c ∈ s, isScalar c = true) →
      65535 < (encode_mutf8 s).length →
      ∀ s' r' : List Nat,
        parse_nbt_string (write_nbt_string s) = .ok (s', r') → s' ≠ s) := by
  refine ⟨fun s => ⟨rfl, ?_⟩, fun s hle => ?_, fun s hs hlen s' r' hparse => ?_⟩
  · rw [write_nbt_string, readU16_u16be]
  · rw [write_nbt_string, readU16_u16be, Nat.mod_eq_of_lt (by omega)]
  · simp only [parse_nbt_string, write_nbt_string] at hparse
    rw [readU16_u16be] at hparse
    dsimp only at hparse
    have hL : (encode_mutf8 s).length % 65536 < (encode_mutf8 s).length := by
      omega
    have hrb : readBytes ((encode_mutf8 s).length % 65536) (encode_mutf8 s)
        = .ok ((encode_mutf8 s).take ((encode_mutf8 s).length % 65536),
               (encode_mutf8 s).drop ((encode_mutf8 s).length % 65536)) := by
      unfold readBytes
      rw [if_neg (by omega)]
    rw [hrb] at hparse
    dsimp only at hparse
    rcases decode_mutf8_take s hs ((encode_mutf8 s).length % 65536) hL with
      herr | ⟨s'', hok, hl⟩
    · rw [herr] at hparse
      exact absurd hparse (by simp)
    · rw [hok] at hparse
      simp only [Except.ok.injEq, Prod.mk.injEq] at hparse
      obtain ⟨h2, _⟩ := hparse
      subst h2
      intro heq
      rw [heq] at hl
      omega

/-- A string whose encoded length is a multiple of 2^16 is written with
length prefix 0 and parses back as the empty string. -/
theorem parse_nbt_string_write_wrap {s : List Nat}
    (h : (encode_mutf8 s).length % 65536 = 0) :
    parse_nbt_string (write_nbt_string s) = .ok ([], encode_mutf8 s) := by
  simp only [parse_nbt_string, write_nbt_string]
  rw [readU16_u16be, h]
  dsimp only
  rw [show readBytes 0 (encode_mutf8 s) = .ok ([], encode_mutf8 s) from by
    unfold readBytes
    rw [if_neg (by omega), List.take_zero, List.drop_zero]]
  dsimp only
  rw [show decode_mutf8 [] = .ok [] from rfl]

/-- C9 witness: the 65536-character string `A^65536` has prefix
`65536 % 65536 = 0`, parses back as the empty string, and the empty string
is not the original. -/
theorem C9_string_length_prefix_witness :
    65535 < (encode_mutf8 (List.replicate 65536 65)).length
    ∧ parse_nbt_string (write_nbt_string (List.replicate 65536 65))
        = .ok ([], List.replicate 65536 65)
    ∧ ([] : List Nat) ≠ List.replicate 65536 65 := by
  have hlen : (encode_mutf8 (List.replicate 65536 65)).length = 65536 := by
    rw [encode_mutf8_replicate65, List.length_replicate]
  have hparse : parse_nbt_string (write_nbt_string (List.replicate 65536 65))
      = .ok ([], List.replicate 65536 65) := by
    have h := @parse_nbt_string_write_wrap (List.replicate 65536 65)
      (by rw [hlen])
    rw [encode_mutf8_replicate65] at h
    exact h
  refine ⟨by rw [hlen]; norm_num, hparse, ?_⟩
  exact C9_string_length_prefix.2.2 (List.replicate 65536 65)
    (fun c hc => by rw [List.eq_of_mem_replicate hc]; rfl)
    (by rw [hlen]; norm_num)
    [] (List.replicate 65536 65) hparse

/-! ## Theorems: truncation safety of the tag parser -/

theorem readU16_short {l : List Nat} (h : l.length < 2) :
    readU16 l = .error .UnexpectedEof := by
  match l, h with
  | [], _ => rfl
  | [b], _ => rfl
  | b :: c :: rest, h => exact absurd h (by simp only [List.length_cons]; omega)

theorem readU32_short {l : List Nat} (h : l.length < 4) :
    readU32 l = .error .UnexpectedEof := by
  match l, h with
  | [], _ => rfl
  | [a], _ => rfl
  | [a, b], _ => rfl
  | [a, b, c], _ => rfl
  | a :: b :: c :: d :: rest, h =>
    exact absurd h (by simp only [List.length_cons]; omega)

theorem readU64_short {l : List Nat} (h : l.length < 8) :
    readU64 l = .error .UnexpectedEof := by
  match l, h with
  | [], _ => rfl
  | [a], _ => rfl
  | [a, b], _ => rfl
  | [a, b, c], _ => rfl
  | [a, b, c, d], _ => rfl
  | [a, b, c, d, e], _ => rfl
  | [a, b, c, d, e, g], _ => rfl
  | [a, b, c, d, e, g, i], _ => rfl
  | a :: b :: c :: d :: e :: g :: i :: j :: rest, h =>
    exact absurd h (by simp only [List.length_cons]; omega)

theorem readBytes_short {n : Nat} {l : List Nat} (h : l.length < n) :
    readBytes n l = .error .UnexpectedEof := by
  unfold readBytes
  rw [if_pos h]

/-- The fueled payload parser is fuel-independent at sufficient fuel. -/
theorem parsePayloadF_det {f t : Nat} {l : List Nat} {res : PRes NbtTag}
    (h : parsePayloadF f t l = some res) {f2 : Nat} (hf2 : l.length + 1 ≤ f2) :
    parsePayloadF f2 t l = some res := by
  have hsuff := parsePayloadF_suff f2 t l hf2
  cases hc : parsePayloadF f2 t l with
  | none => rw [hc] at hsuff; simp at hsuff
  | some res2 =>
    have h1 := parsePayloadF_mono f (max f f2) t l res (by omega) h
    have h2 := parsePayloadF_mono f2 (max f f2) t l res2 (by omega) hc
    rw [h1] at h2
    simp only [Option.some.injEq] at h2
    rw [h2]

/-- A successful string parse is insensitive to the bytes after it. -/
theorem parse_nbt_string_ext {u r s : List Nat}
    (h : parse_nbt_string (u ++ r) = .ok (s, r)) (r' : List Nat) :
    parse_nbt_string (u ++ r') = .ok (s, r') := by
  obtain ⟨b1, b2, bs, hl, hlen, hdec⟩ := parse_nbt_string_shape h
  have hu : u = b1 :: b2 :: bs := by
    have h2 : u ++ r = (b1 :: b2 :: bs) ++ r := by simpa using hl
    exact List.append_cancel_right h2
  subst hu
  unfold parse_nbt_string
  rw [show (b1 :: b2 :: bs) ++ r' = b1 :: (b2 :: (bs ++ r')) from rfl]
  rw [show readU16 (b1 :: (b2 :: (bs ++ r'))) = .ok (b1 * 256 + b2, bs ++ r')
    from rfl]
  dsimp only
  rw [readBytes_exact hlen]
  dsimp only
  rw [hdec]

/-- Truncating a successfully parsed string inside its consumed bytes
yields `UnexpectedEof`. -/
theorem parse_nbt_string_trunc {u r s : List Nat}
    (h : parse_nbt_string (u ++ r) = .ok (s, r)) :
    ∀ m, m < u.length → parse_nbt_string (u.take m) = .error .UnexpectedEof := by
  obtain ⟨b1, b2, bs, hl, hlen, hdec⟩ := parse_nbt_string_shape h
  have hu : u = b1 :: b2 :: bs := by
    have h2 : u ++ r = (b1 :: b2 :: bs) ++ r := by simpa using hl
    exact List.append_cancel_right h2
  subst hu
  intro m hm
  match m with
  | 0 => rfl
  | 1 => rfl
  | m + 2 =>
    rw [show (b1 :: b2 :: bs).take (m + 2) = b1 :: (b2 :: bs.take m) from rfl]
    unfold parse_nbt_string
    rw [show readU16 (b1 :: (b2 :: bs.take m)) = .ok (b1 * 256 + b2, bs.take m)
      from rfl]
    dsimp only
    have hmlt : m < bs.length := by
      simp only [List.length_cons] at hm
      omega
    rw [readBytes_short (by rw [List.length_take, Nat.min_eq_left (by omega)]; omega)]

/-- The element loop is insensitive to the bytes after the elements it
consumes, given the element parser is. -/
theorem parseListStep_ext {pay pay2 : List Nat → Option (PRes NbtTag)}
    (hshape : ∀ l a r, pay l = some (.ok (a, r)) → ∃ u, l = u ++ r)
    (hext : ∀ u r a, pay (u ++ r) = some (.ok (a, r)) →
        ∀ w, pay2 (u ++ w) = some (.ok (a, w))) :
    ∀ c u r ts, parseListStep pay c (u ++ r) = some (.ok (ts, r)) →
      ∀ w, parseListStep pay2 c (u ++ w) = some (.ok (ts, w)) := by
  intro c
  induction c with
  | zero =>
    intro u r ts h w
    simp only [parseListStep, Option.some.injEq, Except.ok.injEq, Prod.mk.injEq] at h
    obtain ⟨hts, hur⟩ := h
    have hu : u = [] := by
      have h2 : u ++ r = [] ++ r := by simpa using hur
      exact List.append_cancel_right h2
    subst hu
    simp [parseListStep, ← hts]
  | succ c ih =>
    intro u r ts h w
    simp only [parseListStep] at h
    cases hp : pay (u ++ r) with
    | none => rw [hp] at h; simp at h
    | some res =>
      rw [hp] at h
      match res with
      | .error e => simp at h
      | .ok (t1, r1) =>
        dsimp only at h
        cases hq : parseListStep pay c r1 with
        | none => rw [hq] at h; simp at h
        | some res2 =>
          rw [hq] at h
          match res2 with
          | .error e => simp at h
          | .ok (ts2, r2) =>
            simp only [Option.some.injEq, Except.ok.injEq, Prod.mk.injEq] at h
            obtain ⟨hts, hr2⟩ := h
            rw [hr2] at hq
            obtain ⟨u1, hu1⟩ := hshape (u ++ r) t1 r1 hp
            obtain ⟨u2, hu2⟩ := parseListStep_shape hshape c r1 ts2 r hq
            have hu : u = u1 ++ u2 := by
              have h2 : u ++ r = (u1 ++ u2) ++ r := by
                rw [hu1, hu2, List.append_assoc]
              exact List.append_cancel_right h2
            rw [hu2] at hp hu1
            rw [hu1] at hp
            have he1 := hext u1 (u2 ++ r) t1 hp (u2 ++ w)
            rw [hu2] at hq
            have he2 := ih u2 r ts2 hq w
            subst hu hts
            simp only [parseListStep]
            rw [List.append_assoc, he1]
            dsimp only
            rw [he2]

/-- The compound loop is insensitive to the bytes after what it consumes,
at any iteration fuel exceeding the consumed length. -/
theorem parseCompoundF_ext {pay pay2 : Nat → List Nat → Option (PRes NbtTag)}
    (hshape : ∀ tt l a r, pay tt l = some (.ok (a, r)) → ∃ u, l = u ++ r)
    (hext : ∀ tt u r a, pay tt (u ++ r) = some (.ok (a, r)) →
        ∀ w, pay2 tt (u ++ w) = some (.ok (a, w))) :
    ∀ cf acc u r es, parseCompoundF pay cf acc (u ++ r) = some (.ok (es, r)) →
      ∀ w cf', u.length < cf' →
        parseCompoundF pay2 cf' acc (u ++ w) = some (.ok (es, w)) := by
  intro cf
  induction cf with
  | zero => intro acc u r es h; simp [parseCompoundF] at h
  | succ cf ih =>
    intro acc u r es h w cf' hcf'
    obtain ⟨cf', rfl⟩ : ∃ g, cf' = g + 1 := ⟨cf' - 1, by omega⟩
    simp only [parseCompoundF] at h
    cases hu8 : readU8 (u ++ r) with
    | error e => rw [hu8] at h; simp at h
    | ok p =>
      obtain ⟨tt, r1⟩ := p
      rw [hu8] at h
      dsimp only at h
      by_cases htt : tt = 0
      · rw [if_pos htt] at h
        simp only [Option.some.injEq, Except.ok.injEq, Prod.mk.injEq] at h
        obtain ⟨hacc, hr1⟩ := h
        have hu : u = [tt] := by
          have h2 : u ++ r = [tt] ++ r := by
            have := readU8_shape hu8
            rw [hr1] at this
            simpa using this
          exact List.append_cancel_right h2
        subst hu
        simp only [parseCompoundF]
        rw [show readU8 ([tt] ++ w) = .ok (tt, w) from rfl]
        dsimp only
        rw [if_pos htt, hacc]
      · rw [if_neg htt] at h
        cases hs : parse_nbt_string r1 with
        | error e => rw [hs] at h; simp at h
        | ok p2 =>
          obtain ⟨name, r2⟩ := p2
          rw [hs] at h
          dsimp only at h
          cases hp : pay tt r2 with
          | none => rw [hp] at h; simp at h
          | some res =>
            rw [hp] at h
            match res with
            | .error e => simp at h
            | .ok (t1, r3) =>
              dsimp only at h
              obtain ⟨u2, hu2⟩ : ∃ u2, r1 = u2 ++ r2 := by
                obtain ⟨b1, b2, bs, he, -, -⟩ := parse_nbt_string_shape hs
                exact ⟨b1 :: b2 :: bs, by simpa using he⟩
              obtain ⟨u3, hu3⟩ := hshape tt r2 t1 r3 hp
              obtain ⟨u4, hu4⟩ := parseCompoundF_shape hshape cf _ r3 es r h
              have hu : u = tt :: (u2 ++ (u3 ++ u4)) := by
                have h2 : u ++ r = (tt :: (u2 ++ (u3 ++ u4))) ++ r := by
                  rw [readU8_shape hu8, hu2, hu3, hu4]
                  simp
                exact List.append_cancel_right h2
              subst hu
              simp only [List.length_cons, List.length_append] at hcf'
              simp only [parseCompoundF]
              rw [show (tt :: (u2 ++ (u3 ++ u4))) ++ w
                  = tt :: (u2 ++ (u3 ++ (u4 ++ w))) from by simp]
              rw [show readU8 (tt :: (u2 ++ (u3 ++ (u4 ++ w))))
                  = .ok (tt, u2 ++ (u3 ++ (u4 ++ w))) from rfl]
              dsimp only
              rw [if_neg htt]
              rw [hu2] at hs
              rw [parse_nbt_string_ext hs (u3 ++ (u4 ++ w))]
              dsimp only
              rw [hu3] at hp
              rw [hext tt u3 r3 t1 hp (u4 ++ w)]
              dsimp only
              rw [hu4] at h
              exact ih (indexInsert acc name t1) u4 r es h w cf' (by omega)

/-- A successful payload parse is insensitive to the bytes after what it
consumes, at the same nesting fuel. -/
theorem parsePayloadF_ext :
    ∀ f t u r a, parsePayloadF f t (u ++ r) = some (.ok (a, r)) →
      ∀ w, parsePayloadF f t (u ++ w) = some (.ok (a, w)) := by
  intro f
  induction f with
  | zero => intro t u r a h w; simp [parsePayloadF] at h
  | succ f ih =>
    intro t u r a h w
    match t with
    | 0 =>
      simp only [parsePayloadF, Option.some.injEq, Except.ok.injEq, Prod.mk.injEq] at h
      obtain ⟨ha, hur⟩ := h
      have hu : u = [] := by
        have h2 : u ++ r = [] ++ r := by simpa using hur
        exact List.append_cancel_right h2
      subst hu
      simp [parsePayloadF, ← ha]
    | 1 =>
      simp only [parsePayloadF] at h
      cases hr8 : readU8 (u ++ r) with
      | error e => rw [hr8] at h; simp at h
      | ok p =>
        obtain ⟨b, r1⟩ := p
        rw [hr8] at h
        simp only [Option.some.injEq, Except.ok.injEq, Prod.mk.injEq] at h
        obtain ⟨ha, hr1⟩ := h
        rw [hr1] at hr8
        have hu : u = [b] := by
          have h2 : u ++ r = [b] ++ r := by simpa using readU8_shape hr8
          exact List.append_cancel_right h2
        subst hu
        simp [parsePayloadF, readU8, ← ha]
    | 2 =>
      simp only [parsePayloadF] at h
      cases hr16 : readU16 (u ++ r) with
      | error e => rw [hr16] at h; simp at h
      | ok p =>
        obtain ⟨v, r1⟩ := p
        rw [hr16] at h
        simp only [Option.some.injEq, Except.ok.injEq, Prod.mk.injEq] at h
        obtain ⟨ha, hr1⟩ := h
        rw [hr1] at hr16
        obtain ⟨b1, b2, he, hv⟩ := readU16_shape hr16
        have hu : u = [b1, b2] := by
          have h2 : u ++ r = [b1, b2] ++ r := by simpa using he
          exact List.append_cancel_right h2
        subst hu
        simp [parsePayloadF, readU16, ← ha, hv]
    | 3 =>
      simp only [parsePayloadF] at h
      cases hr32 : readU32 (u ++ r) with
      | error e => rw [hr32] at h; simp at h
      | ok p =>
        obtain ⟨v, r1⟩ := p
        rw [hr32] at h
        simp only [Option.some.injEq, Except.ok.injEq, Prod.mk.injEq] at h
        obtain ⟨ha, hr1⟩ := h
        rw [hr1] at hr32
        obtain ⟨b1, b2, b3, b4, he, hv⟩ := readU32_shape hr32
        have hu : u = [b1, b2, b3, b4] := by
          have h2 : u ++ r = [b1, b2, b3, b4] ++ r := by simpa using he
          exact List.append_cancel_right h2
        subst hu
        simp [parsePayloadF, readU32, ← ha, hv]
    | 4 =>
      simp only [parsePayloadF] at h
      cases hr64 : readU64 (u ++ r) with
      | error e => rw [hr64] at h; simp at h
      | ok p =>
        obtain ⟨v, r1⟩ := p
        rw [hr64] at h
        simp only [Option.some.injEq, Except.ok.injEq, Prod.mk.injEq] at h
        obtain ⟨ha, hr1⟩ := h
        rw [hr1] at hr64
        obtain ⟨b1, b2, b3, b4, b5, b6, b7, b8, he, hv⟩ := readU64_shape hr64
        have hu : u = [b1, b2, b3, b4, b5, b6, b7, b8] := by
          have h2 : u ++ r = [b1, b2, b3, b4, b5, b6, b7, b8] ++ r := by
            simpa using he
          exact List.append_cancel_right h2
        subst hu
        simp [parsePayloadF, readU64, ← ha, hv]
    | 5 =>
      simp only [parsePayloadF] at h
      cases hr32 : readU32 (u ++ r) with
      | error e => rw [hr32] at h; simp at h
      | ok p =>
        obtain ⟨v, r1⟩ := p
        rw [hr32] at h
        simp only [Option.some.injEq, Except.ok.injEq, Prod.mk.injEq] at h
        obtain ⟨ha, hr1⟩ := h
        rw [hr1] at hr32
        obtain ⟨b1, b2, b3, b4, he, hv⟩ := readU32_shape hr32
        have hu : u = [b1, b2, b3, b4] := by
          have h2 : u ++ r = [b1, b2, b3, b4] ++ r := by simpa using he
          exact List.append_cancel_right h2
        subst hu
        simp [parsePayloadF, readU32, ← ha, hv]
    | 6 =>
      simp only [parsePayloadF] at h
      cases hr64 : readU64 (u ++ r) with
      | error e => rw [hr64] at h; simp at h
      | ok p =>
        obtain ⟨v, r1⟩ := p
        rw [hr64] at h
        simp only [Option.some.injEq, Except.ok.injEq, Prod.mk.injEq] at h
        obtain ⟨ha, hr1⟩ := h
        rw [hr1] at hr64
        obtain ⟨b1, b2, b3, b4, b5, b6, b7, b8, he, hv⟩ := readU64_shape hr64
        have hu : u = [b1, b2, b3, b4, b5, b6, b7, b8] := by
          have h2 : u ++ r = [b1, b2, b3, b4, b5, b6, b7, b8] ++ r := by
            simpa using he
          exact List.append_cancel_right h2
        subst hu
        simp [parsePayloadF, readU64, ← ha, hv]
    | 7 =>
      simp only [parsePayloadF] at h
      cases hr32 : readU32 (u ++ r) with
      | error e => rw [hr32] at h; simp at h
      | ok p =>
        obtain ⟨cnt, r1⟩ := p
        rw [hr32] at h
        dsimp only at h
        cases hb : readBytes (i32ToUsize cnt) r1 with
        | error e => rw [hb] at h; simp at h
        | ok p2 =>
          obtain ⟨bs, r2⟩ := p2
          rw [hb] at h
          simp only [Option.some.injEq, Except.ok.injEq, Prod.mk.injEq] at h
          obtain ⟨ha, hr2⟩ := h
          rw [hr2] at hb
          obtain ⟨b1, b2, b3, b4, he, hv⟩ := readU32_shape hr32
          obtain ⟨hb1, hblen⟩ := readBytes_shape hb
          have hu : u = b1 :: b2 :: b3 :: b4 :: bs := by
            have h2 : u ++ r = (b1 :: b2 :: b3 :: b4 :: bs) ++ r := by
              rw [he, hb1]; rfl
            exact List.append_cancel_right h2
          subst hu
          simp only [parsePayloadF]
          rw [show (b1 :: b2 :: b3 :: b4 :: bs) ++ w
              = b1 :: (b2 :: (b3 :: (b4 :: (bs ++ w)))) from rfl]
          rw [show readU32 (b1 :: (b2 :: (b3 :: (b4 :: (bs ++ w)))))
              = .ok (b1 * 16777216 + b2 * 65536 + b3 * 256 + b4, bs ++ w) from rfl]
          dsimp only
          rw [← hv, readBytes_exact hblen]
          dsimp only
          rw [← ha]
    | 8 =>
      simp only [parsePayloadF] at h
      cases hs : parse_nbt_string (u ++ r) with
      | error e => rw [hs] at h; simp at h
      | ok p =>
        obtain ⟨s, r1⟩ := p
        rw [hs] at h
        simp only [Option.some.injEq, Except.ok.injEq, Prod.mk.injEq] at h
        obtain ⟨ha, hr1⟩ := h
        rw [hr1] at hs
        obtain ⟨b1, b2, bs, he, -, -⟩ := parse_nbt_string_shape hs
        have hu : u = b1 :: b2 :: bs := by
          have h2 : u ++ r = (b1 :: b2 :: bs) ++ r := by simpa using he
          exact List.append_cancel_right h2
        subst hu
        simp only [parsePayloadF]
        rw [parse_nbt_string_ext hs w]
        dsimp only
        rw [← ha]
    | 9 =>
      simp only [parsePayloadF] at h
      cases hr8 : readU8 (u ++ r) with
      | error e => rw [hr8] at h; simp at h
      | ok p =>
        obtain ⟨et, r1⟩ := p
        rw [hr8] at h
        dsimp only at h
        cases h32 : readU32 r1 with
        | error e => rw [h32] at h; simp at h
        | ok p2 =>
          obtain ⟨cnt, r2⟩ := p2
          rw [h32] at h
          dsimp only at h
          cases hl : parseListStep (parsePayloadF f et) (i32ToUsize cnt) r2 with
          | none => rw [hl] at h; simp at h
          | some res =>
            rw [hl] at h
            match res with
            | .error e => simp at h
            | .ok (ts, r3) =>
              simp only [Option.some.injEq, Except.ok.injEq, Prod.mk.injEq] at h
              obtain ⟨ha, hr3⟩ := h
              rw [hr3] at hl
              obtain ⟨b1, b2, b3, b4, he32, hv⟩ := readU32_shape h32
              obtain ⟨u3, hu3⟩ := parseListStep_shape
                (fun l2 a2 r2 => parsePayloadF_shape f et l2 a2 r2)
                (i32ToUsize cnt) r2 ts r hl
              have hu : u = et :: b1 :: b2 :: b3 :: b4 :: u3 := by
                have h2 : u ++ r = (et :: b1 :: b2 :: b3 :: b4 :: u3) ++ r := by
                  rw [readU8_shape hr8, he32, hu3]; rfl
                exact List.append_cancel_right h2
              subst hu
              rw [hu3] at hl
              have hext := parseListStep_ext
                (fun l2 a2 r2 => parsePayloadF_shape f et l2 a2 r2)
                (fun u2 r2 a2 hp2 w2 => ih et u2 r2 a2 hp2 w2)
                (i32ToUsize cnt) u3 r ts hl w
              simp only [parsePayloadF]
              rw [show (et :: b1 :: b2 :: b3 :: b4 :: u3) ++ w
                  = et :: (b1 :: (b2 :: (b3 :: (b4 :: (u3 ++ w))))) from rfl]
              rw [show readU8 (et :: (b1 :: (b2 :: (b3 :: (b4 :: (u3 ++ w))))))
                  = .ok (et, b1 :: (b2 :: (b3 :: (b4 :: (u3 ++ w))))) from rfl]
              dsimp only
              rw [show readU32 (b1 :: (b2 :: (b3 :: (b4 :: (u3 ++ w)))))
                  = .ok (b1 * 16777216 + b2 * 65536 + b3 * 256 + b4, u3 ++ w)
                from rfl]
              dsimp only
              rw [← hv, hext]
              dsimp only
              rw [← ha]
    | 10 =>
      simp only [parsePayloadF] at h
      cases hc : parseCompoundF (parsePayloadF f) ((u ++ r).length + 1) [] (u ++ r) with
      | none => rw [hc] at h; simp at h
      | some res =>
        rw [hc] at h
        match res with
        | .error e => simp at h
        | .ok (es, r1) =>
          simp only [Option.some.injEq, Except.ok.injEq, Prod.mk.injEq] at h
          obtain ⟨ha, hr1⟩ := h
          rw [hr1] at hc
          obtain ⟨u1, hu1⟩ := parseCompoundF_shape
            (fun tt l2 a2 r2 => parsePayloadF_shape f tt l2 a2 r2)
            ((u ++ r).length + 1) [] (u ++ r) es r hc
          have hu : u = u1 := List.append_cancel_right hu1
          subst hu
          rw [hu1] at hc
          have hcext := parseCompoundF_ext
            (fun tt l2 a2 r2 => parsePayloadF_shape f tt l2 a2 r2)
            (fun tt u2 r2 a2 hp2 w2 => ih tt u2 r2 a2 hp2 w2)
            ((u ++ r).length + 1) [] u r es hc w ((u ++ w).length + 1)
            (by simp only [List.length_append]; omega)
          simp only [parsePayloadF]
          rw [hcext]
          dsimp only
          rw [← ha]
    | 11 =>
      simp only [parsePayloadF] at h
      cases hr32 : readU32 (u ++ r) with
      | error e => rw [hr32] at h; simp at h
      | ok p =>
        obtain ⟨cnt, r1⟩ := p
        rw [hr32] at h
        dsimp only at h
        cases hb : readBytes (i32ToUsize cnt * 4 % 18446744073709551616) r1 with
        | error e => rw [hb] at h; simp at h
        | ok p2 =>
          obtain ⟨bs, r2⟩ := p2
          rw [hb] at h
          simp only [Option.some.injEq, Except.ok.injEq, Prod.mk.injEq] at h
          obtain ⟨ha, hr2⟩ := h
          rw [hr2] at hb
          obtain ⟨b1, b2, b3, b4, he, hv⟩ := readU32_shape hr32
          obtain ⟨hb1, hblen⟩ := readBytes_shape hb
          have hu : u = b1 :: b2 :: b3 :: b4 :: bs := by
            have h2 : u ++ r = (b1 :: b2 :: b3 :: b4 :: bs) ++ r := by
              rw [he, hb1]; rfl
            exact List.append_cancel_right h2
          subst hu
          simp only [parsePayloadF]
          rw [show (b1 :: b2 :: b3 :: b4 :: bs) ++ w
              = b1 :: (b2 :: (b3 :: (b4 :: (bs ++ w)))) from rfl]
          rw [show readU32 (b1 :: (b2 :: (b3 :: (b4 :: (bs ++ w)))))
              = .ok (b1 * 16777216 + b2 * 65536 + b3 * 256 + b4, bs ++ w) from rfl]
          dsimp only
          rw [← hv, readBytes_exact hblen]
          dsimp only
          rw [← ha]
    | 12 =>
      simp only [parsePayloadF] at h
      cases hr32 : readU32 (u ++ r) with
      | error e => rw [hr32] at h; simp at h
      | ok p =>
        obtain ⟨cnt, r1⟩ := p
        rw [hr32] at h
        dsimp only at h
        cases hb : readBytes (i32ToUsize cnt * 8 % 18446744073709551616) r1 with
        | error e => rw [hb] at h; simp at h
        | ok p2 =>
          obtain ⟨bs, r2⟩ := p2
          rw [hb] at h
          simp only [Option.some.injEq, Except.ok.injEq, Prod.mk.injEq] at h
          obtain ⟨ha, hr2⟩ := h
          rw [hr2] at hb
          obtain ⟨b1, b2, b3, b4, he, hv⟩ := readU32_shape hr32
          obtain ⟨hb1, hblen⟩ := readBytes_shape hb
          have hu : u = b1 :: b2 :: b3 :: b4 :: bs := by
            have h2 : u ++ r = (b1 :: b2 :: b3 :: b4 :: bs) ++ r := by
              rw [he, hb1]; rfl
            exact List.append_cancel_right h2
          subst hu
          simp only [parsePayloadF]
          rw [show (b1 :: b2 :: b3 :: b4 :: bs) ++ w
              = b1 :: (b2 :: (b3 :: (b4 :: (bs ++ w)))) from rfl]
          rw [show readU32 (b1 :: (b2 :: (b3 :: (b4 :: (bs ++ w)))))
              = .ok (b1 * 16777216 + b2 * 65536 + b3 * 256 + b4, bs ++ w) from rfl]
          dsimp only
          rw [← hv, readBytes_exact hblen]
          dsimp only
          rw [← ha]
    | (n + 13) =>
      simp [parsePayloadF] at h

/-- Truncating the element region of a list payload inside its consumed
bytes yields `UnexpectedEof`, given the element parser errors likewise
(with `B` bounding the byte budget of the truncated parser `pay2`). -/
theorem parseListStep_trunc {pay pay2 : List Nat → Option (PRes NbtTag)} {B : Nat}
    (hshape : ∀ l a r, pay l = some (.ok (a, r)) → ∃ u, l = u ++ r)
    (hext : ∀ u r a, pay (u ++ r) = some (.ok (a, r)) →
        ∀ w, u.length + w.length < B → pay2 (u ++ w) = some (.ok (a, w)))
    (htr : ∀ u r a, pay (u ++ r) = some (.ok (a, r)) →
        ∀ m, m < u.length → u.length ≤ B →
          pay2 (u.take m) = some (.error .UnexpectedEof)) :
    ∀ c u r ts, parseListStep pay c (u ++ r) = some (.ok (ts, r)) →
      ∀ m, m < u.length → u.length ≤ B →
        parseListStep pay2 c (u.take m) = some (.error .UnexpectedEof) := by
  intro c
  induction c with
  | zero =>
    intro u r ts h m hm _
    simp only [parseListStep, Option.some.injEq, Except.ok.injEq, Prod.mk.injEq] at h
    have hu : u = [] := by
      have h2 : u ++ r = [] ++ r := by simpa using h.2
      exact List.append_cancel_right h2
    subst hu
    simp at hm
  | succ c ih =>
    intro u r ts h m hm hB
    simp only [parseListStep] at h
    cases hp : pay (u ++ r) with
    | none => rw [hp] at h; simp at h
    | some res =>
      rw [hp] at h
      match res with
      | .error e => simp at h
      | .ok (t1, r1) =>
        dsimp only at h
        cases hq : parseListStep pay c r1 with
        | none => rw [hq] at h; simp at h
        | some res2 =>
          rw [hq] at h
          match res2 with
          | .error e => simp at h
          | .ok (ts2, r2) =>
            simp only [Option.some.injEq, Except.ok.injEq, Prod.mk.injEq] at h
            obtain ⟨hts, hr2⟩ := h
            rw [hr2] at hq
            obtain ⟨u1, hu1⟩ := hshape (u ++ r) t1 r1 hp
            obtain ⟨u2, hu2⟩ := parseListStep_shape hshape c r1 ts2 r hq
            have hu : u = u1 ++ u2 := by
              have h2 : u ++ r = (u1 ++ u2) ++ r := by
                rw [hu1, hu2, List.append_assoc]
              exact List.append_cancel_right h2
            rw [hu2] at hp hu1
            rw [hu1] at hp
            rw [hu2] at hq
            subst hu
            simp only [List.length_append] at hm hB
            rcases Nat.lt_or_ge m u1.length with hm1 | hm1
            · rw [List.take_append_of_le_length (Nat.le_of_lt hm1)]
              have he := htr u1 (u2 ++ r) t1 hp m hm1 (by omega)
              simp only [parseListStep]
              rw [he]
            · obtain ⟨m2, rfl⟩ : ∃ m2, m = u1.length + m2 :=
                ⟨m - u1.length, by omega⟩
              rw [List.take_append]
              have he1 := hext u1 (u2 ++ r) t1 hp (u2.take m2)
                (by rw [List.length_take_of_le (by omega)]; omega)
              have he2 := ih u2 r ts2 hq m2 (by omega) (by omega)
              simp only [parseListStep]
              rw [he1]
              dsimp only
              rw [he2]

/-- Truncating a compound payload inside its consumed bytes yields
`UnexpectedEof`; every entry costs at least four bytes beyond its payload,
which provides the slack for the byte budget `B` of `pay2`. -/
theorem parseCompoundF_trunc {pay pay2 : Nat → List Nat → Option (PRes NbtTag)}
    {B : Nat}
    (hshape : ∀ tt l a r, pay tt l = some (.ok (a, r)) → ∃ u, l = u ++ r)
    (hext : ∀ tt u r a, pay tt (u ++ r) = some (.ok (a, r)) →
        ∀ w, u.length + w.length < B → pay2 tt (u ++ w) = some (.ok (a, w)))
    (htr : ∀ tt u r a, pay tt (u ++ r) = some (.ok (a, r)) →
        ∀ m, m < u.length → u.length ≤ B →
          pay2 tt (u.take m) = some (.error .UnexpectedEof)) :
    ∀ cf acc u r es, parseCompoundF pay cf acc (u ++ r) = some (.ok (es, r)) →
      ∀ m cf', m < u.length → u.length ≤ B + 1 → m < cf' →
        parseCompoundF pay2 cf' acc (u.take m) = some (.error .UnexpectedEof) := by
  intro cf
  induction cf with
  | zero => intro acc u r es h; simp [parseCompoundF] at h
  | succ cf ih =>
    intro acc u r es h m cf' hm hB hcf'
    obtain ⟨g, rfl⟩ : ∃ g, cf' = g + 1 := ⟨cf' - 1, by omega⟩
    simp only [parseCompoundF] at h
    cases hu8 : readU8 (u ++ r) with
    | error e => rw [hu8] at h; simp at h
    | ok p =>
      obtain ⟨tt, r1⟩ := p
      rw [hu8] at h
      dsimp only at h
      by_cases htt : tt = 0
      · rw [if_pos htt] at h
        simp only [Option.some.injEq, Except.ok.injEq, Prod.mk.injEq] at h
        obtain ⟨hacc, hr1⟩ := h
        have hu : u = [tt] := by
          have h2 : u ++ r = [tt] ++ r := by
            have := readU8_shape hu8
            rw [hr1] at this
            simpa using this
          exact List.append_cancel_right h2
        subst hu
        have hm0 : m = 0 := by simp at hm; omega
        subst hm0
        rfl
      · rw [if_neg htt] at h
        cases hs : parse_nbt_string r1 with
        | error e => rw [hs] at h; simp at h
        | ok p2 =>
          obtain ⟨name, r2⟩ := p2
          rw [hs] at h
          dsimp only at h
          cases hp : pay tt r2 with
          | none => rw [hp] at h; simp at h
          | some res =>
            rw [hp] at h
            match res with
            | .error e => simp at h
            | .ok (t1, r3) =>
              dsimp only at h
              obtain ⟨b1, b2, bs, heq, -, -⟩ := parse_nbt_string_shape hs
              have hu2 : r1 = (b1 :: b2 :: bs) ++ r2 := by simpa using heq
              obtain ⟨u3, hu3⟩ := hshape tt r2 t1 r3 hp
              obtain ⟨u4, hu4⟩ := parseCompoundF_shape hshape cf _ r3 es r h
              have hu : u = tt :: ((b1 :: b2 :: bs) ++ (u3 ++ u4)) := by
                have h2 : u ++ r = (tt :: ((b1 :: b2 :: bs) ++ (u3 ++ u4))) ++ r := by
                  rw [readU8_shape hu8, hu2, hu3, hu4]
                  simp
                exact List.append_cancel_right h2
              subst hu
              simp only [List.length_cons, List.length_append] at hm hB
              match m, hm with
              | 0, _ => rfl
              | m' + 1, hm =>
                rw [show (tt :: ((b1 :: b2 :: bs) ++ (u3 ++ u4))).take (m' + 1)
                    = tt :: ((b1 :: b2 :: bs) ++ (u3 ++ u4)).take m' from rfl]
                rw [hu2] at hs
                rw [hu3] at hp
                rcases Nat.lt_or_ge m' (b1 :: b2 :: bs).length with hm1 | hm1
                · rw [List.take_append_of_le_length (Nat.le_of_lt hm1)]
                  have he := parse_nbt_string_trunc hs m' hm1
                  simp only [parseCompoundF]
                  rw [show readU8 (tt :: (b1 :: b2 :: bs).take m')
                      = .ok (tt, (b1 :: b2 :: bs).take m') from rfl]
                  dsimp only
                  rw [if_neg htt, he]
                · obtain ⟨m2, rfl⟩ : ∃ m2, m' = (b1 :: b2 :: bs).length + m2 :=
                    ⟨m' - (b1 :: b2 :: bs).length, by omega⟩
                  rw [List.take_append]
                  simp only [List.length_cons] at hm hm1
                  rcases Nat.lt_or_ge m2 u3.length with hm3 | hm3
                  · rw [List.take_append_of_le_length (Nat.le_of_lt hm3)]
                    have hse := parse_nbt_string_ext hs (u3.take m2)
                    have he := htr tt u3 r3 t1 hp m2 hm3 (by omega)
                    simp only [parseCompoundF]
                    rw [show readU8 (tt :: ((b1 :: b2 :: bs) ++ u3.take m2))
                        = .ok (tt, (b1 :: b2 :: bs) ++ u3.take m2) from rfl]
                    dsimp only
                    rw [if_neg htt, hse]
                    dsimp only
                    rw [he]
                  · obtain ⟨m4, rfl⟩ : ∃ m4, m2 = u3.length + m4 :=
                      ⟨m2 - u3.length, by omega⟩
                    rw [List.take_append]
                    have hse := parse_nbt_string_ext hs (u3 ++ u4.take m4)
                    have hpe := hext tt u3 r3 t1 hp (u4.take m4)
                      (by rw [List.length_take_of_le (by omega)]; omega)
                    rw [hu4] at h
                    have hrec := ih (indexInsert acc name t1) u4 r es h m4 g
                      (by omega) (by omega) (by omega)
                    simp only [parseCompoundF]
                    rw [show readU8 (tt :: ((b1 :: b2 :: bs) ++ (u3 ++ u4.take m4)))
                        = .ok (tt, (b1 :: b2 :: bs) ++ (u3 ++ u4.take m4)) from rfl]
                    dsimp only
                    rw [if_neg htt, hse]
                    dsimp only
                    rw [hpe]
                    dsimp only
                    exact hrec

/-- Truncating a successfully parsed payload inside its consumed bytes
yields `UnexpectedEof`, at any fuel at least the consumed length. -/
theorem parsePayloadF_trunc :
    ∀ f t u r a, parsePayloadF f t (u ++ r) = some (.ok (a, r)) →
      ∀ m f2, m < u.length → u.length ≤ f2 →
        parsePayloadF f2 t (u.take m) = some (.error .UnexpectedEof) := by
  intro f
  induction f with
  | zero => intro t u r a h; simp [parsePayloadF] at h
  | succ f ih =>
    intro t u r a h m f2 hm hf2
    obtain ⟨g, rfl⟩ : ∃ g, f2 = g + 1 := ⟨f2 - 1, by omega⟩
    match t with
    | 0 =>
      simp only [parsePayloadF, Option.some.injEq, Except.ok.injEq, Prod.mk.injEq] at h
      have hu : u = [] := by
        have h2 : u ++ r = [] ++ r := by simpa using h.2
        exact List.append_cancel_right h2
      subst hu
      simp at hm
    | 1 =>
      simp only [parsePayloadF] at h
      cases hr8 : readU8 (u ++ r) with
      | error e => rw [hr8] at h; simp at h
      | ok p =>
        obtain ⟨b, r1⟩ := p
        rw [hr8] at h
        simp only [Option.some.injEq, Except.ok.injEq, Prod.mk.injEq] at h
        rw [h.2] at hr8
        have hu : u = [b] := by
          have h2 : u ++ r = [b] ++ r := by simpa using readU8_shape hr8
          exact List.append_cancel_right h2
        subst hu
        simp only [List.length_cons, List.length_nil] at hm
        have hm0 : m = 0 := by omega
        subst hm0
        rfl
    | 2 =>
      simp only [parsePayloadF] at h
      cases hr16 : readU16 (u ++ r) with
      | error e => rw [hr16] at h; simp at h
      | ok p =>
        obtain ⟨v, r1⟩ := p
        rw [hr16] at h
        simp only [Option.some.injEq, Except.ok.injEq, Prod.mk.injEq] at h
        rw [h.2] at hr16
        obtain ⟨b1, b2, he, -⟩ := readU16_shape hr16
        have hu : u = [b1, b2] := by
          have h2 : u ++ r = [b1, b2] ++ r := by simpa using he
          exact List.append_cancel_right h2
        subst hu
        simp only [List.length_cons, List.length_nil] at hm
        have hlt : (([b1, b2] : List Nat).take m).length < 2 := by
          rw [List.length_take]
          simp only [List.length_cons, List.length_nil]
          omega
        simp only [parsePayloadF]
        rw [readU16_short hlt]
    | 3 =>
      simp only [parsePayloadF] at h
      cases hr32 : readU32 (u ++ r) with
      | error e => rw [hr32] at h; simp at h
      | ok p =>
        obtain ⟨v, r1⟩ := p
        rw [hr32] at h
        simp only [Option.some.injEq, Except.ok.injEq, Prod.mk.injEq] at h
        rw [h.2] at hr32
        obtain ⟨b1, b2, b3, b4, he, -⟩ := readU32_shape hr32
        have hu : u = [b1, b2, b3, b4] := by
          have h2 : u ++ r = [b1, b2, b3, b4] ++ r := by simpa using he
          exact List.append_cancel_right h2
        subst hu
        simp only [List.length_cons, List.length_nil] at hm
        have hlt : (([b1, b2, b3, b4] : List Nat).take m).length < 4 := by
          rw [List.length_take]
          simp only [List.length_cons, List.length_nil]
          omega
        simp only [parsePayloadF]
        rw [readU32_short hlt]
    | 4 =>
      simp only [parsePayloadF] at h
      cases hr64 : readU64 (u ++ r) with
      | error e => rw [hr64] at h; simp at h
      | ok p =>
        obtain ⟨v, r1⟩ := p
        rw [hr64] at h
        simp only [Option.some.injEq, Except.ok.injEq, Prod.mk.injEq] at h
        rw [h.2] at hr64
        obtain ⟨b1, b2, b3, b4, b5, b6, b7, b8, he, -⟩ := readU64_shape hr64
        have hu : u = [b1, b2, b3, b4, b5, b6, b7, b8] := by
          have h2 : u ++ r = [b1, b2, b3, b4, b5, b6, b7, b8] ++ r := by
            simpa using he
          exact List.append_cancel_right h2
        subst hu
        simp only [List.length_cons, List.length_nil] at hm
        have hlt : (([b1, b2, b3, b4, b5, b6, b7, b8] : List Nat).take m).length < 8 := by
          rw [List.length_take]
          simp only [List.length_cons, List.length_nil]
          omega
        simp only [parsePayloadF]
        rw [readU64_short hlt]
    | 5 =>
      simp only [parsePayloadF] at h
      cases hr32 : readU32 (u ++ r) with
      | error e => rw [hr32] at h; simp at h
      | ok p =>
        obtain ⟨v, r1⟩ := p
        rw [hr32] at h
        simp only [Option.some.injEq, Except.ok.injEq, Prod.mk.injEq] at h
        rw [h.2] at hr32
        obtain ⟨b1, b2, b3, b4, he, -⟩ := readU32_shape hr32
        have hu : u = [b1, b2, b3, b4] := by
          have h2 : u ++ r = [b1, b2, b3, b4] ++ r := by simpa using he
          exact List.append_cancel_right h2
        subst hu
        simp only [List.length_cons, List.length_nil] at hm
        have hlt : (([b1, b2, b3, b4] : List Nat).take m).length < 4 := by
          rw [List.length_take]
          simp only [List.length_cons, List.length_nil]
          omega
        simp only [parsePayloadF]
        rw [readU32_short hlt]
    | 6 =>
      simp only [parsePayloadF] at h
      cases hr64 : readU64 (u ++ r) with
      | error e => rw [hr64] at h; simp at h
      | ok p =>
        obtain ⟨v, r1⟩ := p
        rw [hr64] at h
        simp only [Option.some.injEq, Except.ok.injEq, Prod.mk.injEq] at h
        rw [h.2] at hr64
        obtain ⟨b1, b2, b3, b4, b5, b6, b7, b8, he, -⟩ := readU64_shape hr64
        have hu : u = [b1, b2, b3, b4, b5, b6, b7, b8] := by
          have h2 : u ++ r = [b1, b2, b3, b4, b5, b6, b7, b8] ++ r := by
            simpa using he
          exact List.append_cancel_right h2
        subst hu
        simp only [List.length_cons, List.length_nil] at hm
        have hlt : (([b1, b2, b3, b4, b5, b6, b7, b8] : List Nat).take m).length < 8 := by
          rw [List.length_take]
          simp only [List.length_cons, List.length_nil]
          omega
        simp only [parsePayloadF]
        rw [readU64_short hlt]
    | 7 =>
      simp only [parsePayloadF] at h
      cases hr32 : readU32 (u ++ r) with
      | error e => rw [hr32] at h; simp at h
      | ok p =>
        obtain ⟨cnt, r1⟩ := p
        rw [hr32] at h
        dsimp only at h
        cases hb : readBytes (i32ToUsize cnt) r1 with
        | error e => rw [hb] at h; simp at h
        | ok p2 =>
          obtain ⟨bs, r2⟩ := p2
          rw [hb] at h
          simp only [Option.some.injEq, Except.ok.injEq, Prod.mk.injEq] at h
          rw [h.2] at hb
          obtain ⟨b1, b2, b3, b4, he, hv⟩ := readU32_shape hr32
          obtain ⟨hb1, hblen⟩ := readBytes_shape hb
          have hu : u = b1 :: b2 :: b3 :: b4 :: bs := by
            have h2 : u ++ r = (b1 :: b2 :: b3 :: b4 :: bs) ++ r := by
              rw [he, hb1]; rfl
            exact List.append_cancel_right h2
          subst hu
          simp only [List.length_cons] at hm
          rcases Nat.lt_or_ge m 4 with hm4 | hm4
          · have hlt : ((b1 :: b2 :: b3 :: b4 :: bs).take m).length < 4 := by
              rw [List.length_take]
              omega
            simp only [parsePayloadF]
            rw [readU32_short hlt]
          · obtain ⟨m2, rfl⟩ : ∃ m2, m = m2 + 4 := ⟨m - 4, by omega⟩
            rw [show (b1 :: b2 :: b3 :: b4 :: bs).take (m2 + 4)
                = b1 :: (b2 :: (b3 :: (b4 :: bs.take m2))) from rfl]
            simp only [parsePayloadF]
            rw [show readU32 (b1 :: (b2 :: (b3 :: (b4 :: bs.take m2))))
                = .ok (b1 * 16777216 + b2 * 65536 + b3 * 256 + b4, bs.take m2)
              from rfl]
            have hlt : (bs.take m2).length < i32ToUsize cnt := by
              rw [List.length_take, ← hblen]
              omega
            dsimp only
            rw [← hv, readBytes_short hlt]
    | 8 =>
      simp only [parsePayloadF] at h
      cases hs : parse_nbt_string (u ++ r) with
      | error e => rw [hs] at h; simp at h
      | ok p =>
        obtain ⟨s, r1⟩ := p
        rw [hs] at h
        simp only [Option.some.injEq, Except.ok.injEq, Prod.mk.injEq] at h
        rw [h.2] at hs
        obtain ⟨b1, b2, bs, he, -, -⟩ := parse_nbt_string_shape hs
        have hu : u = b1 :: b2 :: bs := by
          have h2 : u ++ r = (b1 :: b2 :: bs) ++ r := by simpa using he
          exact List.append_cancel_right h2
        subst hu
        simp only [parsePayloadF]
        rw [parse_nbt_string_trunc hs m hm]
    | 9 =>
      simp only [parsePayloadF] at h
      cases hr8 : readU8 (u ++ r) with
      | error e => rw [hr8] at h; simp at h
      | ok p =>
        obtain ⟨et, r1⟩ := p
        rw [hr8] at h
        dsimp only at h
        cases h32 : readU32 r1 with
        | error e => rw [h32] at h; simp at h
        | ok p2 =>
          obtain ⟨cnt, r2⟩ := p2
          rw [h32] at h
          dsimp only at h
          cases hl : parseListStep (parsePayloadF f et) (i32ToUsize cnt) r2 with
          | none => rw [hl] at h; simp at h
          | some res =>
            rw [hl] at h
            match res with
            | .error e => simp at h
            | .ok (ts, r3) =>
              simp only [Option.some.injEq, Except.ok.injEq, Prod.mk.injEq] at h
              rw [h.2] at hl
              obtain ⟨b1, b2, b3, b4, he32, hv⟩ := readU32_shape h32
              obtain ⟨u3, hu3⟩ := parseListStep_shape
                (fun l2 a2 r2 => parsePayloadF_shape f et l2 a2 r2)
                (i32ToUsize cnt) r2 ts r hl
              have hu : u = et :: b1 :: b2 :: b3 :: b4 :: u3 := by
                have h2 : u ++ r = (et :: b1 :: b2 :: b3 :: b4 :: u3) ++ r := by
                  rw [readU8_shape hr8, he32, hu3]; rfl
                exact List.append_cancel_right h2
              subst hu
              rw [hu3] at hl
              simp only [List.length_cons] at hm hf2
              match m, hm with
              | 0, _ => rfl
              | m' + 1, hm =>
                rw [show (et :: b1 :: b2 :: b3 :: b4 :: u3).take (m' + 1)
                    = et :: (b1 :: b2 :: b3 :: b4 :: u3).take m' from rfl]
                rcases Nat.lt_or_ge m' 4 with hm4 | hm4
                · have hlt : ((b1 :: b2 :: b3 :: b4 :: u3).take m').length < 4 := by
                    rw [List.length_take]
                    omega
                  simp only [parsePayloadF]
                  rw [show readU8 (et :: (b1 :: b2 :: b3 :: b4 :: u3).take m')
                      = .ok (et, (b1 :: b2 :: b3 :: b4 :: u3).take m') from rfl]
                  dsimp only
                  rw [readU32_short hlt]
                · obtain ⟨m3, rfl⟩ : ∃ m3, m' = m3 + 4 := ⟨m' - 4, by omega⟩
                  rw [show (b1 :: b2 :: b3 :: b4 :: u3).take (m3 + 4)
                      = b1 :: (b2 :: (b3 :: (b4 :: u3.take m3))) from rfl]
                  have hltr := @parseListStep_trunc (parsePayloadF f et)
                    (parsePayloadF g et) g
                    (fun l2 a2 r2 => parsePayloadF_shape f et l2 a2 r2)
                    (fun u' r' a' hp' w' hlen' => parsePayloadF_det
                      (parsePayloadF_ext f et u' r' a' hp' w')
                      (by simp only [List.length_append]; omega))
                    (fun u' r' a' hp' m' hm' hB' => ih et u' r' a' hp' m' g hm' hB')
                    (i32ToUsize cnt) u3 r ts hl m3 (by omega) (by omega)
                  simp only [parsePayloadF]
                  rw [show readU8 (et :: (b1 :: (b2 :: (b3 :: (b4 :: u3.take m3)))))
                      = .ok (et, b1 :: (b2 :: (b3 :: (b4 :: u3.take m3)))) from rfl]
                  dsimp only
                  rw [show readU32 (b1 :: (b2 :: (b3 :: (b4 :: u3.take m3))))
                      = .ok (b1 * 16777216 + b2 * 65536 + b3 * 256 + b4, u3.take m3)
                    from rfl]
                  dsimp only
                  rw [← hv, hltr]
    | 10 =>
      simp only [parsePayloadF] at h
      cases hc : parseCompoundF (parsePayloadF f) ((u ++ r).length + 1) [] (u ++ r) with
      | none => rw [hc] at h; simp at h
      | some res =>
        rw [hc] at h
        match res with
        | .error e => simp at h
        | .ok (es, r1) =>
          simp only [Option.some.injEq, Except.ok.injEq, Prod.mk.injEq] at h
          rw [h.2] at hc
          obtain ⟨u1, hu1⟩ := parseCompoundF_shape
            (fun tt l2 a2 r2 => parsePayloadF_shape f tt l2 a2 r2)
            ((u ++ r).length + 1) [] (u ++ r) es r hc
          have hu : u = u1 := List.append_cancel_right hu1
          subst hu
          rw [hu1] at hc
          have hctr := @parseCompoundF_trunc (parsePayloadF f) (parsePayloadF g) g
            (fun tt l2 a2 r2 => parsePayloadF_shape f tt l2 a2 r2)
            (fun tt u' r' a' hp' w' hlen' => parsePayloadF_det
              (parsePayloadF_ext f tt u' r' a' hp' w')
              (by simp only [List.length_append]; omega))
            (fun tt u' r' a' hp' m' hm' hB' => ih tt u' r' a' hp' m' g hm' hB')
            ((u ++ r).length + 1) [] u r es hc m ((u.take m).length + 1)
            hm (by omega)
            (by rw [List.length_take]; omega)
          simp only [parsePayloadF]
          rw [hctr]
    | 11 =>
      simp only [parsePayloadF] at h
      cases hr32 : readU32 (u ++ r) with
      | error e => rw [hr32] at h; simp at h
      | ok p =>
        obtain ⟨cnt, r1⟩ := p
        rw [hr32] at h
        dsimp only at h
        cases hb : readBytes (i32ToUsize cnt * 4 % 18446744073709551616) r1 with
        | error e => rw [hb] at h; simp at h
        | ok p2 =>
          obtain ⟨bs, r2⟩ := p2
          rw [hb] at h
          simp only [Option.some.injEq, Except.ok.injEq, Prod.mk.injEq] at h
          rw [h.2] at hb
          obtain ⟨b1, b2, b3, b4, he, hv⟩ := readU32_shape hr32
          obtain ⟨hb1, hblen⟩ := readBytes_shape hb
          have hu : u = b1 :: b2 :: b3 :: b4 :: bs := by
            have h2 : u ++ r = (b1 :: b2 :: b3 :: b4 :: bs) ++ r := by
              rw [he, hb1]; rfl
            exact List.append_cancel_right h2
          subst hu
          simp only [List.length_cons] at hm
          rcases Nat.lt_or_ge m 4 with hm4 | hm4
          · have hlt : ((b1 :: b2 :: b3 :: b4 :: bs).take m).length < 4 := by
              rw [List.length_take]
              omega
            simp only [parsePayloadF]
            rw [readU32_short hlt]
          · obtain ⟨m2, rfl⟩ : ∃ m2, m = m2 + 4 := ⟨m - 4, by omega⟩
            rw [show (b1 :: b2 :: b3 :: b4 :: bs).take (m2 + 4)
                = b1 :: (b2 :: (b3 :: (b4 :: bs.take m2))) from rfl]
            simp only [parsePayloadF]
            rw [show readU32 (b1 :: (b2 :: (b3 :: (b4 :: bs.take m2))))
                = .ok (b1 * 16777216 + b2 * 65536 + b3 * 256 + b4, bs.take m2)
              from rfl]
            have hlt : (bs.take m2).length
                < i32ToUsize cnt * 4 % 18446744073709551616 := by
              rw [List.length_take, ← hblen]
              omega
            dsimp only
            rw [← hv, readBytes_short hlt]
    | 12 =>
      simp only [parsePayloadF] at h
      cases hr32 : readU32 (u ++ r) with
      | error e => rw [hr32] at h; simp at h
      | ok p =>
        obtain ⟨cnt, r1⟩ := p
        rw [hr32] at h
        dsimp only at h
        cases hb : readBytes (i32ToUsize cnt * 8 % 18446744073709551616) r1 with
        | error e => rw [hb] at h; simp at h
        | ok p2 =>
          obtain ⟨bs, r2⟩ := p2
          rw [hb] at h
          simp only [Option.some.injEq, Except.ok.injEq, Prod.mk.injEq] at h
          rw [h.2] at hb
          obtain ⟨b1, b2, b3, b4, he, hv⟩ := readU32_shape hr32
          obtain ⟨hb1, hblen⟩ := readBytes_shape hb
          have hu : u = b1 :: b2 :: b3 :: b4 :: bs := by
            have h2 : u ++ r = (b1 :: b2 :: b3 :: b4 :: bs) ++ r := by
              rw [he, hb1]; rfl
            exact List.append_cancel_right h2
          subst hu
          simp only [List.length_cons] at hm
          rcases Nat.lt_or_ge m 4 with hm4 | hm4
          · have hlt : ((b1 :: b2 :: b3 :: b4 :: bs).take m).length < 4 := by
              rw [List.length_take]
              omega
            simp only [parsePayloadF]
            rw [readU32_short hlt]
          · obtain ⟨m2, rfl⟩ : ∃ m2, m = m2 + 4 := ⟨m - 4, by omega⟩
            rw [show (b1 :: b2 :: b3 :: b4 :: bs).take (m2 + 4)
                = b1 :: (b2 :: (b3 :: (b4 :: bs.take m2))) from rfl]
            simp only [parsePayloadF]
            rw [show readU32 (b1 :: (b2 :: (b3 :: (b4 :: bs.take m2))))
                = .ok (b1 * 16777216 + b2 * 65536 + b3 * 256 + b4, bs.take m2)
              from rfl]
            have hlt : (bs.take m2).length
                < i32ToUsize cnt * 8 % 18446744073709551616 := by
              rw [List.length_take, ← hblen]
              omega
            dsimp only
            rw [← hv, readBytes_short hlt]
    | (n + 13) =>
      simp [parsePayloadF] at h

/-- C6: for every byte sequence that is a complete valid encoding of a
named tag (the parser accepts it consuming every byte), parsing any strict
prefix of it fails with exactly `UnexpectedEof` — never a different error
kind; the parser is a total function of the byte list, so no behaviour is
undefined. -/
theorem C6_truncation_safety (b : List Nat) (doc : List Nat × NbtTag)
    (h : parse_named_tag b = .ok (doc, [])) :
    ∀ k, k < b.length → parse_named_tag (b.take k) = .error .UnexpectedEof := by
  intro k hk
  unfold parse_named_tag at h
  cases hu8 : readU8 b with
  | error e => rw [hu8] at h; simp at h
  | ok p =>
    obtain ⟨t, r0⟩ := p
    rw [hu8] at h
    dsimp only at h
    have hb : b = t :: r0 := readU8_shape hu8
    by_cases htt : t = 0
    · rw [if_pos htt] at h
      simp only [Except.ok.injEq, Prod.mk.injEq] at h
      obtain ⟨hdoc, hr0⟩ := h
      subst hr0
      rw [hb] at hk
      simp only [List.length_cons, List.length_nil] at hk
      have hk0 : k = 0 := by omega
      subst hk0
      rw [List.take_zero]
      rfl
    · rw [if_neg htt] at h
      cases hs : parse_nbt_string r0 with
      | error e => rw [hs] at h; simp at h
      | ok p2 =>
        obtain ⟨name, r2⟩ := p2
        rw [hs] at h
        dsimp only at h
        cases hp : parse_tag_payload t r2 with
        | error e => rw [hp] at h; simp at h
        | ok p3 =>
          obtain ⟨tag, r3⟩ := p3
          rw [hp] at h
          simp only [Except.ok.injEq, Prod.mk.injEq] at h
          obtain ⟨hdoc, hr3⟩ := h
          subst hr3
          obtain ⟨b1, b2, bs, he, -, -⟩ := parse_nbt_string_shape hs
          have hu2 : r0 = (b1 :: b2 :: bs) ++ r2 := by simpa using he
          have hpf : parsePayloadF (r2.length + 1) t (r2 ++ [])
              = some (.ok (tag, [])) := by
            rw [List.append_nil, parsePayloadF_of_public (by omega), hp]
          match k, hk with
          | 0, _ =>
            rw [List.take_zero]
            rfl
          | k' + 1, hk =>
            rw [show b.take (k' + 1)
                = t :: ((b1 :: b2 :: bs) ++ r2).take k' from by rw [hb, hu2]; rfl]
            unfold parse_named_tag
            rw [show readU8 (t :: ((b1 :: b2 :: bs) ++ r2).take k')
                = .ok (t, ((b1 :: b2 :: bs) ++ r2).take k') from rfl]
            dsimp only
            rw [if_neg htt]
            rw [hu2] at hs
            rcases Nat.lt_or_ge k' (b1 :: b2 :: bs).length with hk1 | hk1
            · rw [List.take_append_of_le_length (Nat.le_of_lt hk1)]
              rw [parse_nbt_string_trunc hs k' hk1]
            · obtain ⟨m3, rfl⟩ : ∃ m3, k' = (b1 :: b2 :: bs).length + m3 :=
                ⟨k' - (b1 :: b2 :: bs).length, by omega⟩
              rw [List.take_append]
              rw [parse_nbt_string_ext hs (r2.take m3)]
              dsimp only
              have hm3 : m3 < r2.length := by
                rw [hb, hu2] at hk
                simp only [List.length_cons, List.length_append] at hk
                omega
              have htr := parsePayloadF_trunc (r2.length + 1) t r2 [] tag hpf
                m3 r2.length hm3 (Nat.le_refl _)
              have hpub : parse_tag_payload t (r2.take m3)
                  = .error .UnexpectedEof :=
                parse_tag_payload_eq (by rw [List.length_take]; omega) htr
              rw [hpub]

/-- C6 witness: the 5-byte document `("a" : Byte 5)` parses completely, and
its 3-byte prefix fails with `UnexpectedEof`. -/
theorem C6_truncation_safety_witness :
    parse_named_tag [1, 0, 1, 97, 5] = .ok (([97], .Byte 5), [])
    ∧ parse_named_tag (([1, 0, 1, 97, 5] : List Nat).take 3)
      = .error .UnexpectedEof :=
  ⟨rfl, C6_truncation_safety [1, 0, 1, 97, 5] ([97], .Byte 5) rfl 3 (by decide)⟩

end AnvilNbt
